import Mathlib

/-!
# Cache simulator (`csim.c`) and transpose functions (`trans.c`): embedding and properties

The definitions below embed the simulator of `cachelab-handout/csim.c` and the
functions of `cachelab-handout/trans.c`.

* `unsigned int` counters are natural numbers reduced modulo `2 ^ 32`,
  the `unsigned long long` clock is reduced modulo `2 ^ 64`; `size_t` and
  `unsigned long long` are 64 bits wide, a pointer takes 8 bytes and a
  `cache_line_t` 24 bytes.
* A shift of an `unsigned long long` by 64 or more has no defined result in C;
  `shl64` and `shr64` return `none` there, and so does every computation that
  depends on it.  An array access outside the array is `none` as well.
* A set is the list of its `E` lines in index order, the cache the list of its
  `S` sets.  The outcomes of the calls of `malloc` that build the cache are an
  argument `heap` of the run: `heap 0` tells whether the call for the array of
  set pointers returns a block, `heap (i + 1)` whether the call for the lines
  of set `i` does.
* The trace is the list of the records that `fscanf` delivers from the open
  trace file, in order.
-/

namespace Csim

/-- The constant `ULLONG_MAX` of `limits.h` for a 64-bit `unsigned long long`. -/
def ULLONG_MAX : Nat := 2 ^ 64 - 1

/-- One line of the cache, `cache_line_t`.  The `int valid` flag only ever
holds 0 or 1 and is only tested for being non-zero. -/
structure cache_line_t where
  valid : Bool
  tag : Nat
  lru : Nat
deriving DecidableEq, Repr

/-- The simulator's variables that live across the loop: the cache and the
counters `hits`, `misses`, `evictions` (`unsigned int`) and `time`
(`unsigned long long`). -/
structure sim_state where
  cache : List (List cache_line_t)
  hits : Nat
  misses : Nat
  evictions : Nat
  time : Nat
deriving DecidableEq, Repr

/-- One record of the trace as `fscanf(fp, " %c %llx,%d", &op, &addr, &size)`
stores it. -/
structure record where
  op : Char
  addr : Nat
  size : Int
deriving DecidableEq, Repr

/-- The shift `x >> n` on `unsigned long long`, undefined for `n ≥ 64`. -/
def shr64 (x n : Nat) : Option Nat :=
  if n < 64 then some (x >>> n) else none

/-- The shift `x << n` on `unsigned long long`, undefined for `n ≥ 64`. -/
def shl64 (x n : Nat) : Option Nat :=
  if n < 64 then some ((x <<< n) % 2 ^ 64) else none

/-- The increment `x++` of an `unsigned int`. -/
def incr32 (x : Nat) : Nat := (x + 1) % 2 ^ 32

/-- The increment `x++` of an `unsigned long long`. -/
def incr64 (x : Nat) : Nat := (x + 1) % 2 ^ 64

/-- The computation of `set_mask`:
`(s == 64) ? ULLONG_MAX : ((1ULL << s) - 1ULL)`. -/
def set_mask (s : Nat) : Option Nat :=
  if s = 64 then some ULLONG_MAX
  else match shl64 1 s with
    | none => none
    | some x => some ((x + 2 ^ 64 - 1) % 2 ^ 64)

/-- The two lines that decode an address:
`set_index = (addr >> b) & set_mask; tag = addr >> (s + b);`. -/
def decode (s b mask addr : Nat) : Option (Nat × Nat) :=
  match shr64 addr b with
  | none => none
  | some x =>
    match shr64 addr (s + b) with
    | none => none
    | some tag => some (x &&& mask, tag)

/-- The hit search: the loop over `i` that stops at the first line that is
valid and holds `tag`; `none` stands for `hit_idx == -1`.  The argument `i` is
the index of the head of the list. -/
def hit_search (tag : Nat) : List cache_line_t → Nat → Option Nat
  | [], _ => none
  | l :: ls, i => if l.valid = true ∧ l.tag = tag then some i else hit_search tag ls (i + 1)

/-- The search for an empty line: the loop over `i` that stops at the first
line that is not valid; `none` stands for `empty_idx == -1`. -/
def empty_search : List cache_line_t → Nat → Option Nat
  | [], _ => none
  | l :: ls, i => if l.valid = false then some i else empty_search ls (i + 1)

/-- The search for the victim: the loop over `i` that keeps in `lru_idx` the
index of the first line whose `lru` is below `min_lru`, and lowers `min_lru`
to it. -/
def lru_search : List cache_line_t → Nat → Nat → Nat → Nat
  | [], _, _, lru_idx => lru_idx
  | l :: ls, i, min_lru, lru_idx =>
    if l.lru < min_lru then lru_search ls (i + 1) l.lru i
    else lru_search ls (i + 1) min_lru lru_idx

/-- An assignment to fields of `cache[set_index][idx]`, given the set: `f`
gives the line after the assignment.  Undefined outside the set. -/
def store_line (set : List cache_line_t) (idx : Nat) (f : cache_line_t → cache_line_t) :
    Option (List cache_line_t) :=
  match set[idx]? with
  | none => none
  | some l => some (set.set idx (f l))

/-- The body of the loop over `a`: one reference to `addr`. -/
def access (s b mask : Nat) (st : sim_state) (addr : Nat) : Option sim_state :=
  match decode s b mask addr with
  | none => none
  | some (set_index, tag) =>
    match st.cache[set_index]? with
    | none => none
    | some set =>
      match hit_search tag set 0 with
      | some hit_idx =>
        match store_line set hit_idx (fun l => { l with lru := st.time }) with
        | none => none
        | some set1 =>
          some { st with
            hits := incr32 st.hits
            time := incr64 st.time
            cache := st.cache.set set_index set1 }
      | none =>
        match empty_search set 0 with
        | some empty_idx =>
          match store_line set empty_idx
              (fun l => { l with valid := true, tag := tag, lru := st.time }) with
          | none => none
          | some set1 =>
            some { st with
              misses := incr32 st.misses
              time := incr64 st.time
              cache := st.cache.set set_index set1 }
        | none =>
          match store_line set (lru_search set 0 ULLONG_MAX 0)
              (fun l => { l with tag := tag, lru := st.time }) with
          | none => none
          | some set1 =>
            some { st with
              misses := incr32 st.misses
              evictions := incr32 st.evictions
              time := incr64 st.time
              cache := st.cache.set set_index set1 }

/-- The loop `for (int a = 0; a < accesses; a++)`, with `n` iterations left. -/
def accesses_loop (s b mask addr : Nat) : Nat → sim_state → Option sim_state
  | 0, st => some st
  | n + 1, st =>
    match access s b mask st addr with
    | none => none
    | some st1 => accesses_loop s b mask addr n st1

/-- The body of the `while` loop for one record: an `I` record is skipped, an
`M` record is two references, every other record one. -/
def process_record (s b mask : Nat) (st : sim_state) (r : record) : Option sim_state :=
  if r.op = 'I' then some st
  else accesses_loop s b mask r.addr (if r.op = 'M' then 2 else 1) st

/-- The `while` loop over the records of the trace. -/
def run_trace (s b mask : Nat) : sim_state → List record → Option sim_state
  | st, [] => some st
  | st, r :: rs =>
    match process_record s b mask st r with
    | none => none
    | some st1 => run_trace s b mask st1 rs

/-- The cache after its allocation has completed: `S` sets of `E` lines, every
line with `valid = 0`, `tag = 0`, `lru = 0`. -/
def init_cache (S E : Nat) : List (List cache_line_t) :=
  List.replicate S (List.replicate E { valid := false, tag := 0, lru := 0 })

/-- The state at the head of the `while` loop: the fresh cache, the three
counters at 0 and `time = 1`. -/
def init_state (S E : Nat) : sim_state :=
  { cache := init_cache S E, hits := 0, misses := 0, evictions := 0, time := 1 }

/-- The constant `INT_MAX` of `limits.h` for a 32-bit `int`. -/
def INT_MAX : Nat := 2 ^ 31 - 1

/-- The value of `sizeof(cache_line_t*)`: a pointer takes 8 bytes. -/
def sizeof_ptr : Nat := 8

/-- The value of `sizeof(cache_line_t)`: an `int`, 4 bytes of padding and two
`unsigned long long`, 24 bytes. -/
def sizeof_line : Nat := 24

/-- How the allocation of the cache (lines 61-74) ends: with the cache built,
with `return status`, or in a store outside an allocated block, which has no
defined result. -/
inductive alloc_result where
  | cache (c : List (List cache_line_t))
  | exit (status : Nat)
  | undefined
deriving DecidableEq, Repr

/-- The loop over `j` (lines 69-73) that initialises the lines of one set, in
a block of `bytes` bytes: `k` iterations from `j` on, `acc` holding the lines
written so far.  Line `j` lies in the block when `sizeof_line * (j + 1)` does
not exceed `bytes`. -/
def init_lines (bytes : Nat) : Nat → Nat → List cache_line_t → Option (List cache_line_t)
  | 0, _, acc => some acc
  | k + 1, j, acc =>
    if sizeof_line * (j + 1) ≤ bytes then
      init_lines bytes k (j + 1) (acc ++ [{ valid := false, tag := 0, lru := 0 }])
    else none

/-- The loop over `i` (lines 66-74): `k` iterations from `i` on, `acc` holding
the sets built so far, `bytes` being the size of the block of set pointers.
Each iteration calls `malloc(E * sizeof(cache_line_t))`, stores the result in
`cache[i]`, which lies in the block when `sizeof_ptr * (i + 1)` does not
exceed `bytes`, returns 1 when the result is `NULL`, and initialises the
lines. -/
def alloc_sets (heap : Nat → Bool) (E bytes : Nat) :
    Nat → Nat → List (List cache_line_t) → alloc_result
  | 0, _, acc => alloc_result.cache acc
  | k + 1, i, acc =>
    if sizeof_ptr * (i + 1) ≤ bytes then
      if heap (i + 1) = true then
        match init_lines ((E * sizeof_line) % 2 ^ 64) E 0 [] with
        | none => alloc_result.undefined
        | some set => alloc_sets heap E bytes k (i + 1) (acc ++ [set])
      else alloc_result.exit 1
    else alloc_result.undefined

/-- The allocation of the cache (lines 61-74):
`malloc(S * sizeof(cache_line_t*))`, a product in 64 bits, `return 1` when the
result is `NULL`, then the loop over the `S` sets. -/
def allocate (heap : Nat → Bool) (S E : Nat) : alloc_result :=
  if heap 0 = true then alloc_sets heap E ((S * sizeof_ptr) % 2 ^ 64) S 0 []
  else alloc_result.exit 1

/-- The outcomes of `malloc` when every call returns a block. -/
def malloc_ok : Nat → Bool := fun _ => true

/-- The simulator from the opened trace file on, with the cache `c`: the
counters at 0, `time = 1`, the computation of `set_mask`, and the `while` loop
over the trace. -/
def run_cache (s b : Nat) (c : List (List cache_line_t)) (trace : List record) :
    Option sim_state :=
  match set_mask s with
  | none => none
  | some mask =>
    run_trace s b mask { cache := c, hits := 0, misses := 0, evictions := 0, time := 1 } trace

/-- The simulator from `S = 1ULL << s` to the end of the trace, for a
geometry that passed the startup check and a trace file that opens.  The
result holds the counters that `printSummary` receives; it is `none` when the
run meets a shift or a store without a defined result, and when it ends in
`return 1` because a call of `malloc` returned `NULL` (`csim_main` tells the
two apart). -/
def simulate (heap : Nat → Bool) (s E b : Nat) (trace : List record) : Option sim_state :=
  match shl64 1 s with
  | none => none
  | some S =>
    match allocate heap S E with
    | alloc_result.cache c => run_cache s b c trace
    | alloc_result.exit _ => none
    | alloc_result.undefined => none

/-- The triple `(hits, misses, evictions)` of a state. -/
def counters (st : sim_state) : Nat × Nat × Nat := (st.hits, st.misses, st.evictions)

/-- The addresses of the references one record stands for, in order. -/
def record_refs (r : record) : List Nat :=
  if r.op = 'I' then [] else if r.op = 'M' then [r.addr, r.addr] else [r.addr]

/-- The addresses of the references of a trace, in the order the loop makes
them. -/
def trace_refs : List record → List Nat
  | [] => []
  | r :: rs => record_refs r ++ trace_refs rs

/-- The references to the addresses of a list, one after the other. -/
def run_refs (s b mask : Nat) : sim_state → List Nat → Option sim_state
  | st, [] => some st
  | st, a :: as =>
    match access s b mask st a with
    | none => none
    | some st1 => run_refs s b mask st1 as

/-- The shape of the allocated cache: `S` sets of `E` lines each. -/
def wf (S E : Nat) (st : sim_state) : Prop :=
  st.cache.length = S ∧ ∀ set ∈ st.cache, set.length = E

/-- Two records that stand for the same references: the same address, and
either the same kind or both of the kinds `L` and `S`.  The sizes are free. -/
def same_reference (r1 r2 : record) : Prop :=
  r1.addr = r2.addr ∧
    (r1.op = r2.op ∨ ((r1.op = 'L' ∨ r1.op = 'S') ∧ (r2.op = 'L' ∨ r2.op = 'S')))

instance same_reference_decidable (r1 r2 : record) : Decidable (same_reference r1 r2) := by
  unfold same_reference
  infer_instance

/-- The number of references of a trace: no reference for an `I` record, two
for an `M` record, one for every other record. -/
def reference_count : List record → Nat
  | [] => 0
  | r :: rs => (if r.op = 'I' then 0 else if r.op = 'M' then 2 else 1) + reference_count rs

/-- The tags of the valid lines of a set, in index order: the resident tags. -/
def resident_tags (set : List cache_line_t) : List Nat :=
  (set.filter (fun l => l.valid)).map (fun l => l.tag)

/-- The decoded references `(set_index, tag)` of a list of addresses, in
order. -/
def ref_keys (s b mask : Nat) (addrs : List Nat) : List (Nat × Nat) :=
  addrs.filterMap (decode s b mask)

/-- In every set of the cache the valid lines hold pairwise distinct tags. -/
abbrev tags_distinct (st : sim_state) : Prop :=
  ∀ (si : Nat) (set : List cache_line_t), st.cache[si]? = some set → (resident_tags set).Nodup

/-- Every tag held by a valid line of a set was referenced there: its key is
in the list `keys`. -/
abbrev tags_referenced (st : sim_state) (keys : List (Nat × Nat)) : Prop :=
  ∀ (si : Nat) (set : List cache_line_t), st.cache[si]? = some set →
    ∀ t ∈ resident_tags set, (si, t) ∈ keys

/-- A trace of load and store records whose addresses alternate between `a1`
and `a2`, starting with `a1`. -/
def alternates (a1 a2 : Nat) : List record → Prop
  | [] => True
  | r :: rs => (r.op = 'L' ∨ r.op = 'S') ∧ r.addr = a1 ∧ alternates a2 a1 rs

instance alternates_decidable : (a1 a2 : Nat) → (trace : List record) →
    Decidable (alternates a1 a2 trace)
  | _, _, [] => isTrue trivial
  | a1, a2, r :: rs =>
    have : Decidable (alternates a2 a1 rs) := alternates_decidable a2 a1 rs
    by unfold alternates; infer_instance

/-- The trace of `n` load records of size 1 whose addresses alternate between
`a1` and `a2`, starting with `a1`. -/
def alternating (a1 a2 : Nat) : Nat → List record
  | 0 => []
  | n + 1 => ⟨'L', a1, 1⟩ :: alternating a2 a1 n

/-- The tags that the references of a list of addresses carry to the set
`si`, in order, with repetitions. -/
def set_tags (s b mask si : Nat) (addrs : List Nat) : List Nat :=
  ((ref_keys s b mask addrs).filter (fun k => decide (k.1 = si))).map (fun k => k.2)

/-- The number of distinct tags that the references of a trace map to the set
`si`. -/
def distinct_tags (s b si : Nat) (trace : List record) : Nat :=
  (set_tags s b (2 ^ s - 1) si (trace_refs trace)).dedup.length

/-- How `main` ends: `exit status` for a `return status` that comes before
`printSummary`, `summary` for `printSummary(hits, misses, evictions)` followed
by `return 0`, `undefined` when the run meets a shift or an access without a
defined result. -/
inductive run_result where
  | exit (status : Nat)
  | summary (hits misses evictions : Nat)
  | undefined
deriving DecidableEq, Repr

/-- The startup check, on the values that option parsing leaves in `s`, `E`,
`b` and `trace_file` (`none` for `NULL`):
`if (s < 0 || E <= 0 || b < 0 || trace_file == NULL) { usage(argv[0]); return 1; }`.
The result is the exit status of a rejection, `none` when `main` goes on. -/
def startup_check (s E b : Int) (trace_file : Option String) : Option Nat :=
  if s < 0 ∨ E ≤ 0 ∨ b < 0 ∨ trace_file = none then some 1 else none

/-- The function `main` after option parsing.  `heap` holds the outcomes of
the calls of `malloc` that build the cache, `file` the records of the trace
file, `none` when `fopen` fails (which `main` finds out after it has built
the cache). -/
def csim_main (heap : Nat → Bool) (s E b : Int) (trace_file : Option String)
    (file : Option (List record)) : run_result :=
  match startup_check s E b trace_file with
  | some status => run_result.exit status
  | none =>
    match shl64 1 s.toNat with
    | none => run_result.undefined
    | some S =>
      match allocate heap S E.toNat with
      | alloc_result.exit status => run_result.exit status
      | alloc_result.undefined => run_result.undefined
      | alloc_result.cache c =>
        match file with
        | none => run_result.exit 1
        | some trace =>
          match run_cache s.toNat b.toNat c trace with
          | none => run_result.undefined
          | some st => run_result.summary st.hits st.misses st.evictions

/-- The position, counted from 0, of the last occurrence of the key `k` in a
list of decoded references; `none` when `k` does not occur. -/
def last_ref (k : Nat × Nat) : List (Nat × Nat) → Option Nat
  | [] => none
  | x :: xs =>
    match last_ref k xs with
    | some p => some (p + 1)
    | none => if x = k then some 0 else none

/-- Every valid line carries as `lru` the position of the last reference to
its tag in its set, plus 1 (the clock starts at 1). -/
abbrev recency_exact (st : sim_state) (keys : List (Nat × Nat)) : Prop :=
  ∀ (si : Nat) (set : List cache_line_t), st.cache[si]? = some set →
    ∀ l ∈ set, l.valid = true → ∃ p, last_ref (si, l.tag) keys = some p ∧ l.lru = p + 1

/-- The state of the reference LRU model: for every set index the list of the
tags held, most recently referenced first, and the three counts. -/
structure lru_model where
  sets : Nat → List Nat
  hits : Nat
  misses : Nat
  evictions : Nat

/-- The reference LRU model before the first reference: every set empty. -/
def lru_model_init : lru_model :=
  { sets := fun _ => [], hits := 0, misses := 0, evictions := 0 }

/-- One reference of the reference LRU model, to the tag `tag` in set `si`: a
listed tag is a hit and moves to the front; an unlisted tag is a miss and is
pushed to the front, and when the list already holds `E` tags it is also an
eviction, which drops the last tag. -/
def lru_model_ref (E : Nat) (m : lru_model) (si tag : Nat) : lru_model :=
  if tag ∈ m.sets si then
    { m with
      sets := Function.update m.sets si (tag :: (m.sets si).erase tag)
      hits := m.hits + 1 }
  else if (m.sets si).length < E then
    { m with
      sets := Function.update m.sets si (tag :: m.sets si)
      misses := m.misses + 1 }
  else
    { m with
      sets := Function.update m.sets si (tag :: (m.sets si).dropLast)
      misses := m.misses + 1
      evictions := m.evictions + 1 }

/-- The reference LRU model over a list of addresses: the address `a` goes to
set `(a / 2 ^ b) mod 2 ^ s` with tag `a / 2 ^ (s + b)`. -/
def lru_model_run (s E b : Nat) : lru_model → List Nat → lru_model
  | m, [] => m
  | m, a :: as => lru_model_run s E b (lru_model_ref E m (a / 2 ^ b % 2 ^ s) (a / 2 ^ (s + b))) as

/-- The triple (hits, misses, evictions) of the reference LRU model on a
trace. -/
def lru_model_result (s E b : Nat) (trace : List record) : Nat × Nat × Nat :=
  ((lru_model_run s E b lru_model_init (trace_refs trace)).hits,
   (lru_model_run s E b lru_model_init (trace_refs trace)).misses,
   (lru_model_run s E b lru_model_init (trace_refs trace)).evictions)

/-- The order of a recency list against a set: whenever a valid line holds
`t` and a valid line holds `u`, the one with `t` has the greater `lru`. -/
def more_recent (set : List cache_line_t) (t u : Nat) : Prop :=
  ∀ x ∈ set, ∀ y ∈ set, x.valid = true → y.valid = true → x.tag = t → y.tag = u → y.lru < x.lru

/-- The set `set` of the cache holds what the recency list `l` of the
reference model holds, in the order of `l`. -/
def set_matches (set : List cache_line_t) (l : List Nat) : Prop :=
  l.Perm (resident_tags set) ∧ l.Pairwise (more_recent set)

/-- The state of the simulator matches the state of the reference model:
every set matches its recency list, every valid line has an `lru` below the
clock, and the counters are the model's counts modulo `2 ^ 32`. -/
def state_matches (st : sim_state) (m : lru_model) : Prop :=
  (∀ (si : Nat) (set : List cache_line_t), st.cache[si]? = some set →
    set_matches set (m.sets si) ∧ ∀ l ∈ set, l.valid = true → l.lru < st.time) ∧
  st.hits = m.hits % 2 ^ 32 ∧ st.misses = m.misses % 2 ^ 32 ∧
  st.evictions = m.evictions % 2 ^ 32

/-- The loop `while (fscanf(fp, " %c %llx,%d", &op, &addr, &size) == 3)` over
the outcomes of the successive calls of `fscanf`: `some r` for a call that
returns 3 and stores the record `r`, `none` for a call that returns anything
else (a record that cannot be parsed).  At the end of the file `fscanf`
returns `EOF`.  The loop ends at the first call that does not return 3. -/
def scan_loop (s b mask : Nat) : sim_state → List (Option record) → Option sim_state
  | st, [] => some st
  | st, none :: _ => some st
  | st, some r :: rest =>
    match process_record s b mask st r with
    | none => none
    | some st1 => scan_loop s b mask st1 rest

/-- The simulator on a trace file given by the outcomes of the calls of
`fscanf`: `simulate` with the loop `scan_loop`. -/
def simulate_file (heap : Nat → Bool) (s E b : Nat) (file : List (Option record)) :
    Option sim_state :=
  match shl64 1 s with
  | none => none
  | some S =>
    match allocate heap S E with
    | alloc_result.cache c =>
      match set_mask s with
      | none => none
      | some mask =>
        scan_loop s b mask { cache := c, hits := 0, misses := 0, evictions := 0, time := 1 } file
    | alloc_result.exit _ => none
    | alloc_result.undefined => none

/-- The function `is_transpose` of `trans.c`, inner loop: the columns
`j, j + 1, ...` of row `i`, `k` of them; `true` stands for reaching
`return 0`.  The arrays are functions from row and column to the entry. -/
def is_transpose_cols (A B : Nat → Nat → Int) (i : Nat) : Nat → Nat → Bool
  | 0, _ => false
  | k + 1, j => if A i j ≠ B j i then true else is_transpose_cols A B i k (j + 1)

/-- The function `is_transpose` of `trans.c`, outer loop: the rows
`i, i + 1, ...`, `k` of them, each scanned over its `M` columns. -/
def is_transpose_rows (M : Nat) (A B : Nat → Nat → Int) : Nat → Nat → Int
  | 0, _ => 1
  | k + 1, i =>
    if is_transpose_cols A B i M 0 then 0 else is_transpose_rows M A B k (i + 1)

/-- The function `is_transpose(M, N, A, B)` of `trans.c` for `M, N ≥ 0`: it
returns an `int` and writes to neither array. -/
def is_transpose (M N : Nat) (A B : Nat → Nat → Int) : Int :=
  is_transpose_rows M A B N 0

/-- The line `cache[si][i]` of a state, `none` outside the arrays. -/
def line_at (st : sim_state) (si i : Nat) : Option cache_line_t :=
  match st.cache[si]? with
  | none => none
  | some set => set[i]?

/-- The number of valid lines of a set. -/
def valid_lines (set : List cache_line_t) : Nat :=
  (set.filter (fun l => l.valid)).length

/-- The number of valid lines of the whole cache. -/
def valid_count (st : sim_state) : Nat :=
  (st.cache.map valid_lines).sum

/-- The ways in which an execution of a function of `trans.c` can fail to
return: a signed addition whose result does not fit the type `int` and an
array subscript outside the array are undefined in C; `out_of_fuel` stands for
a loop of the model that was given too few iterations. -/
inductive fault where
  | overflow
  | out_of_bounds
  | out_of_fuel
  deriving DecidableEq

/-- The sum `a + b` of two non-negative values of type `int`. -/
def add_int (a b : Nat) : Except fault Nat :=
  if a + b ≤ INT_MAX then Except.ok (a + b) else Except.error fault.overflow

/-- The two arrays `A[N][M]` and `B[M][N]` of a transpose function, as
functions from row and column to the entry. -/
structure matrices where
  A : Nat → Nat → Int
  B : Nat → Nat → Int

/-- The value of the expression `A[i][j]`, for `int A[N][M]`. -/
def read_A (M N : Nat) (m : matrices) (i j : Nat) : Except fault Int :=
  if i < N ∧ j < M then Except.ok (m.A i j) else Except.error fault.out_of_bounds

/-- The value of the expression `B[j][i]`, for `int B[M][N]`. -/
def read_B (M N : Nat) (m : matrices) (j i : Nat) : Except fault Int :=
  if j < M ∧ i < N then Except.ok (m.B j i) else Except.error fault.out_of_bounds

/-- The assignment `B[j][i] = v`, for `int B[M][N]`. -/
def write_B (M N : Nat) (m : matrices) (j i : Nat) (v : Int) : Except fault matrices :=
  if j < M ∧ i < N then
    Except.ok { m with B := fun r c => if r = j ∧ c = i then v else m.B r c }
  else Except.error fault.out_of_bounds

/-- The loop over `jj` of `transpose_submit` (lines 33-40, and again lines
126-133): `k` iterations, for the columns `jj, jj + 1, ...` of row `ii`, on
the arrays and the variables `diag` and `tmp`. -/
def scan_cols (M N ii : Nat) :
    Nat → Nat → matrices → Int → Int → Except fault (matrices × Int × Int)
  | 0, _, m, diag, tmp => Except.ok (m, diag, tmp)
  | k + 1, jj, m, diag, tmp =>
    if ii = jj then do
      let v ← read_A M N m ii jj
      scan_cols M N ii k (jj + 1) m (ii : Int) v
    else do
      let v ← read_A M N m ii jj
      let m1 ← write_B M N m jj ii v
      scan_cols M N ii k (jj + 1) m1 diag tmp

/-- The loop over `ii` of `transpose_submit` (lines 32-45, and again lines
125-138): `k` iterations, for the rows `ii, ii + 1, ...`, each scanned over
the columns `j, ..., j_max - 1` and followed by the assignment of the saved
diagonal entry. -/
def scan_rows (M N j j_max : Nat) :
    Nat → Nat → matrices → Int → Int → Except fault (matrices × Int × Int)
  | 0, _, m, diag, tmp => Except.ok (m, diag, tmp)
  | k + 1, ii, m, diag, tmp => do
    let r ← scan_cols M N ii (j_max - j) j m diag tmp
    if r.2.1 ≠ -1 then do
      let m2 ← write_B M N r.1 r.2.1.toNat r.2.1.toNat r.2.2
      scan_rows M N j j_max k (ii + 1) m2 (-1) r.2.2
    else
      scan_rows M N j j_max k (ii + 1) r.1 r.2.1 r.2.2

/-- A loop `for (x = ...; x < bound; x += step) body`, from the value `x` of
the loop variable on, given `fuel` iterations: the loop returns when the
condition `x < bound` fails. -/
def block_loop (bound step : Nat) (body : Nat → matrices → Except fault matrices) :
    Nat → Nat → matrices → Except fault matrices
  | 0, x, m => if x < bound then Except.error fault.out_of_fuel else Except.ok m
  | fuel + 1, x, m =>
    if x < bound then do
      let m1 ← body x m
      let x1 ← add_int x step
      block_loop bound step body fuel x1 m1
    else Except.ok m

/-- The branch `M == 32 && N == 32` of `transpose_submit` (lines 28-48), with
`block = 8`; `diag = -1, tmp = 0` at the start of every block. -/
def submit_32 (M N : Nat) (m : matrices) : Except fault matrices :=
  block_loop N 8 (fun i mi =>
    block_loop M 8 (fun j mj => do
      let ib ← add_int i 8
      let jb ← add_int j 8
      let r ← scan_rows M N j jb (ib - i) i mj (-1) 0
      pure r.1) M 0 mi) N 0 m

/-- Step 1 of the 64 x 64 branch (lines 57-76): `k` iterations, for the rows
`ii, ii + 1, ...` of `A`. -/
def step1 (M N j : Nat) : Nat → Nat → matrices → Except fault matrices
  | 0, _, m => Except.ok m
  | k + 1, ii, m => do
    let a0 ← read_A M N m ii (j + 0)
    let a1 ← read_A M N m ii (j + 1)
    let a2 ← read_A M N m ii (j + 2)
    let a3 ← read_A M N m ii (j + 3)
    let a4 ← read_A M N m ii (j + 4)
    let a5 ← read_A M N m ii (j + 5)
    let a6 ← read_A M N m ii (j + 6)
    let a7 ← read_A M N m ii (j + 7)
    let m ← write_B M N m (j + 0) ii a0
    let m ← write_B M N m (j + 1) ii a1
    let m ← write_B M N m (j + 2) ii a2
    let m ← write_B M N m (j + 3) ii a3
    let m ← write_B M N m (j + 0) (ii + 4) a4
    let m ← write_B M N m (j + 1) (ii + 4) a5
    let m ← write_B M N m (j + 2) (ii + 4) a6
    let m ← write_B M N m (j + 3) (ii + 4) a7
    step1 M N j k (ii + 1) m

/-- Step 2 of the 64 x 64 branch (lines 79-99): `k` iterations, for the rows
`jj, jj + 1, ...` of `B`. -/
def step2 (M N i : Nat) : Nat → Nat → matrices → Except fault matrices
  | 0, _, m => Except.ok m
  | k + 1, jj, m => do
    let a0 ← read_B M N m jj (i + 4)
    let a1 ← read_B M N m jj (i + 5)
    let a2 ← read_B M N m jj (i + 6)
    let a3 ← read_B M N m jj (i + 7)
    let a4 ← read_A M N m (i + 4) jj
    let a5 ← read_A M N m (i + 5) jj
    let a6 ← read_A M N m (i + 6) jj
    let a7 ← read_A M N m (i + 7) jj
    let m ← write_B M N m jj (i + 4) a4
    let m ← write_B M N m jj (i + 5) a5
    let m ← write_B M N m jj (i + 6) a6
    let m ← write_B M N m jj (i + 7) a7
    let m ← write_B M N m (jj + 4) (i + 0) a0
    let m ← write_B M N m (jj + 4) (i + 1) a1
    let m ← write_B M N m (jj + 4) (i + 2) a2
    let m ← write_B M N m (jj + 4) (i + 3) a3
    step2 M N i k (jj + 1) m

/-- Step 3 of the 64 x 64 branch (lines 102-112): `k` iterations, for the
rows `ii, ii + 1, ...` of `A`. -/
def step3 (M N j : Nat) : Nat → Nat → matrices → Except fault matrices
  | 0, _, m => Except.ok m
  | k + 1, ii, m => do
    let a0 ← read_A M N m ii (j + 4)
    let a1 ← read_A M N m ii (j + 5)
    let a2 ← read_A M N m ii (j + 6)
    let a3 ← read_A M N m ii (j + 7)
    let m ← write_B M N m (j + 4) ii a0
    let m ← write_B M N m (j + 5) ii a1
    let m ← write_B M N m (j + 6) ii a2
    let m ← write_B M N m (j + 7) ii a3
    step3 M N j k (ii + 1) m

/-- The branch `M == 64 && N == 64` of `transpose_submit` (lines 52-115):
the three steps on every 8 x 8 block. -/
def submit_64 (M N : Nat) (m : matrices) : Except fault matrices :=
  block_loop 64 8 (fun i mi =>
    block_loop 64 8 (fun j mj => do
      let m1 ← step1 M N j (i + 4 - i) i mj
      let m2 ← step2 M N i (j + 4 - j) j m1
      step3 M N j (i + 8 - (i + 4)) (i + 4) m2) 64 0 mi) 64 0 m

/-- The fallback of `transpose_submit` (lines 119-141), with `block = 16`. -/
def submit_fallback (M N : Nat) (m : matrices) : Except fault matrices :=
  block_loop N 16 (fun i mi =>
    block_loop M 16 (fun j mj => do
      let ib ← add_int i 16
      let i_max := if ib > N then N else ib
      let jb ← add_int j 16
      let j_max := if jb > M then M else jb
      let r ← scan_rows M N j j_max (i_max - i) i mj (-1) 0
      pure r.1) M 0 mi) N 0 m

/-- The function `transpose_submit(M, N, A, B)` of `trans.c` for `M, N ≥ 0`. -/
def transpose_submit (M N : Nat) (m : matrices) : Except fault matrices :=
  if M = 32 ∧ N = 32 then submit_32 M N m
  else if M = 64 ∧ N = 64 then submit_64 M N m
  else submit_fallback M N m

/-- The inner loop of `trans` (lines 159-162): `k` iterations, for the
columns `j, j + 1, ...` of row `i`. -/
def trans_cols (M N i : Nat) : Nat → Nat → matrices → Except fault matrices
  | 0, _, m => Except.ok m
  | k + 1, j, m => do
    let tmp ← read_A M N m i j
    let m1 ← write_B M N m j i tmp
    trans_cols M N i k (j + 1) m1

/-- The outer loop of `trans` (lines 158-163): `k` iterations, for the rows
`i, i + 1, ...`. -/
def trans_rows (M N : Nat) : Nat → Nat → matrices → Except fault matrices
  | 0, _, m => Except.ok m
  | k + 1, i, m => do
    let m1 ← trans_cols M N i (M - 0) 0 m
    trans_rows M N k (i + 1) m1

/-- The baseline function `trans(M, N, A, B)` of `trans.c` for `M, N ≥ 0`. -/
def trans (M N : Nat) (m : matrices) : Except fault matrices :=
  trans_rows M N (N - 0) 0 m

theorem hit_search_none {tag : Nat} {ls : List cache_line_t} {i : Nat} :
    hit_search tag ls i = none ↔ ∀ l ∈ ls, ¬ (l.valid = true ∧ l.tag = tag) := by
  induction ls generalizing i with
  | nil => simp [hit_search]
  | cons l ls ih =>
    simp only [hit_search, List.mem_cons, forall_eq_or_imp]
    by_cases h : l.valid = true ∧ l.tag = tag
    · simp [h]
    · simp only [h, if_false, not_false_eq_true, true_and]
      exact ih

theorem hit_search_some {tag : Nat} {ls : List cache_line_t} {i r : Nat}
    (h : hit_search tag ls i = some r) :
    ∃ k l, r = i + k ∧ ls[k]? = some l ∧ l.valid = true ∧ l.tag = tag ∧
      ∀ j l1, j < k → ls[j]? = some l1 → ¬ (l1.valid = true ∧ l1.tag = tag) := by
  induction ls generalizing i with
  | nil => simp [hit_search] at h
  | cons l ls ih =>
    simp only [hit_search] at h
    by_cases hc : l.valid = true ∧ l.tag = tag
    · simp only [hc, and_self, if_true, Option.some.injEq] at h
      exact ⟨0, l, by omega, by simp, hc.1, hc.2, by intro j l1 hj; omega⟩
    · simp only [hc, if_false] at h
      obtain ⟨k, l2, hr, hk, hv, ht, hfirst⟩ := ih h
      refine ⟨k + 1, l2, by omega, by simpa using hk, hv, ht, ?_⟩
      intro j l1 hj hl1
      cases j with
      | zero => simp at hl1; subst hl1; exact hc
      | succ j => exact hfirst j l1 (by omega) (by simpa using hl1)

theorem empty_search_none {ls : List cache_line_t} {i : Nat} :
    empty_search ls i = none ↔ ∀ l ∈ ls, l.valid = true := by
  induction ls generalizing i with
  | nil => simp [empty_search]
  | cons l ls ih =>
    simp only [empty_search, List.mem_cons, forall_eq_or_imp]
    cases hv : l.valid
    · simp
    · simp only [Bool.true_eq_false, if_false, true_and]
      exact ih

theorem empty_search_some {ls : List cache_line_t} {i r : Nat}
    (h : empty_search ls i = some r) :
    ∃ k l, r = i + k ∧ ls[k]? = some l ∧ l.valid = false := by
  induction ls generalizing i with
  | nil => simp [empty_search] at h
  | cons l ls ih =>
    simp only [empty_search] at h
    cases hv : l.valid
    · simp only [hv, if_true, Option.some.injEq] at h
      exact ⟨0, l, by omega, by simp, hv⟩
    · simp only [hv, Bool.true_eq_false, if_false] at h
      obtain ⟨k, l2, hr, hk, hv2⟩ := ih h
      exact ⟨k + 1, l2, by omega, by simpa using hk, hv2⟩

/-- What the victim search returns: either no line is below `min_lru` and the
index is the one it started from, or it is the index of a line below `min_lru`
whose `lru` is the least of the set. -/
theorem lru_search_spec (ls : List cache_line_t) (i m j : Nat) :
    (lru_search ls i m j = j ∧ ∀ l ∈ ls, m ≤ l.lru) ∨
    (∃ k l, lru_search ls i m j = i + k ∧ ls[k]? = some l ∧ l.lru < m ∧
      ∀ l1 ∈ ls, l.lru ≤ l1.lru) := by
  induction ls generalizing i m j with
  | nil => left; simp [lru_search]
  | cons l ls ih =>
    simp only [lru_search]
    by_cases hc : l.lru < m
    · simp only [hc, if_true]
      rcases ih (i + 1) l.lru i with ⟨h1, h2⟩ | ⟨k, l2, h1, h2, h3, h4⟩
      · right
        refine ⟨0, l, by simpa using h1, by simp, hc, ?_⟩
        intro l1 hl1
        rcases List.mem_cons.1 hl1 with rfl | hl1
        · exact le_rfl
        · exact h2 l1 hl1
      · right
        refine ⟨k + 1, l2, by rw [h1]; omega, by simpa using h2, by omega, ?_⟩
        intro l1 hl1
        rcases List.mem_cons.1 hl1 with rfl | hl1
        · omega
        · exact h4 l1 hl1
    · simp only [hc, if_false]
      rcases ih (i + 1) m j with ⟨h1, h2⟩ | ⟨k, l2, h1, h2, h3, h4⟩
      · left
        refine ⟨h1, ?_⟩
        intro l1 hl1
        rcases List.mem_cons.1 hl1 with rfl | hl1
        · omega
        · exact h2 l1 hl1
      · right
        refine ⟨k + 1, l2, by rw [h1]; omega, by simpa using h2, h3, ?_⟩
        intro l1 hl1
        rcases List.mem_cons.1 hl1 with rfl | hl1
        · omega
        · exact h4 l1 hl1

theorem store_line_some {set : List cache_line_t} {idx : Nat} {f : cache_line_t → cache_line_t}
    {set1 : List cache_line_t} (h : store_line set idx f = some set1) :
    ∃ l, set[idx]? = some l ∧ set1 = set.set idx (f l) := by
  unfold store_line at h
  cases hl : set[idx]? with
  | none => simp [hl] at h
  | some l => simp [hl] at h; exact ⟨l, rfl, h.symm⟩

/-- The three ways one reference can go, read off the code of `access`. -/
theorem access_cases {s b mask : Nat} {st st1 : sim_state} {addr : Nat}
    (h : access s b mask st addr = some st1) :
    ∃ si tag set i l, decode s b mask addr = some (si, tag) ∧ st.cache[si]? = some set ∧
      set[i]? = some l ∧
      st1.cache = st.cache.set si (set.set i { valid := true, tag := tag, lru := st.time }) ∧
      st1.time = incr64 st.time ∧
      ((hit_search tag set 0 = some i ∧ l.valid = true ∧ l.tag = tag ∧
          st1.hits = incr32 st.hits ∧ st1.misses = st.misses ∧
          st1.evictions = st.evictions) ∨
       (hit_search tag set 0 = none ∧ empty_search set 0 = some i ∧ l.valid = false ∧
          st1.hits = st.hits ∧ st1.misses = incr32 st.misses ∧
          st1.evictions = st.evictions) ∨
       (hit_search tag set 0 = none ∧ empty_search set 0 = none ∧
          i = lru_search set 0 ULLONG_MAX 0 ∧ l.valid = true ∧
          st1.hits = st.hits ∧ st1.misses = incr32 st.misses ∧
          st1.evictions = incr32 st.evictions)) := by
  unfold access at h
  cases hd : decode s b mask addr with
  | none => simp [hd] at h
  | some p =>
    obtain ⟨si, tag⟩ := p
    simp only [hd] at h
    cases hset : st.cache[si]? with
    | none => simp [hset] at h
    | some set =>
      simp only [hset] at h
      refine ⟨si, tag, set, ?_⟩
      cases hh : hit_search tag set 0 with
      | some i =>
        simp only [hh] at h
        cases hs : store_line set i (fun l => { l with lru := st.time }) with
        | none => simp [hs] at h
        | some set1 =>
          simp only [hs, Option.some.injEq] at h
          obtain ⟨l, hl, rfl⟩ := store_line_some hs
          obtain ⟨k, l2, hk, hl2, hv, ht, -⟩ := hit_search_some hh
          have hik : i = k := by omega
          subst hik
          rw [hl] at hl2
          cases hl2
          subst h
          refine ⟨i, l, rfl, hset, hl, ?_, rfl, Or.inl ⟨rfl, hv, ht, rfl, rfl, rfl⟩⟩
          obtain ⟨v, t, u⟩ := l
          simp only at hv ht
          subst hv ht
          rfl
      | none =>
        simp only [hh] at h
        cases he : empty_search set 0 with
        | some i =>
          simp only [he] at h
          cases hs : store_line set i
              (fun l => { l with valid := true, tag := tag, lru := st.time }) with
          | none => simp [hs] at h
          | some set1 =>
            simp only [hs, Option.some.injEq] at h
            obtain ⟨l, hl, rfl⟩ := store_line_some hs
            obtain ⟨k, l2, hk, hl2, hv⟩ := empty_search_some he
            have hik : i = k := by omega
            subst hik
            rw [hl] at hl2
            cases hl2
            subst h
            exact ⟨i, l, rfl, hset, hl, rfl, rfl, Or.inr (Or.inl ⟨rfl, rfl, hv, rfl, rfl, rfl⟩)⟩
        | none =>
          simp only [he] at h
          cases hs : store_line set (lru_search set 0 ULLONG_MAX 0)
              (fun l => { l with tag := tag, lru := st.time }) with
          | none => simp [hs] at h
          | some set1 =>
            simp only [hs, Option.some.injEq] at h
            obtain ⟨l, hl, rfl⟩ := store_line_some hs
            have hv : l.valid = true :=
              empty_search_none.1 he l (List.getElem?_mem hl)
            subst h
            refine ⟨_, l, rfl, hset, hl, ?_, rfl,
              Or.inr (Or.inr ⟨rfl, rfl, rfl, hv, rfl, rfl, rfl⟩)⟩
            obtain ⟨v, t, u⟩ := l
            simp only at hv
            subst hv
            rfl

theorem run_refs_append (s b mask : Nat) (st : sim_state) (xs ys : List Nat) :
    run_refs s b mask st (xs ++ ys) =
      (run_refs s b mask st xs).bind (fun st1 => run_refs s b mask st1 ys) := by
  induction xs generalizing st with
  | nil => simp [run_refs]
  | cons x xs ih =>
    simp only [List.cons_append, run_refs]
    cases access s b mask st x with
    | none => simp
    | some st1 => simpa using ih st1

theorem process_record_eq (s b mask : Nat) (st : sim_state) (r : record) :
    process_record s b mask st r = run_refs s b mask st (record_refs r) := by
  unfold process_record record_refs
  by_cases hI : r.op = 'I'
  · simp [hI, run_refs]
  · by_cases hM : r.op = 'M'
    · simp only [hI, hM, if_true, if_false, accesses_loop, run_refs]
      cases access s b mask st r.addr with
      | none => rfl
      | some st1 =>
        simp only
        cases access s b mask st1 r.addr with
        | none => rfl
        | some st2 => rfl
    · simp only [hI, hM, if_false, accesses_loop, run_refs]

theorem run_trace_eq (s b mask : Nat) (st : sim_state) (trace : List record) :
    run_trace s b mask st trace = run_refs s b mask st (trace_refs trace) := by
  induction trace generalizing st with
  | nil => rfl
  | cons r rs ih =>
    simp only [run_trace, trace_refs, run_refs_append, process_record_eq]
    cases run_refs s b mask st (record_refs r) with
    | none => rfl
    | some st1 => simpa using ih st1

theorem trace_refs_append (xs ys : List record) :
    trace_refs (xs ++ ys) = trace_refs xs ++ trace_refs ys := by
  induction xs with
  | nil => rfl
  | cons x xs ih => simp [trace_refs, ih]

theorem shl64_one {s : Nat} (h : s < 64) : shl64 1 s = some (2 ^ s) := by
  have : 2 ^ s < 2 ^ 64 := Nat.pow_lt_pow_right (by norm_num) h
  simp only [shl64, h, if_true, Nat.shiftLeft_eq, one_mul, Nat.mod_eq_of_lt this]

theorem set_mask_lt {s : Nat} (h : s < 64) : set_mask s = some (2 ^ s - 1) := by
  have h2 : 2 ^ s < 2 ^ 64 := Nat.pow_lt_pow_right (by norm_num) h
  have h1 : 0 < 2 ^ s := Nat.pos_pow_of_pos s (by norm_num)
  have hne : s ≠ 64 := by omega
  simp only [set_mask, hne, if_false, shl64_one h, Option.some.injEq]
  have : 2 ^ s + 2 ^ 64 - 1 = (2 ^ s - 1) + 2 ^ 64 := by omega
  rw [this, Nat.add_mod_right, Nat.mod_eq_of_lt (by omega)]

theorem init_lines_acc (bytes k : Nat) :
    ∀ (j : Nat) (acc : List cache_line_t), sizeof_line * (j + k) ≤ bytes →
      init_lines bytes k j acc =
        some (acc ++ List.replicate k { valid := false, tag := 0, lru := 0 }) := by
  induction k with
  | zero => intro j acc _; simp [init_lines]
  | succ k ih =>
    intro j acc h
    have h1 : sizeof_line * (j + 1) ≤ bytes := by
      have : sizeof_line * (j + 1) ≤ sizeof_line * (j + (k + 1)) :=
        Nat.mul_le_mul_left _ (by omega)
      omega
    rw [init_lines, if_pos h1, ih (j + 1) _ (by rw [show j + 1 + k = j + (k + 1) by omega]; exact h),
      List.append_assoc, List.replicate_succ]
    rfl

theorem init_lines_some (bytes k : Nat) :
    ∀ (j : Nat) (acc r : List cache_line_t), init_lines bytes k j acc = some r →
      r = acc ++ List.replicate k { valid := false, tag := 0, lru := 0 } := by
  induction k with
  | zero =>
    intro j acc r h
    simp only [init_lines, Option.some.injEq] at h
    simp [h]
  | succ k ih =>
    intro j acc r h
    rw [init_lines] at h
    by_cases h1 : sizeof_line * (j + 1) ≤ bytes
    · rw [if_pos h1] at h
      rw [ih (j + 1) _ r h, List.append_assoc, List.replicate_succ]
      rfl
    · rw [if_neg h1] at h
      cases h

/-- The lines of a set are initialised when `E` is a value of type `int`. -/
theorem init_lines_ok {E : Nat} (hE : E ≤ INT_MAX) :
    init_lines ((E * sizeof_line) % 2 ^ 64) E 0 [] =
      some (List.replicate E { valid := false, tag := 0, lru := 0 }) := by
  have hI : INT_MAX = 2147483647 := by decide
  have hl : sizeof_line = 24 := rfl
  have hlt : E * sizeof_line < 2 ^ 64 := by rw [hl]; omega
  rw [Nat.mod_eq_of_lt hlt, init_lines_acc _ E 0 [] (by rw [Nat.zero_add, Nat.mul_comm])]
  rfl

theorem alloc_sets_acc {heap : Nat → Bool} {E bytes : Nat} (hE : E ≤ INT_MAX) (k : Nat) :
    ∀ (i : Nat) (acc : List (List cache_line_t)), sizeof_ptr * (i + k) ≤ bytes →
      (∀ m, m ≤ i + k → heap m = true) →
      alloc_sets heap E bytes k i acc =
        alloc_result.cache (acc ++ List.replicate k
          (List.replicate E { valid := false, tag := 0, lru := 0 })) := by
  induction k with
  | zero => intro i acc _ _; simp [alloc_sets]
  | succ k ih =>
    intro i acc h hheap
    have h1 : sizeof_ptr * (i + 1) ≤ bytes := by
      have : sizeof_ptr * (i + 1) ≤ sizeof_ptr * (i + (k + 1)) :=
        Nat.mul_le_mul_left _ (by omega)
      omega
    rw [alloc_sets, if_pos h1, if_pos (hheap (i + 1) (by omega)), init_lines_ok hE]
    simp only
    rw [ih (i + 1) _ (by rw [show i + 1 + k = i + (k + 1) by omega]; exact h)
      (fun m hm => hheap m (by omega)), List.append_assoc, List.replicate_succ]
    rfl

theorem alloc_sets_cache {heap : Nat → Bool} {E bytes : Nat} (k : Nat) :
    ∀ (i : Nat) (acc c : List (List cache_line_t)),
      alloc_sets heap E bytes k i acc = alloc_result.cache c →
      c = acc ++ List.replicate k (List.replicate E { valid := false, tag := 0, lru := 0 }) ∧
      (1 ≤ k → sizeof_ptr * (i + k) ≤ bytes) := by
  induction k with
  | zero =>
    intro i acc c h
    simp only [alloc_sets, alloc_result.cache.injEq] at h
    exact ⟨by simp [h], fun h0 => absurd h0 (by omega)⟩
  | succ k ih =>
    intro i acc c h
    rw [alloc_sets] at h
    by_cases h1 : sizeof_ptr * (i + 1) ≤ bytes
    · rw [if_pos h1] at h
      by_cases h2 : heap (i + 1) = true
      · rw [if_pos h2] at h
        cases hl : init_lines ((E * sizeof_line) % 2 ^ 64) E 0 [] with
        | none => rw [hl] at h; cases h
        | some set =>
          rw [hl] at h
          simp only at h
          have hset := init_lines_some _ E 0 [] set hl
          rw [List.nil_append] at hset
          obtain ⟨hc, hb⟩ := ih (i + 1) _ c h
          refine ⟨?_, fun _ => ?_⟩
          · rw [hc, hset, List.append_assoc, List.replicate_succ]
            rfl
          · by_cases hk : 1 ≤ k
            · have := hb hk
              rw [show i + (k + 1) = i + 1 + k by omega]
              exact this
            · have hk0 : k = 0 := by omega
              rw [hk0]
              exact h1
      · rw [if_neg h2] at h
        cases h
    · rw [if_neg h1] at h
      cases h

/-- The allocation completes, with the cache `init_cache (2 ^ s) E`, when
`s ≤ 60`, `E` is a value of type `int`, and every call of `malloc` returns a
block. -/
theorem allocate_ok {heap : Nat → Bool} {s E : Nat} (hs : s ≤ 60) (hE : E ≤ INT_MAX)
    (hheap : ∀ k, k ≤ 2 ^ s → heap k = true) :
    allocate heap (2 ^ s) E = alloc_result.cache (init_cache (2 ^ s) E) := by
  have hp : sizeof_ptr = 8 := rfl
  have h60 : 2 ^ s ≤ 2 ^ 60 := Nat.pow_le_pow_right (by norm_num) hs
  have hlt : 2 ^ s * sizeof_ptr < 2 ^ 64 := by rw [hp]; omega
  rw [allocate, if_pos (hheap 0 (Nat.zero_le _)), Nat.mod_eq_of_lt hlt,
    alloc_sets_acc hE (2 ^ s) 0 [] (by rw [Nat.zero_add, Nat.mul_comm])
      (fun m hm => hheap m (by omega))]
  rfl

theorem allocate_malloc_ok {s E : Nat} (hs : s ≤ 60) (hE : E ≤ INT_MAX) :
    allocate malloc_ok (2 ^ s) E = alloc_result.cache (init_cache (2 ^ s) E) :=
  allocate_ok hs hE (fun _ _ => rfl)

/-- A completed allocation of `2 ^ s` sets, `s < 64`, has built the cache
`init_cache (2 ^ s) E`, and `s ≤ 60`: for `s = 61, 62, 63` the size
`S * sizeof(cache_line_t*)` wraps to 0. -/
theorem allocate_cache {heap : Nat → Bool} {s E : Nat} {c : List (List cache_line_t)}
    (hs : s < 64) (h : allocate heap (2 ^ s) E = alloc_result.cache c) :
    c = init_cache (2 ^ s) E ∧ s ≤ 60 := by
  have hp : sizeof_ptr = 8 := rfl
  unfold allocate at h
  by_cases h0 : heap 0 = true
  · rw [if_pos h0] at h
    obtain ⟨hc, hb⟩ := alloc_sets_cache (2 ^ s) 0 [] c h
    refine ⟨by rw [hc]; rfl, ?_⟩
    have hpos : 1 ≤ 2 ^ s := Nat.one_le_two_pow
    have hb1 := hb hpos
    rw [Nat.zero_add, hp] at hb1
    by_contra hcon
    have h61 : 2 ^ 61 ≤ 2 ^ s := Nat.pow_le_pow_right (by norm_num) (by omega)
    have h63 : 2 ^ s ≤ 2 ^ 63 := Nat.pow_le_pow_right (by norm_num) (by omega)
    have hs3 : s = 61 ∨ s = 62 ∨ s = 63 := by omega
    rcases hs3 with rfl | rfl | rfl <;> norm_num at hb1
  · rw [if_neg h0] at h
    cases h

/-- The run of `simulate` spelled out for a completed allocation. -/
theorem simulate_eq {heap : Nat → Bool} {s E : Nat} (h : s < 64)
    (ha : allocate heap (2 ^ s) E = alloc_result.cache (init_cache (2 ^ s) E))
    (b : Nat) (trace : List record) :
    simulate heap s E b trace =
      run_refs s b (2 ^ s - 1) (init_state (2 ^ s) E) (trace_refs trace) := by
  simp only [simulate, shl64_one h, ha, run_cache, set_mask_lt h, run_trace_eq]
  rfl

theorem simulate_none {s : Nat} (h : 64 ≤ s) (heap : Nat → Bool) (E b : Nat)
    (trace : List record) : simulate heap s E b trace = none := by
  have : ¬ s < 64 := by omega
  simp [simulate, shl64, this]

theorem decode_lt {s b : Nat} (h : s + b < 64) (addr : Nat) :
    decode s b (2 ^ s - 1) addr = some ((addr >>> b) % 2 ^ s, addr >>> (s + b)) := by
  have hb : b < 64 := by omega
  simp [decode, shr64, h, hb, Nat.and_pow_two_sub_one_eq_mod]

theorem decode_some {s b mask addr si tag : Nat} (h : decode s b mask addr = some (si, tag)) :
    s + b < 64 ∧ si = (addr >>> b) &&& mask ∧ tag = addr >>> (s + b) := by
  unfold decode shr64 at h
  by_cases hb : b < 64
  · by_cases hsb : s + b < 64
    · simp only [hb, hsb, if_true, Option.some.injEq, Prod.mk.injEq] at h
      exact ⟨hsb, h.1.symm, h.2.symm⟩
    · simp [hb, hsb] at h
  · simp [hb] at h

theorem wf_init (S E : Nat) : wf S E (init_state S E) := by
  constructor
  · simp [init_state, init_cache]
  · intro set hset
    simp only [init_state, init_cache] at hset
    rw [List.eq_of_mem_replicate hset]
    simp

theorem wf_access {s b mask S E : Nat} {st st1 : sim_state} {addr : Nat}
    (h : access s b mask st addr = some st1) (hw : wf S E st) : wf S E st1 := by
  obtain ⟨si, tag, set, i, l, -, hset, -, hc, -⟩ := access_cases h
  constructor
  · rw [hc, List.length_set]; exact hw.1
  · intro x hx
    rw [hc] at hx
    rcases List.mem_or_eq_of_mem_set hx with hx | rfl
    · exact hw.2 x hx
    · rw [List.length_set]; exact hw.2 set (List.getElem?_mem hset)

theorem wf_run_refs {s b mask S E : Nat} {st st1 : sim_state} {addrs : List Nat}
    (h : run_refs s b mask st addrs = some st1) (hw : wf S E st) : wf S E st1 := by
  induction addrs generalizing st with
  | nil => simp only [run_refs, Option.some.injEq] at h; exact h ▸ hw
  | cons a as ih =>
    simp only [run_refs] at h
    cases ha : access s b mask st a with
    | none => simp [ha] at h
    | some st2 =>
      simp only [ha] at h
      exact ih h (wf_access ha hw)

theorem store_line_of_getElem? {set : List cache_line_t} {idx : Nat} {l : cache_line_t}
    (f : cache_line_t → cache_line_t) (h : set[idx]? = some l) :
    store_line set idx f = some (set.set idx (f l)) := by
  simp [store_line, h]

/-- The victim search returns an index inside a set that is not empty. -/
theorem lru_search_lt {set : List cache_line_t} (h : 0 < set.length) (m : Nat) :
    lru_search set 0 m 0 < set.length := by
  rcases lru_search_spec set 0 m 0 with ⟨h1, -⟩ | ⟨k, l, h1, h2, -⟩
  · omega
  · have := (List.getElem?_eq_some.1 h2).1
    omega

/-- One reference is defined on a cache of `2 ^ s` sets of `E ≥ 1` lines when
`s + b < 64`. -/
theorem access_defined {s b E : Nat} {st : sim_state} (addr : Nat)
    (hw : wf (2 ^ s) E st) (hE : 1 ≤ E) (hsb : s + b < 64) :
    ∃ st1, access s b (2 ^ s - 1) st addr = some st1 := by
  have hlt : (addr >>> b) % 2 ^ s < st.cache.length := by
    rw [hw.1]; exact Nat.mod_lt _ (Nat.pos_pow_of_pos s (by norm_num))
  obtain ⟨set, hset⟩ : ∃ set, st.cache[(addr >>> b) % 2 ^ s]? = some set :=
    ⟨_, List.getElem?_eq_some.2 ⟨hlt, rfl⟩⟩
  have hlen : set.length = E := hw.2 set (List.getElem?_mem hset)
  unfold access
  simp only [decode_lt hsb, hset]
  cases hh : hit_search (addr >>> (s + b)) set 0 with
  | some i =>
    obtain ⟨k, l, hk, hl, -⟩ := hit_search_some hh
    have hik : i = k := by omega
    subst hik
    simp [store_line_of_getElem? _ hl]
  | none =>
    cases he : empty_search set 0 with
    | some i =>
      obtain ⟨k, l, hk, hl, -⟩ := empty_search_some he
      have hik : i = k := by omega
      subst hik
      simp [store_line_of_getElem? _ hl]
    | none =>
      have hi : lru_search set 0 ULLONG_MAX 0 < set.length := lru_search_lt (by omega) _
      have hl : set[lru_search set 0 ULLONG_MAX 0]? = some (set[lru_search set 0 ULLONG_MAX 0]) :=
        List.getElem?_eq_some.2 ⟨hi, rfl⟩
      simp [store_line_of_getElem? _ hl]

theorem run_refs_defined {s b E : Nat} (hE : 1 ≤ E) (hsb : s + b < 64) (addrs : List Nat)
    {st : sim_state} (hw : wf (2 ^ s) E st) :
    ∃ st1, run_refs s b (2 ^ s - 1) st addrs = some st1 := by
  induction addrs generalizing st with
  | nil => exact ⟨st, rfl⟩
  | cons a as ih =>
    obtain ⟨st1, h1⟩ := access_defined a hw hE hsb
    obtain ⟨st2, h2⟩ := ih (wf_access h1 hw)
    exact ⟨st2, by simp [run_refs, h1, h2]⟩

/-- The simulator is defined on every trace for a geometry with
`1 ≤ E ≤ INT_MAX`, `s ≤ 60` and `s + b < 64`, when every call of `malloc`
returns a block. -/
theorem simulate_defined {heap : Nat → Bool} {s E b : Nat} (hE : 1 ≤ E) (hEm : E ≤ INT_MAX)
    (hs : s ≤ 60) (hsb : s + b < 64) (hheap : ∀ k, k ≤ 2 ^ s → heap k = true)
    (trace : List record) :
    ∃ st, simulate heap s E b trace = some st := by
  rw [simulate_eq (by omega) (allocate_ok hs hEm hheap)]
  exact run_refs_defined hE hsb _ (wf_init _ _)

/-- A defined run started at `simulate` is a run of `run_refs` at mask
`2 ^ s - 1` from the cache `init_cache (2 ^ s) E`, and `s ≤ 60`. -/
theorem simulate_some {heap : Nat → Bool} {s E b : Nat} {trace : List record}
    {st : sim_state} (h : simulate heap s E b trace = some st) :
    s ≤ 60 ∧ allocate heap (2 ^ s) E = alloc_result.cache (init_cache (2 ^ s) E) ∧
      run_refs s b (2 ^ s - 1) (init_state (2 ^ s) E) (trace_refs trace) = some st := by
  by_cases hs : s < 64
  · have h0 := h
    simp only [simulate, shl64_one hs] at h0
    cases ha : allocate heap (2 ^ s) E with
    | cache c =>
      obtain ⟨hc, h60⟩ := allocate_cache hs ha
      subst hc
      exact ⟨h60, rfl, by rw [← simulate_eq hs ha]; exact h⟩
    | exit status => rw [ha] at h0; cases h0
    | undefined => rw [ha] at h0; cases h0
  · rw [simulate_none (by omega)] at h
    cases h

theorem simulate_congr (heap : Nat → Bool) (s E b : Nat) {t1 t2 : List record}
    (h : trace_refs t1 = trace_refs t2) : simulate heap s E b t1 = simulate heap s E b t2 := by
  unfold simulate
  cases shl64 1 s with
  | none => rfl
  | some S =>
    simp only []
    cases allocate heap S E with
    | exit status => rfl
    | undefined => rfl
    | cache c =>
      simp only [run_cache]
      cases set_mask s with
      | none => rfl
      | some mask => simp only [run_trace_eq, h]

theorem trace_refs_filter (trace : List record) :
    trace_refs (trace.filter (fun r => decide (r.op ≠ 'I'))) = trace_refs trace := by
  induction trace with
  | nil => rfl
  | cons r rs ih =>
    by_cases hI : r.op = 'I'
    · rw [List.filter_cons_of_neg (by simp [hI]), ih]
      simp [trace_refs, record_refs, hI]
    · rw [List.filter_cons_of_pos (by simp [hI])]
      simp only [trace_refs, ih]

theorem trace_refs_all_I {trace : List record} (h : ∀ r ∈ trace, r.op = 'I') :
    trace_refs trace = [] := by
  induction trace with
  | nil => rfl
  | cons r rs ih =>
    have h1 : r.op = 'I' := h r (List.mem_cons_self _ _)
    have h2 := ih (fun x hx => h x (List.mem_cons_of_mem _ hx))
    simp [trace_refs, record_refs, h1, h2]

theorem record_refs_same {r1 r2 : record} (h : same_reference r1 r2) :
    record_refs r1 = record_refs r2 := by
  obtain ⟨ha, hop | ⟨h1, h2⟩⟩ := h
  · simp [record_refs, ha, hop]
  · have e1 : r1.op ≠ 'I' ∧ r1.op ≠ 'M' := by
      rcases h1 with h | h <;> rw [h] <;> decide
    have e2 : r2.op ≠ 'I' ∧ r2.op ≠ 'M' := by
      rcases h2 with h | h <;> rw [h] <;> decide
    simp [record_refs, ha, e1.1, e1.2, e2.1, e2.2]

theorem trace_refs_same {t1 t2 : List record} (h : List.Forall₂ same_reference t1 t2) :
    trace_refs t1 = trace_refs t2 := by
  induction h with
  | nil => rfl
  | cons h1 _ ih => simp [trace_refs, record_refs_same h1, ih]

theorem record_refs_of_key {r1 r2 : record} (h : (r1.op, r1.addr) = (r2.op, r2.addr)) :
    record_refs r1 = record_refs r2 := by
  simp only [Prod.mk.injEq] at h
  simp [record_refs, h.1, h.2]

theorem trace_refs_of_keys {t1 t2 : List record}
    (h : t1.map (fun r => (r.op, r.addr)) = t2.map (fun r => (r.op, r.addr))) :
    trace_refs t1 = trace_refs t2 := by
  induction t1 generalizing t2 with
  | nil =>
    cases t2 with
    | nil => rfl
    | cons r rs => simp at h
  | cons r1 rs1 ih =>
    cases t2 with
    | nil => simp at h
    | cons r2 rs2 =>
      simp only [List.map_cons, List.cons.injEq] at h
      simp [trace_refs, record_refs_of_key h.1, ih h.2]

/-- C8: a record of kind `I` leaves the whole state (cache lines, clock and
counters) as it is; a trace of `I` records only ends in the initial state,
whose counters are (0, 0, 0), for every geometry with `s ≤ 60` and `E` a value
of type `int`, when every call of `malloc` returns a block (so that the
allocation of the cache completes); and deleting the `I` records of any trace
changes nothing in the result of the run, be it the final state or its having
none. -/
theorem C8_instruction_records_skipped (heap : Nat → Bool) (s E b : Nat) :
    (∀ (mask : Nat) (st : sim_state) (r : record), r.op = 'I' →
        process_record s b mask st r = some st) ∧
    (∀ trace : List record, (∀ r ∈ trace, r.op = 'I') → s ≤ 60 → E ≤ INT_MAX →
        (∀ k, k ≤ 2 ^ s → heap k = true) →
        simulate heap s E b trace = some (init_state (2 ^ s) E) ∧
        (simulate heap s E b trace).map counters = some (0, 0, 0)) ∧
    (∀ (trace : List record) (st : sim_state), (∀ r ∈ trace, r.op = 'I') →
        simulate heap s E b trace = some st → st = init_state (2 ^ s) E) ∧
    (∀ trace : List record,
        simulate heap s E b (trace.filter (fun r => decide (r.op ≠ 'I'))) =
          simulate heap s E b trace) := by
  refine ⟨?_, ?_, ?_, ?_⟩
  · intro mask st r hr
    simp [process_record, hr]
  · intro trace hI hs hE hheap
    have h : simulate heap s E b trace = some (init_state (2 ^ s) E) := by
      rw [simulate_eq (by omega) (allocate_ok hs hE hheap), trace_refs_all_I hI]; rfl
    exact ⟨h, by rw [h]; rfl⟩
  · intro trace st hI h
    obtain ⟨-, -, hrun⟩ := simulate_some h
    rw [trace_refs_all_I hI] at hrun
    exact (Option.some.inj hrun).symm
  · intro trace
    exact simulate_congr heap s E b (trace_refs_filter trace)

/-- At geometry (2, 2, 3) a trace of three `I` records yields (0, 0, 0), and
dropping the `I` records of a mixed trace leaves the result as it is. -/
theorem C8_instruction_records_skipped_witness :
    (simulate malloc_ok 2 2 3 [⟨'I', 0, 1⟩, ⟨'I', 16, 4⟩, ⟨'I', 0, 8⟩]).map counters = some (0, 0, 0) ∧
    simulate malloc_ok 2 2 3 ([⟨'I', 0, 1⟩, ⟨'L', 16, 4⟩, ⟨'I', 8, 8⟩, ⟨'M', 16, 4⟩].filter
        (fun r => decide (r.op ≠ 'I'))) =
      simulate malloc_ok 2 2 3 [⟨'I', 0, 1⟩, ⟨'L', 16, 4⟩, ⟨'I', 8, 8⟩, ⟨'M', 16, 4⟩] :=
  ⟨((C8_instruction_records_skipped malloc_ok 2 2 3).2.1 _ (by decide) (by decide) (by decide)
      (fun _ _ => rfl)).2,
   (C8_instruction_records_skipped malloc_ok 2 2 3).2.2.2 _⟩

/-- C9: the result of a run (the final state with its counters, or its having
none) depends on the geometry and on the kinds and addresses of the
records only: two traces with the same sequence of (kind, address) pairs give
the same result, and so do two traces that differ in sizes and in exchanges of
`L` and `S` kinds (the outcomes `heap` of the calls of `malloc` being the
same).  `simulate` being a function, two runs on the same trace are
identical. -/
theorem C9_result_depends_on_kind_and_address (heap : Nat → Bool) (s E b : Nat)
    (t1 t2 : List record) :
    (t1.map (fun r => (r.op, r.addr)) = t2.map (fun r => (r.op, r.addr)) →
        simulate heap s E b t1 = simulate heap s E b t2) ∧
    (List.Forall₂ same_reference t1 t2 → simulate heap s E b t1 = simulate heap s E b t2) :=
  ⟨fun h => simulate_congr heap s E b (trace_refs_of_keys h),
   fun h => simulate_congr heap s E b (trace_refs_same h)⟩

/-- At geometry (1, 2, 2) a trace and the trace with other sizes and with the
`L` and `S` kinds exchanged give the same final state. -/
theorem C9_result_depends_on_kind_and_address_witness :
    List.Forall₂ same_reference
      [⟨'L', 0, 1⟩, ⟨'S', 16, 4⟩, ⟨'M', 32, 4⟩, ⟨'I', 4, 4⟩]
      [⟨'S', 0, 8⟩, ⟨'L', 16, 2⟩, ⟨'M', 32, 1⟩, ⟨'I', 4, 2⟩] ∧
    simulate malloc_ok 1 2 2 [⟨'L', 0, 1⟩, ⟨'S', 16, 4⟩, ⟨'M', 32, 4⟩, ⟨'I', 4, 4⟩] =
      simulate malloc_ok 1 2 2 [⟨'S', 0, 8⟩, ⟨'L', 16, 2⟩, ⟨'M', 32, 1⟩, ⟨'I', 4, 2⟩] ∧
    simulate malloc_ok 1 2 2 [⟨'L', 0, 1⟩, ⟨'S', 16, 4⟩, ⟨'M', 32, 4⟩, ⟨'I', 4, 4⟩] =
      some ⟨[[⟨true, 4, 4⟩, ⟨true, 2, 2⟩], [⟨false, 0, 0⟩, ⟨false, 0, 0⟩]], 1, 3, 1, 5⟩ :=
  have h : List.Forall₂ same_reference
      [⟨'L', 0, 1⟩, ⟨'S', 16, 4⟩, ⟨'M', 32, 4⟩, ⟨'I', 4, 4⟩]
      [⟨'S', 0, 8⟩, ⟨'L', 16, 2⟩, ⟨'M', 32, 1⟩, ⟨'I', 4, 2⟩] :=
    List.Forall₂.cons ⟨rfl, Or.inr ⟨Or.inl rfl, Or.inr rfl⟩⟩
      (List.Forall₂.cons ⟨rfl, Or.inr ⟨Or.inr rfl, Or.inl rfl⟩⟩
        (List.Forall₂.cons ⟨rfl, Or.inl rfl⟩
          (List.Forall₂.cons ⟨rfl, Or.inl rfl⟩ List.Forall₂.nil)))
  ⟨h, (C9_result_depends_on_kind_and_address malloc_ok 1 2 2 _ _).2 h, by decide⟩

theorem length_trace_refs (trace : List record) :
    (trace_refs trace).length = reference_count trace := by
  induction trace with
  | nil => rfl
  | cons r rs ih =>
    simp only [trace_refs, reference_count, List.length_append, ih, record_refs]
    by_cases hI : r.op = 'I'
    · simp [hI]
    · by_cases hM : r.op = 'M'
      · simp [hI, hM]
      · simp [hI, hM]

theorem access_hit_or_miss {s b mask : Nat} {st st1 : sim_state} {addr : Nat}
    (h : access s b mask st addr = some st1) :
    (st1.hits = incr32 st.hits ∧ st1.misses = st.misses) ∨
    (st1.hits = st.hits ∧ st1.misses = incr32 st.misses) := by
  obtain ⟨si, tag, set, i, l, -, -, -, -, -, hc⟩ := access_cases h
  rcases hc with ⟨-, -, -, h1, h2, -⟩ | ⟨-, -, -, h1, h2, -⟩ | ⟨-, -, -, -, h1, h2, -⟩
  · exact Or.inl ⟨h1, h2⟩
  · exact Or.inr ⟨h1, h2⟩
  · exact Or.inr ⟨h1, h2⟩

theorem run_refs_hits_misses {s b mask : Nat} {addrs : List Nat} {st st1 : sim_state}
    (h : run_refs s b mask st addrs = some st1)
    (hlt : st.hits + st.misses + addrs.length < 2 ^ 32) :
    st1.hits + st1.misses = st.hits + st.misses + addrs.length := by
  induction addrs generalizing st with
  | nil =>
    simp only [run_refs, Option.some.injEq] at h
    subst h
    simp
  | cons a as ih =>
    simp only [run_refs] at h
    cases ha : access s b mask st a with
    | none => simp [ha] at h
    | some st2 =>
      simp only [ha] at h
      simp only [List.length_cons] at hlt ⊢
      have hstep : st2.hits + st2.misses = st.hits + st.misses + 1 := by
        rcases access_hit_or_miss ha with ⟨h1, h2⟩ | ⟨h1, h2⟩
        · rw [h1, h2, incr32, Nat.mod_eq_of_lt (by omega)]; omega
        · rw [h1, h2, incr32, Nat.mod_eq_of_lt (by omega)]; omega
      rw [ih h (by omega), hstep]
      omega

theorem run_refs_hits_misses_mod {s b mask : Nat} {addrs : List Nat} {st st1 : sim_state}
    (h : run_refs s b mask st addrs = some st1) :
    (st1.hits + st1.misses) % 2 ^ 32 = (st.hits + st.misses + addrs.length) % 2 ^ 32 := by
  induction addrs generalizing st with
  | nil =>
    simp only [run_refs, Option.some.injEq] at h
    subst h
    simp
  | cons a as ih =>
    simp only [run_refs] at h
    cases ha : access s b mask st a with
    | none => simp [ha] at h
    | some st2 =>
      simp only [ha] at h
      rw [ih h, List.length_cons]
      rcases access_hit_or_miss ha with ⟨h1, h2⟩ | ⟨h1, h2⟩
      · rw [h1, h2, incr32]; omega
      · rw [h1, h2, incr32]; omega

/-- C3: every reference increments exactly one of `hits` and `misses`, by one
modulo `2 ^ 32`, and leaves the other as it is; so the final `hits + misses`
of every defined run is the number of references of the trace (the number of
its records other than `I`, an `M` record counted twice) modulo `2 ^ 32`, and
it equals that number for a trace with fewer than `2 ^ 32` references, where
no 32-bit counter wraps.  The run is defined for every geometry with
`1 ≤ E ≤ INT_MAX`, `s ≤ 60` and `s + b < 64`, when every call of `malloc`
returns a block. -/
theorem C3_hits_plus_misses_eq_references (heap : Nat → Bool) (s E b : Nat)
    (trace : List record) :
    (1 ≤ E → E ≤ INT_MAX → s ≤ 60 → s + b < 64 → (∀ k, k ≤ 2 ^ s → heap k = true) →
      ∃ st, simulate heap s E b trace = some st) ∧
    (∀ st, simulate heap s E b trace = some st →
      (st.hits + st.misses) % 2 ^ 32 = reference_count trace % 2 ^ 32 ∧
      (reference_count trace < 2 ^ 32 → st.hits + st.misses = reference_count trace)) ∧
    (∀ (mask : Nat) (st st1 : sim_state) (addr : Nat),
        access s b mask st addr = some st1 →
        (st1.hits = incr32 st.hits ∧ st1.misses = st.misses) ∨
        (st1.hits = st.hits ∧ st1.misses = incr32 st.misses)) := by
  refine ⟨fun hE hEm hs hsb hheap => simulate_defined hE hEm hs hsb hheap trace, ?_, ?_⟩
  · intro st h
    obtain ⟨-, -, hrun⟩ := simulate_some h
    constructor
    · have := run_refs_hits_misses_mod hrun
      rw [this, length_trace_refs]
      simp [init_state]
    · intro hlen
      have := run_refs_hits_misses hrun (by
        rw [length_trace_refs]; simpa [init_state] using hlen)
      rw [this, length_trace_refs]
      simp [init_state]
  · intro mask st st1 addr h
    exact access_hit_or_miss h

/-- At geometry (1, 1, 2) the trace `L 0`, `I 4`, `M 8`, `S 0` has four
references and ends with `hits + misses = 4`. -/
theorem C3_hits_plus_misses_eq_references_witness :
    reference_count [⟨'L', 0, 1⟩, ⟨'I', 4, 1⟩, ⟨'M', 8, 1⟩, ⟨'S', 0, 1⟩] = 4 ∧
    (∃ st, simulate malloc_ok 1 1 2 [⟨'L', 0, 1⟩, ⟨'I', 4, 1⟩, ⟨'M', 8, 1⟩, ⟨'S', 0, 1⟩] = some st) ∧
    (simulate malloc_ok 1 1 2 [⟨'L', 0, 1⟩, ⟨'I', 4, 1⟩, ⟨'M', 8, 1⟩, ⟨'S', 0, 1⟩]).map counters =
      some (1, 3, 2) ∧
    (∀ st, simulate malloc_ok 1 1 2 [⟨'L', 0, 1⟩, ⟨'I', 4, 1⟩, ⟨'M', 8, 1⟩, ⟨'S', 0, 1⟩] = some st →
      st.hits + st.misses = 4) :=
  ⟨by decide,
   (C3_hits_plus_misses_eq_references malloc_ok 1 1 2 _).1 (by decide) (by decide) (by decide)
     (by decide) (fun _ _ => rfl),
   by decide,
   fun st h => ((C3_hits_plus_misses_eq_references malloc_ok 1 1 2 _).2.1 st h).2 (by decide)⟩

/-- A reference that finds its tag in a valid line of its set is a hit. -/
theorem access_of_resident {s b mask : Nat} {st : sim_state} {addr si tag : Nat}
    {set : List cache_line_t} {l : cache_line_t}
    (hd : decode s b mask addr = some (si, tag)) (hset : st.cache[si]? = some set)
    (hl : l ∈ set) (hv : l.valid = true) (ht : l.tag = tag) :
    ∃ st1, access s b mask st addr = some st1 ∧ st1.hits = incr32 st.hits ∧
      st1.misses = st.misses ∧ st1.evictions = st.evictions := by
  cases hh : hit_search tag set 0 with
  | none => exact absurd ⟨hv, ht⟩ (hit_search_none.1 hh l hl)
  | some i =>
    obtain ⟨k, l2, hk, hl2, -⟩ := hit_search_some hh
    have hik : i = k := by omega
    subst hik
    unfold access
    simp only [hd, hset, hh, store_line_of_getElem? _ hl2]
    exact ⟨_, rfl, rfl, rfl, rfl⟩

/-- After a reference to an address the next reference to it is a hit. -/
theorem access_twice {s b mask : Nat} {st st1 : sim_state} {addr : Nat}
    (h : access s b mask st addr = some st1) :
    ∃ st2, access s b mask st1 addr = some st2 ∧ st2.hits = incr32 st1.hits ∧
      st2.misses = st1.misses ∧ st2.evictions = st1.evictions := by
  obtain ⟨si, tag, set, i, l, hd, hset, hl, hc, -, -⟩ := access_cases h
  have hsi : si < st.cache.length := (List.getElem?_eq_some.1 hset).1
  have hi : i < set.length := (List.getElem?_eq_some.1 hl).1
  have hset1 : st1.cache[si]? =
      some (set.set i { valid := true, tag := tag, lru := st.time }) := by
    rw [hc, List.getElem?_set]
    simp [hsi]
  exact access_of_resident hd hset1 (List.mem_set _ _ hi _) rfl rfl

theorem process_record_M (s b mask : Nat) (st : sim_state) {r : record} (hr : r.op = 'M') :
    process_record s b mask st r =
      (access s b mask st r.addr).bind (fun st1 => access s b mask st1 r.addr) := by
  have hI : r.op ≠ 'I' := by rw [hr]; decide
  simp only [process_record, hI, hr, if_true, if_false, accesses_loop]
  cases access s b mask st r.addr with
  | none => rfl
  | some st1 =>
    simp only [Option.some_bind]
    cases access s b mask st1 r.addr with
    | none => rfl
    | some st2 => rfl

theorem trace_refs_M_eq_L_S (pre post : List record) (addr : Nat) (n1 n2 n3 : Int) :
    trace_refs (pre ++ ⟨'M', addr, n1⟩ :: post) =
      trace_refs (pre ++ ⟨'L', addr, n2⟩ :: ⟨'S', addr, n3⟩ :: post) := by
  have hM : record_refs ⟨'M', addr, n1⟩ = [addr, addr] := by
    simp [record_refs]
  have hL : record_refs ⟨'L', addr, n2⟩ = [addr] := by
    simp [record_refs]
  have hS : record_refs ⟨'S', addr, n3⟩ = [addr] := by
    simp [record_refs]
  simp only [trace_refs_append, trace_refs, hM, hL, hS]
  simp

/-- C7: in every state `st` reached by a defined run over a trace `pre`, at
mask `2 ^ s - 1`:
* an `M` record is two consecutive references to its address;
* the first of them is defined when `E ≥ 1` and `s + b < 64`;
* the second is defined and is a hit (it increments `hits` and leaves `misses`
  and `evictions`);
* when no valid line of the address's set holds its tag beforehand, the first
  one increments `misses` and leaves `hits`, so the record gives one miss and
  then one hit;
* on the fresh cache, whose allocation has completed (a run being defined,
  as `hpre` says of the run on `pre`), one `M` record yields (1, 1, 0) when
  `E ≥ 1` and `s + b < 64`;
* replacing an `M` record of a trace by an `L` record and an `S` record at
  the same address changes nothing in the result of the run. -/
theorem C7_modify_is_load_then_store (heap : Nat → Bool) (s E b : Nat) (pre : List record)
    (st : sim_state)
    (hpre : simulate heap s E b pre = some st) (addr : Nat) (size : Int) :
    process_record s b (2 ^ s - 1) st ⟨'M', addr, size⟩ =
      (access s b (2 ^ s - 1) st addr).bind (fun st1 => access s b (2 ^ s - 1) st1 addr) ∧
    (1 ≤ E → s + b < 64 → ∃ st1, access s b (2 ^ s - 1) st addr = some st1) ∧
    (∀ st1, access s b (2 ^ s - 1) st addr = some st1 →
      ∃ st2, access s b (2 ^ s - 1) st1 addr = some st2 ∧
        process_record s b (2 ^ s - 1) st ⟨'M', addr, size⟩ = some st2 ∧
        st2.hits = incr32 st1.hits ∧ st2.misses = st1.misses ∧
        st2.evictions = st1.evictions ∧
        (∀ si tag set, decode s b (2 ^ s - 1) addr = some (si, tag) →
          st.cache[si]? = some set → (∀ l ∈ set, ¬ (l.valid = true ∧ l.tag = tag)) →
          st1.hits = st.hits ∧ st1.misses = incr32 st.misses)) ∧
    (1 ≤ E → s + b < 64 →
      (simulate heap s E b [⟨'M', addr, size⟩]).map counters = some (1, 1, 0)) ∧
    (∀ (post : List record) (n2 n3 : Int),
      simulate heap s E b (pre ++ ⟨'M', addr, size⟩ :: post) =
        simulate heap s E b (pre ++ ⟨'L', addr, n2⟩ :: ⟨'S', addr, n3⟩ :: post)) := by
  obtain ⟨hs60, ha, hrun⟩ := simulate_some hpre
  have hw : wf (2 ^ s) E st := wf_run_refs hrun (wf_init _ _)
  refine ⟨process_record_M s b _ st rfl, fun hE hsb => access_defined addr hw hE hsb, ?_, ?_,
    fun post n2 n3 => simulate_congr heap s E b (trace_refs_M_eq_L_S pre post addr size n2 n3)⟩
  · intro st1 h1
    obtain ⟨st2, h2, hh, hm, he⟩ := access_twice h1
    refine ⟨st2, h2, ?_, hh, hm, he, ?_⟩
    · rw [process_record_M s b _ st rfl]
      simp [h1, h2]
    · intro si tag set hd hset hnone
      obtain ⟨si1, tag1, set1, i, l, hd1, hset1, hl, -, -, hc⟩ := access_cases h1
      rw [hd] at hd1
      cases hd1
      rw [hset] at hset1
      cases hset1
      rcases hc with ⟨-, hv, ht, -⟩ | ⟨-, -, -, h1, h2, -⟩ | ⟨-, -, -, -, h1, h2, -⟩
      · exact absurd ⟨hv, ht⟩ (hnone l (List.getElem?_mem hl))
      · exact ⟨h1, h2⟩
      · exact ⟨h1, h2⟩
  · intro hE hsb
    have hs : s < 64 := by omega
    obtain ⟨st1, h1⟩ := access_defined addr (wf_init (2 ^ s) E) hE hsb
    obtain ⟨st2, h2, hh, hm, he⟩ := access_twice h1
    have hrefs : trace_refs [(⟨'M', addr, size⟩ : record)] = [addr, addr] := by
      simp [trace_refs, record_refs]
    have hfin : simulate heap s E b [⟨'M', addr, size⟩] = some st2 := by
      rw [simulate_eq hs ha, hrefs]
      simp [run_refs, h1, h2]
    obtain ⟨si, tag, set, i, l, hd, hset, hl, -, -, hc⟩ := access_cases h1
    have hlmem : l ∈ List.replicate E ({ valid := false, tag := 0, lru := 0 } : cache_line_t) := by
      have hmem : set ∈ init_cache (2 ^ s) E := List.getElem?_mem hset
      rw [List.eq_of_mem_replicate hmem] at hl
      exact List.getElem?_mem hl
    have hl0 : l.valid = false := by rw [List.eq_of_mem_replicate hlmem]
    rw [hfin]
    rcases hc with ⟨-, hv, -⟩ | ⟨-, -, -, h1h, h1m, h1e⟩ | ⟨-, -, -, hv, -⟩
    · rw [hl0] at hv; cases hv
    · simp only [Option.map_some', counters, hh, hm, he, h1h, h1m, h1e, init_state, incr32]
      rfl
    · rw [hl0] at hv; cases hv

/-- At geometry (1, 2, 2), after `L 0` and `L 16`, the record `M 12` (whose
block is not resident) is a miss and then a hit, and on the fresh cache `M 12`
alone yields (1, 1, 0). -/
theorem C7_modify_is_load_then_store_witness :
    simulate malloc_ok 1 2 2 [⟨'L', 0, 1⟩, ⟨'L', 16, 1⟩] =
      some ⟨[[⟨true, 0, 1⟩, ⟨true, 2, 2⟩], [⟨false, 0, 0⟩, ⟨false, 0, 0⟩]], 0, 2, 0, 3⟩ ∧
    process_record 1 2 (2 ^ 1 - 1)
        ⟨[[⟨true, 0, 1⟩, ⟨true, 2, 2⟩], [⟨false, 0, 0⟩, ⟨false, 0, 0⟩]], 0, 2, 0, 3⟩
        ⟨'M', 12, 4⟩ =
      some ⟨[[⟨true, 0, 1⟩, ⟨true, 2, 2⟩], [⟨true, 1, 4⟩, ⟨false, 0, 0⟩]], 1, 3, 0, 5⟩ ∧
    (simulate malloc_ok 1 2 2 [⟨'M', 12, 4⟩]).map counters = some (1, 1, 0) :=
  ⟨by decide, by decide,
   (C7_modify_is_load_then_store malloc_ok 1 2 2 [⟨'L', 0, 1⟩, ⟨'L', 16, 1⟩]
     ⟨[[⟨true, 0, 1⟩, ⟨true, 2, 2⟩], [⟨false, 0, 0⟩, ⟨false, 0, 0⟩]], 0, 2, 0, 3⟩
     (by decide) 12 4).2.2.2.1 (by decide) (by decide)⟩

theorem resident_tags_append (A B : List cache_line_t) :
    resident_tags (A ++ B) = resident_tags A ++ resident_tags B := by
  simp [resident_tags]

theorem resident_tags_cons_valid {x : cache_line_t} (h : x.valid = true) (B : List cache_line_t) :
    resident_tags (x :: B) = x.tag :: resident_tags B := by
  simp [resident_tags, List.filter, h]

theorem resident_tags_cons_invalid {x : cache_line_t} (h : x.valid = false)
    (B : List cache_line_t) : resident_tags (x :: B) = resident_tags B := by
  simp [resident_tags, List.filter, h]

theorem mem_resident_tags {set : List cache_line_t} {t : Nat} :
    t ∈ resident_tags set ↔ ∃ l ∈ set, l.valid = true ∧ l.tag = t := by
  simp [resident_tags, and_assoc]

theorem hit_search_none_iff {tag : Nat} {set : List cache_line_t} {i : Nat} :
    hit_search tag set i = none ↔ tag ∉ resident_tags set := by
  rw [hit_search_none, mem_resident_tags]
  simp

theorem resident_tags_all_valid {set : List cache_line_t} (h : ∀ l ∈ set, l.valid = true) :
    resident_tags set = set.map (fun l => l.tag) := by
  unfold resident_tags
  rw [List.filter_eq_self.2 (by simpa using h)]

/-- A line of a set splits the set around it, and the store to it too. -/
theorem set_split {α : Type} {set : List α} {i : Nat} {x : α} (h : set[i]? = some x) (y : α) :
    set = set.take i ++ x :: set.drop (i + 1) ∧
    set.set i y = set.take i ++ y :: set.drop (i + 1) := by
  obtain ⟨hi, hx⟩ := List.getElem?_eq_some.1 h
  constructor
  · conv_lhs => rw [← List.take_append_drop i set]
    rw [List.drop_eq_getElem_cons hi, hx]
  · exact List.set_eq_take_cons_drop _ hi

/-- The sets of the cache after a store to line `i` of set `si`. -/
theorem getElem?_set_set {cache : List (List cache_line_t)} {si sj : Nat}
    {set1 set2 : List cache_line_t} (h : (cache.set si set1)[sj]? = some set2) :
    (sj = si ∧ set2 = set1) ∨ (sj ≠ si ∧ cache[sj]? = some set2) := by
  rw [List.getElem?_set] at h
  by_cases hij : si = sj
  · simp only [hij, if_true] at h
    left
    refine ⟨hij.symm, ?_⟩
    by_cases hlt : sj < cache.length
    · simp only [hlt, if_true, Option.some.injEq] at h; exact h.symm
    · simp [hlt] at h
  · simp only [hij, if_false] at h
    exact Or.inr ⟨fun e => hij e.symm, h⟩

/-- The resident tags of the target set before and after a reference, around
the line that is written. -/
theorem step_resident (tag : Nat) {set : List cache_line_t} {i : Nat} {x : cache_line_t}
    (u : Nat) (hx : set[i]? = some x) :
    ∃ rA rB,
      resident_tags (set.set i { valid := true, tag := tag, lru := u }) = rA ++ tag :: rB ∧
      (x.valid = true → resident_tags set = rA ++ x.tag :: rB) ∧
      (x.valid = false → resident_tags set = rA ++ rB) := by
  obtain ⟨h1, h2⟩ := set_split hx { valid := true, tag := tag, lru := u }
  refine ⟨resident_tags (set.take i), resident_tags (set.drop (i + 1)), ?_, ?_, ?_⟩
  · rw [h2, resident_tags_append, resident_tags_cons_valid rfl]
  · intro hv
    conv_lhs => rw [h1]
    rw [resident_tags_append, resident_tags_cons_valid hv]
  · intro hv
    conv_lhs => rw [h1]
    rw [resident_tags_append, resident_tags_cons_invalid hv]

theorem init_resident_tags (S E si : Nat) (set : List cache_line_t)
    (h : (init_state S E).cache[si]? = some set) : resident_tags set = [] := by
  have hmem : set ∈ init_cache S E := List.getElem?_mem h
  rw [List.eq_of_mem_replicate hmem]
  simp [resident_tags]

theorem tags_distinct_init (S E : Nat) : tags_distinct (init_state S E) := by
  intro si set h
  rw [init_resident_tags S E si set h]
  exact List.nodup_nil

theorem tags_referenced_init (S E : Nat) : tags_referenced (init_state S E) [] := by
  intro si set h t ht
  rw [init_resident_tags S E si set h] at ht
  cases ht

/-- One reference keeps the tags of the valid lines of every set distinct, and
every resident tag referenced. -/
theorem access_tags {s b mask : Nat} {st st1 : sim_state} {addr : Nat}
    (h : access s b mask st addr = some st1) (hd : tags_distinct st) :
    tags_distinct st1 ∧
    ∀ keys key, decode s b mask addr = some key → tags_referenced st keys →
      tags_referenced st1 (keys ++ [key]) := by
  obtain ⟨si, tag, set, i, x, hdec, hset, hx, hc, -, hcase⟩ := access_cases h
  obtain ⟨rA, rB, hnew, hold1, hold0⟩ := step_resident tag st.time hx
  have hnd := hd si set hset
  have hnewnd : (rA ++ tag :: rB).Nodup := by
    rcases hcase with ⟨-, hv, ht, -⟩ | ⟨hh, -, hv, -⟩ | ⟨hh, -, -, hv, -⟩
    · rw [hold1 hv, ht] at hnd; exact hnd
    · rw [hold0 hv] at hnd
      have hnot := hit_search_none_iff.1 hh
      rw [hold0 hv] at hnot
      exact List.nodup_middle.2 (List.nodup_cons.2 ⟨hnot, hnd⟩)
    · have hnot := hit_search_none_iff.1 hh
      rw [hold1 hv] at hnd hnot
      have h1 := List.nodup_middle.1 hnd
      have h2 : tag ∉ rA ++ rB := by
        intro hm
        apply hnot
        rcases List.mem_append.1 hm with hm | hm
        · exact List.mem_append_left _ hm
        · exact List.mem_append_right _ (List.mem_cons_of_mem _ hm)
      exact List.nodup_middle.2 (List.nodup_cons.2 ⟨h2, (List.nodup_cons.1 h1).2⟩)
  constructor
  · intro sj set2 hset2
    rw [hc] at hset2
    rcases getElem?_set_set hset2 with ⟨-, rfl⟩ | ⟨-, hold⟩
    · rw [hnew]; exact hnewnd
    · exact hd sj set2 hold
  · intro keys key hkey href sj set2 hset2 t ht
    rw [hdec] at hkey
    cases hkey
    rw [hc] at hset2
    rcases getElem?_set_set hset2 with ⟨rfl, rfl⟩ | ⟨-, hold⟩
    · rw [hnew] at ht
      by_cases htt : t = tag
      · subst htt; simp
      · have hin : t ∈ resident_tags set := by
          have hAB : t ∈ rA ∨ t ∈ rB := by
            rcases List.mem_append.1 ht with hm | hm
            · exact Or.inl hm
            · rcases List.mem_cons.1 hm with hm | hm
              · exact absurd hm htt
              · exact Or.inr hm
          cases hv : x.valid with
          | true =>
            rw [hold1 hv]
            rcases hAB with hm | hm
            · exact List.mem_append_left _ hm
            · exact List.mem_append_right _ (List.mem_cons_of_mem _ hm)
          | false =>
            rw [hold0 hv]
            exact List.mem_append.2 hAB
        exact List.mem_append_left _ (href sj set hset t hin)
    · exact List.mem_append_left _ (href sj set2 hold t ht)

theorem alternates_alternating (a1 a2 n : Nat) : alternates a1 a2 (alternating a1 a2 n) := by
  induction n generalizing a1 a2 with
  | zero => trivial
  | succ n ih => exact ⟨Or.inl rfl, rfl, ih a2 a1⟩

theorem length_alternating (a1 a2 n : Nat) : (alternating a1 a2 n).length = n := by
  induction n generalizing a1 a2 with
  | zero => rfl
  | succ n ih => simp [alternating, ih]

theorem trace_refs_alternating (a1 a2 n : Nat) :
    (trace_refs (alternating a1 a2 n)).length = (alternating a1 a2 n).length := by
  induction n generalizing a1 a2 with
  | zero => rfl
  | succ n ih => simp [alternating, trace_refs, record_refs, ih]

theorem record_refs_load_store {r : record} (h : r.op = 'L' ∨ r.op = 'S') :
    record_refs r = [r.addr] := by
  have e : r.op ≠ 'I' ∧ r.op ≠ 'M' := by
    rcases h with h | h <;> rw [h] <;> decide
  simp [record_refs, e.1, e.2]

/-- With one line in the set, a reference to a tag other than the resident
one is a miss with an eviction. -/
theorem access_thrash {s b mask : Nat} {st : sim_state} {addr si tag : Nat} {x : cache_line_t}
    (hd : decode s b mask addr = some (si, tag)) (hset : st.cache[si]? = some [x])
    (hv : x.valid = true) (ht : x.tag ≠ tag) :
    access s b mask st addr = some { st with
      misses := incr32 st.misses
      evictions := incr32 st.evictions
      time := incr64 st.time
      cache := st.cache.set si [{ valid := true, tag := tag, lru := st.time }] } := by
  have h0 : lru_search [x] 0 ULLONG_MAX 0 = 0 := by
    simp [lru_search]
  obtain ⟨v, t, u⟩ := x
  simp only at hv ht
  subst hv
  simp [access, hd, hset, hit_search, empty_search, h0, store_line, ht]

/-- With one invalid line in the set, a reference is a miss that fills it. -/
theorem access_fill_one {s b mask : Nat} {st : sim_state} {addr si tag : Nat} {x : cache_line_t}
    (hd : decode s b mask addr = some (si, tag)) (hset : st.cache[si]? = some [x])
    (hv : x.valid = false) :
    access s b mask st addr = some { st with
      misses := incr32 st.misses
      time := incr64 st.time
      cache := st.cache.set si [{ valid := true, tag := tag, lru := st.time }] } := by
  obtain ⟨v, t, u⟩ := x
  simp only at hv
  subst hv
  simp [access, hd, hset, hit_search, empty_search, store_line]

/-- A run over a trace that alternates between two addresses of the same set
and different tags, on a set of one line that holds another tag than the
first address's: every reference is a miss with an eviction. -/
theorem run_refs_thrash {s b mask si : Nat} (trace : List record) :
    ∀ (a1 a2 t1 t2 : Nat) (st : sim_state) (x : cache_line_t),
      decode s b mask a1 = some (si, t1) → decode s b mask a2 = some (si, t2) → t1 ≠ t2 →
      alternates a1 a2 trace → st.cache[si]? = some [x] → x.valid = true → x.tag = t2 →
      st.misses < 2 ^ 32 → st.evictions < 2 ^ 32 →
      ∃ st1, run_refs s b mask st (trace_refs trace) = some st1 ∧ st1.hits = st.hits ∧
        st1.misses = (st.misses + trace.length) % 2 ^ 32 ∧
        st1.evictions = (st.evictions + trace.length) % 2 ^ 32 := by
  induction trace with
  | nil =>
    intro a1 a2 t1 t2 st x _ _ _ _ _ _ _ hm he
    exact ⟨st, rfl, rfl, by simp only [List.length_nil]; omega,
      by simp only [List.length_nil]; omega⟩
  | cons r rs ih =>
    intro a1 a2 t1 t2 st x hd1 hd2 hne halt hset hv ht hm he
    obtain ⟨hop, haddr, hrest⟩ := halt
    have hsi : si < st.cache.length := (List.getElem?_eq_some.1 hset).1
    have hacc := access_thrash hd1 hset hv (by rw [ht]; exact fun e => hne e.symm)
    obtain ⟨st1, hrun, hh, hmiss, hev⟩ := ih a2 a1 t2 t1
      { st with
        misses := incr32 st.misses
        evictions := incr32 st.evictions
        time := incr64 st.time
        cache := st.cache.set si [{ valid := true, tag := t1, lru := st.time }] }
      { valid := true, tag := t1, lru := st.time } hd2 hd1 (fun e => hne e.symm) hrest
      (by simp [List.getElem?_set, hsi]) rfl rfl
      (Nat.mod_lt _ (by norm_num)) (Nat.mod_lt _ (by norm_num))
    refine ⟨st1, ?_, hh, ?_, ?_⟩
    · simp only [trace_refs, record_refs_load_store hop, haddr, List.singleton_append, run_refs,
        hacc]
      exact hrun
    · rw [hmiss]; simp only [incr32, List.length_cons]; omega
    · rw [hev]; simp only [incr32, List.length_cons]; omega

/-- The counters after a direct-mapped run over a trace that alternates
between two addresses of one set with different tags, when the allocation of
the cache completes. -/
theorem simulate_thrash (heap : Nat → Bool) (s b si t1 t2 a1 a2 : Nat) {trace : List record}
    (hd1 : decode s b (2 ^ s - 1) a1 = some (si, t1))
    (hd2 : decode s b (2 ^ s - 1) a2 = some (si, t2)) (hne : t1 ≠ t2)
    (halt : alternates a1 a2 trace) (hnil : trace ≠ [])
    (hs60 : s ≤ 60) (hheap : ∀ k, k ≤ 2 ^ s → heap k = true) :
    ∃ st, simulate heap s 1 b trace = some st ∧ st.hits = 0 ∧
      st.misses = trace.length % 2 ^ 32 ∧ st.evictions = (trace.length - 1) % 2 ^ 32 := by
  obtain ⟨hsb, hsi, -⟩ := decode_some hd1
  have hs : s < 64 := by omega
  cases trace with
  | nil => exact absurd rfl hnil
  | cons r rs =>
    obtain ⟨hop, haddr, hrest⟩ := halt
    have hlt : si < 2 ^ s := by
      rw [hsi, Nat.and_pow_two_sub_one_eq_mod]
      exact Nat.mod_lt _ (Nat.pos_pow_of_pos s (by norm_num))
    have hset : (init_state (2 ^ s) 1).cache[si]? =
        some [{ valid := false, tag := 0, lru := 0 }] := by
      simp [init_state, init_cache, List.getElem?_replicate, hlt]
    have hacc := access_fill_one hd1 hset rfl
    obtain ⟨st1, hrun, hh, hmiss, hev⟩ := run_refs_thrash rs a2 a1 t2 t1
      { init_state (2 ^ s) 1 with
        misses := incr32 (init_state (2 ^ s) 1).misses
        time := incr64 (init_state (2 ^ s) 1).time
        cache := (init_state (2 ^ s) 1).cache.set si
          [{ valid := true, tag := t1, lru := (init_state (2 ^ s) 1).time }] }
      { valid := true, tag := t1, lru := (init_state (2 ^ s) 1).time }
      hd2 hd1 (fun e => hne e.symm) hrest
      (by simp [List.getElem?_set, init_state, init_cache, hlt]) rfl rfl
      (Nat.mod_lt _ (by norm_num)) (by simp [init_state])
    refine ⟨st1, ?_, ?_, ?_, ?_⟩
    · rw [simulate_eq hs (allocate_ok hs60 (by decide) hheap)]
      simp only [trace_refs, record_refs_load_store hop, haddr, List.singleton_append, run_refs,
        hacc]
      exact hrun
    · rw [hh]; rfl
    · rw [hmiss]; simp only [init_state, incr32, List.length_cons]; omega
    · rw [hev]; simp only [init_state, List.length_cons]; simp

theorem ref_keys_cons {s b mask a : Nat} {key : Nat × Nat} (as : List Nat)
    (h : decode s b mask a = some key) :
    ref_keys s b mask (a :: as) = key :: ref_keys s b mask as := by
  simp [ref_keys, List.filterMap_cons, h]

theorem access_decode {s b mask : Nat} {st st1 : sim_state} {addr : Nat}
    (h : access s b mask st addr = some st1) : ∃ key, decode s b mask addr = some key := by
  obtain ⟨si, tag, -, -, -, hd, -⟩ := access_cases h
  exact ⟨_, hd⟩

/-- A run keeps the tags of the valid lines of every set distinct, and every
resident tag among the references made. -/
theorem run_refs_tags {s b mask : Nat} {addrs : List Nat} {st st1 : sim_state}
    {keys : List (Nat × Nat)} (h : run_refs s b mask st addrs = some st1)
    (hd : tags_distinct st) (href : tags_referenced st keys) :
    tags_distinct st1 ∧ tags_referenced st1 (keys ++ ref_keys s b mask addrs) := by
  induction addrs generalizing st keys with
  | nil =>
    simp only [run_refs, Option.some.injEq] at h
    subst h
    exact ⟨hd, by simpa [ref_keys] using href⟩
  | cons a as ih =>
    simp only [run_refs] at h
    cases ha : access s b mask st a with
    | none => simp [ha] at h
    | some st2 =>
      simp only [ha] at h
      obtain ⟨key, hkey⟩ := access_decode ha
      obtain ⟨h1, h2⟩ := access_tags ha hd
      have := ih h h1 (h2 keys key hkey href)
      rw [ref_keys_cons as hkey]
      simpa using this

theorem simulate_tags {heap : Nat → Bool} {s E b : Nat} {trace : List record} {st : sim_state}
    (h : simulate heap s E b trace = some st) :
    wf (2 ^ s) E st ∧ tags_distinct st ∧
      tags_referenced st (ref_keys s b (2 ^ s - 1) (trace_refs trace)) := by
  obtain ⟨-, -, hrun⟩ := simulate_some h
  have := run_refs_tags hrun (tags_distinct_init _ _) (tags_referenced_init _ _)
  exact ⟨wf_run_refs hrun (wf_init _ _), this.1, by simpa using this.2⟩

theorem incr32_ne (e : Nat) : incr32 e ≠ e := by
  unfold incr32
  omega

/-- The state in which a reference that increments `evictions` starts. -/
theorem access_eviction {s b mask : Nat} {st st1 : sim_state} {addr : Nat}
    (h : access s b mask st addr = some st1) (hev : st1.evictions = incr32 st.evictions) :
    ∃ si tag set x, decode s b mask addr = some (si, tag) ∧ st.cache[si]? = some set ∧
      set[lru_search set 0 ULLONG_MAX 0]? = some x ∧
      st1.cache = st.cache.set si
        (set.set (lru_search set 0 ULLONG_MAX 0) { valid := true, tag := tag, lru := st.time }) ∧
      (∀ l ∈ set, l.valid = true) ∧ (∀ l ∈ set, l.tag ≠ tag) := by
  obtain ⟨si, tag, set, i, x, hd, hset, hx, hc, -, hcase⟩ := access_cases h
  rcases hcase with ⟨-, -, -, -, -, he⟩ | ⟨-, -, -, -, -, he⟩ | ⟨hh, hempty, hi, -⟩
  · exact absurd (he.symm.trans hev).symm (incr32_ne _)
  · exact absurd (he.symm.trans hev).symm (incr32_ne _)
  · subst hi
    have hall := empty_search_none.1 hempty
    refine ⟨si, tag, set, x, hd, hset, hx, hc, hall, ?_⟩
    intro l hl ht
    exact hit_search_none.1 hh l hl ⟨hall l hl, ht⟩

theorem run_refs_evictions_le {s b mask : Nat} {addrs : List Nat} {st st1 : sim_state}
    (h : run_refs s b mask st addrs = some st1) (hle : st.evictions ≤ st.misses)
    (hlt : st.misses + addrs.length < 2 ^ 32) :
    st1.evictions ≤ st1.misses ∧ st1.misses ≤ st.misses + addrs.length := by
  induction addrs generalizing st with
  | nil =>
    simp only [run_refs, Option.some.injEq] at h
    subst h
    exact ⟨hle, by simp⟩
  | cons a as ih =>
    simp only [run_refs] at h
    cases ha : access s b mask st a with
    | none => simp [ha] at h
    | some st2 =>
      simp only [ha] at h
      simp only [List.length_cons] at hlt ⊢
      obtain ⟨si, tag, set, i, l, -, -, -, -, -, hc⟩ := access_cases ha
      have hstep : st2.evictions ≤ st2.misses ∧ st2.misses ≤ st.misses + 1 := by
        rcases hc with ⟨-, -, -, -, h2, h3⟩ | ⟨-, -, -, -, h2, h3⟩ | ⟨-, -, -, -, -, h2, h3⟩
        · rw [h2, h3]; omega
        · rw [h2, h3, incr32, Nat.mod_eq_of_lt (by omega)]; omega
        · rw [h2, h3, incr32, incr32, Nat.mod_eq_of_lt (by omega : st.misses + 1 < 2 ^ 32),
            Nat.mod_eq_of_lt (by omega : st.evictions + 1 < 2 ^ 32)]
          omega
      have := ih h hstep.1 (by omega)
      exact ⟨this.1, by omega⟩

/-- C4, as amended: in the state `st` after a defined run over any trace
`pre`, `evictions ≤ misses` when `pre` has fewer than `2 ^ 32` references;
and, whatever the length of `pre`, a reference that increments `evictions`
starts from a state in which the target set has `E` lines, all valid, with
pairwise distinct tags, none of them the looked-up tag. -/
theorem C4_evictions_le_misses (heap : Nat → Bool) (s E b : Nat) (pre : List record) (st : sim_state)
    (hpre : simulate heap s E b pre = some st) :
    (reference_count pre < 2 ^ 32 → st.evictions ≤ st.misses) ∧
    (∀ (addr : Nat) (st1 : sim_state), access s b (2 ^ s - 1) st addr = some st1 →
      st1.evictions = incr32 st.evictions →
      ∃ si tag set, decode s b (2 ^ s - 1) addr = some (si, tag) ∧
        st.cache[si]? = some set ∧ set.length = E ∧ (∀ l ∈ set, l.valid = true) ∧
        (set.map (fun l => l.tag)).Nodup ∧ (∀ l ∈ set, l.tag ≠ tag)) := by
  obtain ⟨hw, hdist, -⟩ := simulate_tags hpre
  obtain ⟨-, -, hrun⟩ := simulate_some hpre
  constructor
  · intro hlen
    refine (run_refs_evictions_le hrun (by simp [init_state]) ?_).1
    rw [length_trace_refs]
    simpa [init_state] using hlen
  · intro addr st1 hacc hev
    obtain ⟨si, tag, set, x, hd, hset, -, -, hall, hno⟩ := access_eviction hacc hev
    refine ⟨si, tag, set, hd, hset, hw.2 set (List.getElem?_mem hset), hall, ?_, hno⟩
    rw [← resident_tags_all_valid hall]
    exact hdist si set hset

/-- At geometry (0, 2, 0), after `L 1`, `L 2`, `L 1` the counters are
(1, 2, 0), and the next reference, to address 3, increments `evictions`: it
starts with both lines valid, holding the distinct tags 1 and 2, neither of
them 3. -/
theorem C4_evictions_le_misses_witness :
    simulate malloc_ok 0 2 0 [⟨'L', 1, 1⟩, ⟨'L', 2, 1⟩, ⟨'L', 1, 1⟩] =
      some ⟨[[⟨true, 1, 3⟩, ⟨true, 2, 2⟩]], 1, 2, 0, 4⟩ ∧
    access 0 0 (2 ^ 0 - 1) ⟨[[⟨true, 1, 3⟩, ⟨true, 2, 2⟩]], 1, 2, 0, 4⟩ 3 =
      some ⟨[[⟨true, 1, 3⟩, ⟨true, 3, 4⟩]], 1, 3, 1, 5⟩ ∧
    (∃ si tag set, decode 0 0 (2 ^ 0 - 1) 3 = some (si, tag) ∧
        (⟨[[⟨true, 1, 3⟩, ⟨true, 2, 2⟩]], 1, 2, 0, 4⟩ : sim_state).cache[si]? = some set ∧
        set.length = 2 ∧ (∀ l ∈ set, l.valid = true) ∧
        (set.map (fun l => l.tag)).Nodup ∧ (∀ l ∈ set, l.tag ≠ tag)) :=
  ⟨by decide, by decide,
   (C4_evictions_le_misses malloc_ok 0 2 0 [⟨'L', 1, 1⟩, ⟨'L', 2, 1⟩, ⟨'L', 1, 1⟩]
      ⟨[[⟨true, 1, 3⟩, ⟨true, 2, 2⟩]], 1, 2, 0, 4⟩ (by decide)).2 3
      ⟨[[⟨true, 1, 3⟩, ⟨true, 3, 4⟩]], 1, 3, 1, 5⟩ (by decide) (by decide)⟩

/-- C4 fails as stated: at geometry (0, 1, 0) the trace of `2 ^ 32` loads
that alternate between the addresses 0 and 1 ends with `misses = 0` (the
32-bit counter has wrapped) and `evictions = 2 ^ 32 - 1`, so that
`evictions ≤ misses` does not hold. -/
theorem C4_counterexample :
    reference_count (alternating 0 1 (2 ^ 32)) = 2 ^ 32 ∧
    ∃ st, simulate malloc_ok 0 1 0 (alternating 0 1 (2 ^ 32)) = some st ∧
      st.misses = 0 ∧ st.evictions = 2 ^ 32 - 1 ∧ ¬ st.evictions ≤ st.misses := by
  have hlen : (alternating 0 1 (2 ^ 32)).length = 2 ^ 32 := length_alternating 0 1 (2 ^ 32)
  have hnil : alternating 0 1 (2 ^ 32) ≠ [] := by
    intro h
    rw [h] at hlen
    simp at hlen
  obtain ⟨st, hst, -, hm, he⟩ :=
    simulate_thrash malloc_ok 0 0 0 0 1 0 1
      (by decide) (by decide) (by decide) (alternates_alternating 0 1 (2 ^ 32)) hnil
      (by decide) (fun _ _ => rfl)
  rw [hlen] at hm he
  have hm0 : st.misses = 0 := by rw [hm]; norm_num
  have he0 : st.evictions = 2 ^ 32 - 1 := by rw [he]; norm_num
  refine ⟨?_, st, hst, hm0, he0, ?_⟩
  · rw [← length_trace_refs, trace_refs_alternating, hlen]
  · rw [hm0, he0]; norm_num

/-- C6, as amended: at `E = 1` and `s ≤ 60`, when every call of `malloc`
returns a block, for two addresses that decode (so `s + b < 64`) to the same set
index and to different tags, a trace of `n ≥ 1` load or store records that
alternates between them is defined and ends with `hits = 0`,
`misses = n mod 2 ^ 32` and `evictions = (n - 1) mod 2 ^ 32`, the counters
being 32 bits wide; hence `misses = n` and `evictions = n - 1` for
`n < 2 ^ 32`. -/
theorem C6_direct_mapped_thrashing (heap : Nat → Bool) (s b a1 a2 si t1 t2 : Nat)
    (trace : List record)
    (hd1 : decode s b (2 ^ s - 1) a1 = some (si, t1))
    (hd2 : decode s b (2 ^ s - 1) a2 = some (si, t2)) (hne : t1 ≠ t2)
    (halt : alternates a1 a2 trace) (hnil : 1 ≤ trace.length)
    (hs : s ≤ 60) (hheap : ∀ k, k ≤ 2 ^ s → heap k = true) :
    ∃ st, simulate heap s 1 b trace = some st ∧ st.hits = 0 ∧
      st.misses = trace.length % 2 ^ 32 ∧ st.evictions = (trace.length - 1) % 2 ^ 32 ∧
      (trace.length < 2 ^ 32 →
        st.misses = trace.length ∧ st.evictions = trace.length - 1) := by
  have hne0 : trace ≠ [] := by
    intro h
    rw [h] at hnil
    simp at hnil
  obtain ⟨st, hst, hh, hm, he⟩ :=
    simulate_thrash heap s b si t1 t2 a1 a2 hd1 hd2 hne halt hne0 hs hheap
  refine ⟨st, hst, hh, hm, he, ?_⟩
  intro hlt
  rw [hm, he, Nat.mod_eq_of_lt hlt, Nat.mod_eq_of_lt (by omega)]
  exact ⟨rfl, rfl⟩

/-- At geometry (0, 1, 0) the trace `L 0,1`, `L 16,1`, `L 0,1` yields
(hits, misses, evictions) = (0, 3, 2). -/
theorem C6_direct_mapped_thrashing_witness :
    (simulate malloc_ok 0 1 0 [⟨'L', 0, 1⟩, ⟨'L', 16, 1⟩, ⟨'L', 0, 1⟩]).map counters =
      some (0, 3, 2) ∧
    ∃ st, simulate malloc_ok 0 1 0 [⟨'L', 0, 1⟩, ⟨'L', 16, 1⟩, ⟨'L', 0, 1⟩] = some st ∧
      st.hits = 0 ∧
      st.misses = 3 % 2 ^ 32 ∧ st.evictions = (3 - 1) % 2 ^ 32 ∧
      (3 < 2 ^ 32 → st.misses = 3 ∧ st.evictions = 3 - 1) :=
  ⟨by decide,
   C6_direct_mapped_thrashing malloc_ok 0 0 0 16 0 0 16 [⟨'L', 0, 1⟩, ⟨'L', 16, 1⟩, ⟨'L', 0, 1⟩]
     (by decide) (by decide) (by decide)
     ⟨Or.inl rfl, rfl, Or.inl rfl, rfl, Or.inl rfl, rfl, trivial⟩ (by decide) (by decide)
     (fun _ _ => rfl)⟩

/-- C6 fails as stated: at geometry (0, 1, 0) the addresses 0 and 16 decode to
set 0 with the tags 0 and 16, and the trace of `n = 2 ^ 32` loads that
alternates between them ends with `misses = 0` and `evictions = 2 ^ 32 - 1`,
not with `misses = n`. -/
theorem C6_counterexample :
    decode 0 0 (2 ^ 0 - 1) 0 = some (0, 0) ∧ decode 0 0 (2 ^ 0 - 1) 16 = some (0, 16) ∧
    alternates 0 16 (alternating 0 16 (2 ^ 32)) ∧
    (alternating 0 16 (2 ^ 32)).length = 2 ^ 32 ∧
    ∃ st, simulate malloc_ok 0 1 0 (alternating 0 16 (2 ^ 32)) = some st ∧
      counters st = (0, 0, 2 ^ 32 - 1) ∧ st.misses ≠ (alternating 0 16 (2 ^ 32)).length := by
  have hlen : (alternating 0 16 (2 ^ 32)).length = 2 ^ 32 := length_alternating 0 16 (2 ^ 32)
  have hnil : alternating 0 16 (2 ^ 32) ≠ [] := by
    intro h
    rw [h] at hlen
    simp at hlen
  obtain ⟨st, hst, hh, hm, he⟩ :=
    simulate_thrash malloc_ok 0 0 0 0 16 0 16
      (by decide) (by decide) (by decide) (alternates_alternating 0 16 (2 ^ 32)) hnil
      (by decide) (fun _ _ => rfl)
  rw [hlen] at hm he
  have hm0 : st.misses = 0 := by rw [hm]; norm_num
  have he0 : st.evictions = 2 ^ 32 - 1 := by rw [he]; norm_num
  refine ⟨by decide, by decide, alternates_alternating 0 16 (2 ^ 32), hlen, st, hst, ?_, ?_⟩
  · simp only [counters, hh, hm0, he0]
  · rw [hm0, hlen]; norm_num

theorem mem_set_tags {s b mask si t : Nat} {addrs : List Nat} :
    t ∈ set_tags s b mask si addrs ↔ (si, t) ∈ ref_keys s b mask addrs := by
  unfold set_tags
  simp only [List.mem_map, List.mem_filter, decide_eq_true_eq]
  constructor
  · rintro ⟨⟨k1, k2⟩, ⟨hk, rfl⟩, rfl⟩
    exact hk
  · intro h
    exact ⟨(si, t), ⟨h, rfl⟩, rfl⟩

theorem ref_keys_append (s b mask : Nat) (xs ys : List Nat) :
    ref_keys s b mask (xs ++ ys) = ref_keys s b mask xs ++ ref_keys s b mask ys := by
  simp [ref_keys, List.filterMap_append]

/-- A reference to a set to which the whole run maps at most `E` distinct
tags does not increment `evictions`. -/
theorem access_no_eviction {s b mask E si tag : Nat} {st st1 : sim_state} {addr : Nat}
    {keys all : List (Nat × Nat)} (h : access s b mask st addr = some st1)
    (hdec : decode s b mask addr = some (si, tag))
    (hw : ∀ set ∈ st.cache, set.length = E) (hd : tags_distinct st)
    (href : tags_referenced st keys) (hsub : ∀ k ∈ keys ++ [(si, tag)], k ∈ all)
    (hE : ((all.filter (fun k => decide (k.1 = si))).map (fun k => k.2)).dedup.length ≤ E) :
    st1.evictions = st.evictions := by
  by_contra hne
  obtain ⟨si1, tag1, set, i, x, hd1, hset, hx, hc, -, hcase⟩ := access_cases h
  rw [hdec] at hd1
  cases hd1
  rcases hcase with ⟨-, -, -, -, -, he⟩ | ⟨-, -, -, -, -, he⟩ | ⟨hh, hempty, -, -, -, -, -⟩
  · exact hne he
  · exact hne he
  · have hall := empty_search_none.1 hempty
    have hnot := hit_search_none_iff.1 hh
    have hnd : (tag :: resident_tags set).Nodup := List.nodup_cons.2 ⟨hnot, hd si set hset⟩
    have hlen : (tag :: resident_tags set).length = E + 1 := by
      rw [resident_tags_all_valid hall]
      simp [hw set (List.getElem?_mem hset)]
    have hsubset : (tag :: resident_tags set) ⊆
        ((all.filter (fun k => decide (k.1 = si))).map (fun k => k.2)).dedup := by
      intro t ht
      rw [List.mem_dedup]
      have hkey : (si, t) ∈ all := by
        rcases List.mem_cons.1 ht with rfl | ht
        · exact hsub _ (by simp)
        · exact hsub _ (List.mem_append_left _ (href si set hset t ht))
      simp only [List.mem_map, List.mem_filter, decide_eq_true_eq]
      exact ⟨(si, t), ⟨hkey, rfl⟩, rfl⟩
    have := (hnd.subperm hsubset).length_le
    omega

/-- A run whose references all go to sets to which the keys of `all` map at
most `E` distinct tags leaves `evictions` as it is. -/
theorem run_refs_no_eviction {s b mask E : Nat} (all : List (Nat × Nat)) {addrs : List Nat}
    {st st1 : sim_state} {keys : List (Nat × Nat)}
    (h : run_refs s b mask st addrs = some st1)
    (hwf : ∀ set ∈ st.cache, set.length = E)
    (hd : tags_distinct st) (href : tags_referenced st keys)
    (hsub : ∀ k ∈ keys ++ ref_keys s b mask addrs, k ∈ all)
    (hE : ∀ a ∈ addrs, ∀ si tag, decode s b mask a = some (si, tag) →
      ((all.filter (fun k => decide (k.1 = si))).map (fun k => k.2)).dedup.length ≤ E) :
    st1.evictions = st.evictions := by
  induction addrs generalizing st keys with
  | nil =>
    simp only [run_refs, Option.some.injEq] at h
    rw [h]
  | cons a as ih =>
    simp only [run_refs] at h
    cases ha : access s b mask st a with
    | none => simp [ha] at h
    | some st2 =>
      simp only [ha] at h
      obtain ⟨⟨si, tag⟩, hkey⟩ := access_decode ha
      rw [ref_keys_cons as hkey] at hsub
      have hsub1 : ∀ k ∈ keys ++ [(si, tag)], k ∈ all := by
        intro k hk
        apply hsub
        rcases List.mem_append.1 hk with hk | hk
        · exact List.mem_append_left _ hk
        · exact List.mem_append_right _ (by
            rw [List.mem_singleton.1 hk]; exact List.mem_cons_self _ _)
      have h1 := access_no_eviction ha hkey hwf hd href hsub1
        (hE a (List.mem_cons_self _ _) si tag hkey)
      obtain ⟨hd2, href2⟩ := access_tags ha hd
      have hwf2 : ∀ set ∈ st2.cache, set.length = E :=
        (wf_access ha (S := st.cache.length) ⟨rfl, hwf⟩).2
      have h2 := ih h hwf2 hd2 (href2 keys (si, tag) hkey href)
        (by simpa using hsub) (fun a1 ha1 => hE a1 (List.mem_cons_of_mem _ ha1))
      rw [h2, h1]

/-- C5: for every trace and every set index `si` to which the references of
the trace map at most `E` distinct tags, no record whose address decodes to
`si` increments `evictions`, wherever it stands in the trace; when this holds
for every set index, every defined run ends with `evictions = 0`.  The run is
defined for every geometry with `1 ≤ E ≤ INT_MAX`, `s ≤ 60` and `s + b < 64`,
when every call of `malloc` returns a block. -/
theorem C5_no_eviction_within_capacity (heap : Nat → Bool) (s E b : Nat)
    (trace : List record) :
    (∀ si, distinct_tags s b si trace ≤ E →
      ∀ (pre post : List record) (r : record) (st st1 : sim_state) (tag : Nat),
        trace = pre ++ r :: post → simulate heap s E b pre = some st →
        process_record s b (2 ^ s - 1) st r = some st1 →
        decode s b (2 ^ s - 1) r.addr = some (si, tag) →
        st1.evictions = st.evictions) ∧
    ((∀ si, distinct_tags s b si trace ≤ E) →
      ∀ st, simulate heap s E b trace = some st → st.evictions = 0) ∧
    (1 ≤ E → E ≤ INT_MAX → s ≤ 60 → s + b < 64 → (∀ k, k ≤ 2 ^ s → heap k = true) →
      ∃ st, simulate heap s E b trace = some st) := by
  refine ⟨?_, ?_, fun hE hEm hs hsb hheap => simulate_defined hE hEm hs hsb hheap trace⟩
  · intro si hsi pre post r st st1 tag htrace hpre hrec hdec
    obtain ⟨hw, hdist, href⟩ := simulate_tags hpre
    rw [process_record_eq] at hrec
    refine run_refs_no_eviction (ref_keys s b (2 ^ s - 1) (trace_refs trace))
      hrec hw.2 hdist href ?_ ?_
    · intro k hk
      rw [htrace, trace_refs_append, trace_refs, ref_keys_append, ref_keys_append]
      rcases List.mem_append.1 hk with hk | hk
      · exact List.mem_append_left _ hk
      · exact List.mem_append_right _ (List.mem_append_left _ hk)
    · intro a ha si1 tag1 hdec1
      have haddr : a = r.addr := by
        unfold record_refs at ha
        by_cases hI : r.op = 'I'
        · simp [hI] at ha
        · by_cases hM : r.op = 'M'
          · simpa [hI, hM] using ha
          · simpa [hI, hM] using ha
      rw [haddr, hdec] at hdec1
      cases hdec1
      exact hsi
  · intro hall st hst
    obtain ⟨-, -, hrun⟩ := simulate_some hst
    have := run_refs_no_eviction (ref_keys s b (2 ^ s - 1) (trace_refs trace))
      hrun (wf_init _ _).2 (tags_distinct_init _ _) (tags_referenced_init _ _)
      (by simp) (fun a _ si tag _ => hall si)
    rw [this]
    rfl

/-- At geometry (1, 2, 2) the trace `L 0`, `L 16`, `M 0`, `L 4`, `S 16` maps
the tags 0 and 2 to set 0 and the tag 0 to set 1: at most two distinct tags a
set, and the run ends with `evictions = 0`. -/
theorem C5_no_eviction_within_capacity_witness :
    distinct_tags 1 2 0 [⟨'L', 0, 1⟩, ⟨'L', 16, 1⟩, ⟨'M', 0, 1⟩, ⟨'L', 4, 1⟩, ⟨'S', 16, 1⟩] = 2 ∧
    distinct_tags 1 2 1 [⟨'L', 0, 1⟩, ⟨'L', 16, 1⟩, ⟨'M', 0, 1⟩, ⟨'L', 4, 1⟩, ⟨'S', 16, 1⟩] = 1 ∧
    (simulate malloc_ok 1 2 2 [⟨'L', 0, 1⟩, ⟨'L', 16, 1⟩, ⟨'M', 0, 1⟩, ⟨'L', 4, 1⟩, ⟨'S', 16, 1⟩]).map
      counters = some (3, 3, 0) ∧
    (∀ (pre post : List record) (r : record) (st st1 : sim_state) (tag : Nat),
        [⟨'L', 0, 1⟩, ⟨'L', 16, 1⟩, ⟨'M', 0, 1⟩, ⟨'L', 4, 1⟩, ⟨'S', 16, 1⟩] = pre ++ r :: post →
        simulate malloc_ok 1 2 2 pre = some st →
        process_record 1 2 (2 ^ 1 - 1) st r = some st1 →
        decode 1 2 (2 ^ 1 - 1) r.addr = some (0, tag) →
        st1.evictions = st.evictions) :=
  ⟨by decide, by decide, by decide,
   (C5_no_eviction_within_capacity malloc_ok 1 2 2
      [⟨'L', 0, 1⟩, ⟨'L', 16, 1⟩, ⟨'M', 0, 1⟩, ⟨'L', 4, 1⟩, ⟨'S', 16, 1⟩]).1 0 (by decide)⟩

/-- C10, as amended: the startup check lets `main` go on exactly for the
configurations with `E ≥ 1`, `s ≥ 0`, `b ≥ 0` and a trace file name; every
other configuration is rejected, and `main` returns 1 there before it
computes `S` or builds the cache.  The check puts no upper bound on `s`, on
`b` or on `s + b`. -/
theorem C10_startup_check (heap : Nat → Bool) (s E b : Int) (trace_file : Option String)
    (file : Option (List record)) :
    (startup_check s E b trace_file = none ↔
      (1 ≤ E ∧ 0 ≤ s ∧ 0 ≤ b ∧ trace_file ≠ none)) ∧
    (¬ (1 ≤ E ∧ 0 ≤ s ∧ 0 ≤ b ∧ trace_file ≠ none) →
      startup_check s E b trace_file = some 1 ∧
      csim_main heap s E b trace_file file = run_result.exit 1) := by
  by_cases h : s < 0 ∨ E ≤ 0 ∨ b < 0 ∨ trace_file = none
  · have hn : ¬ (1 ≤ E ∧ 0 ≤ s ∧ 0 ≤ b ∧ trace_file ≠ none) := by
      rintro ⟨h1, h2, h3, h4⟩
      rcases h with h | h | h | h
      · omega
      · omega
      · omega
      · exact h4 h
    have hc : startup_check s E b trace_file = some 1 := if_pos h
    have hm : csim_main heap s E b trace_file file = run_result.exit 1 := by
      unfold csim_main
      rw [hc]
    rw [hc, hm]
    exact ⟨⟨fun e => Option.noConfusion e, fun e => absurd e hn⟩, fun _ => ⟨rfl, rfl⟩⟩
  · have hp : 1 ≤ E ∧ 0 ≤ s ∧ 0 ≤ b ∧ trace_file ≠ none := by
      refine ⟨?_, ?_, ?_, ?_⟩
      · by_contra hc; exact h (Or.inr (Or.inl (by omega)))
      · by_contra hc; exact h (Or.inl (by omega))
      · by_contra hc; exact h (Or.inr (Or.inr (Or.inl (by omega))))
      · intro hc; exact h (Or.inr (Or.inr (Or.inr hc)))
    have hc : startup_check s E b trace_file = none := if_neg h
    rw [hc]
    exact ⟨⟨fun _ => hp, fun _ => rfl⟩, fun hn => absurd hp hn⟩

/-- The configuration `-s 2 -E 0 -b 3 -t t.trace` violates `E ≥ 1`: it is
rejected with status 1. -/
theorem C10_startup_check_witness :
    ¬ ((1 : Int) ≤ 0 ∧ (0 : Int) ≤ 2 ∧ (0 : Int) ≤ 3 ∧ some "t.trace" ≠ none) ∧
    startup_check 2 0 3 (some "t.trace") = some 1 ∧
    csim_main malloc_ok 2 0 3 (some "t.trace") (some [⟨'L', 0, 1⟩]) = run_result.exit 1 :=
  ⟨by decide,
   (C10_startup_check malloc_ok 2 0 3 (some "t.trace") (some [⟨'L', 0, 1⟩])).2 (by decide)⟩

/-- C10 fails as stated: the configuration `-s 0 -E 1 -b 65 -t t.trace` has
`s + b > 64` and is not rejected by the startup check; `main` goes on to the
loop, where the shift by `b` has no defined result.  The same holds for
`-s 65 -E 1 -b 0`, where `1ULL << s` has none. -/
theorem C10_counterexample :
    startup_check 0 1 65 (some "t.trace") = none ∧ ¬ ((0 : Int) + 65 ≤ 64) ∧
    csim_main malloc_ok 0 1 65 (some "t.trace") (some [⟨'L', 0, 1⟩]) = run_result.undefined ∧
    startup_check 65 1 0 (some "t.trace") = none ∧
    csim_main malloc_ok 65 1 0 (some "t.trace") (some [⟨'L', 0, 1⟩]) = run_result.undefined := by
  decide

theorem last_ref_append_self (k : Nat × Nat) (l : List (Nat × Nat)) :
    last_ref k (l ++ [k]) = some l.length := by
  induction l with
  | nil => simp [last_ref]
  | cons x xs ih => simp [last_ref, ih]

theorem last_ref_append_ne {k x : Nat × Nat} (h : x ≠ k) (l : List (Nat × Nat)) :
    last_ref k (l ++ [x]) = last_ref k l := by
  induction l with
  | nil => simp [last_ref, h]
  | cons y ys ih => simp [last_ref, ih]

theorem last_ref_some {k : Nat × Nat} {l : List (Nat × Nat)} {p : Nat}
    (h : last_ref k l = some p) : l[p]? = some k := by
  induction l generalizing p with
  | nil => simp [last_ref] at h
  | cons x xs ih =>
    simp only [last_ref] at h
    cases hx : last_ref k xs with
    | some q =>
      simp only [hx, Option.some.injEq] at h
      subst h
      simpa using ih hx
    | none =>
      simp only [hx] at h
      by_cases hxk : x = k
      · simp only [hxk, if_true, Option.some.injEq] at h
        subst h
        simp [hxk]
      · simp [hxk] at h

theorem last_ref_lt {k : Nat × Nat} {l : List (Nat × Nat)} {p : Nat}
    (h : last_ref k l = some p) : p < l.length :=
  (List.getElem?_eq_some.1 (last_ref_some h)).1

/-- Two valid lines of a set with distinct resident tags that hold the same
tag are the same line. -/
theorem resident_inj {set : List cache_line_t} (hnd : (resident_tags set).Nodup)
    {x y : cache_line_t} (hx : x ∈ set) (hy : y ∈ set) (hxv : x.valid = true)
    (hyv : y.valid = true) (ht : x.tag = y.tag) : x = y := by
  unfold resident_tags at hnd
  exact List.inj_on_of_nodup_map hnd (List.mem_filter.2 ⟨hx, by simpa using hxv⟩)
    (List.mem_filter.2 ⟨hy, by simpa using hyv⟩) ht

/-- Two lines at different indices of a set whose lines are all valid, with
distinct tags, hold different tags. -/
theorem tag_ne_of_index_ne {set : List cache_line_t} (hall : ∀ l ∈ set, l.valid = true)
    (hnd : (resident_tags set).Nodup) {i j : Nat} {x y : cache_line_t}
    (hx : set[i]? = some x) (hy : set[j]? = some y) (hij : j ≠ i) : y.tag ≠ x.tag := by
  rw [resident_tags_all_valid hall] at hnd
  obtain ⟨hi, hxi⟩ := List.getElem?_eq_some.1 hx
  obtain ⟨hj, hyj⟩ := List.getElem?_eq_some.1 hy
  intro ht
  have h1 : (set.map (fun l => l.tag))[i]? = some x.tag := by simp [hx]
  have h2 : (set.map (fun l => l.tag))[j]? = some x.tag := by simp [hy, ht]
  have hi1 : i < (set.map (fun l => l.tag)).length := by simpa using hi
  have hj1 : j < (set.map (fun l => l.tag)).length := by simpa using hj
  have hne := List.nodup_iff_getElem?_ne_getElem?.1 hnd
  rcases Nat.lt_or_gt_of_ne hij with hlt | hgt
  · exact hne j i hlt hi1 (by rw [h2, h1])
  · exact hne i j hgt hj1 (by rw [h1, h2])

/-- The victim search started at `ULLONG_MAX` returns a line whose `lru` is
the least of the set, when no `lru` exceeds `ULLONG_MAX`. -/
theorem lru_search_min {set : List cache_line_t} {x : cache_line_t}
    (hmax : ∀ l ∈ set, l.lru ≤ ULLONG_MAX)
    (hx : set[lru_search set 0 ULLONG_MAX 0]? = some x) : ∀ y ∈ set, x.lru ≤ y.lru := by
  intro y hy
  rcases lru_search_spec set 0 ULLONG_MAX 0 with ⟨-, h2⟩ | ⟨k, l, h1, h2, -, h4⟩
  · exact le_trans (hmax x (List.getElem?_mem hx)) (h2 y hy)
  · rw [h1, Nat.zero_add, h2] at hx
    cases hx
    exact h4 y hy

/-- One reference keeps every valid line's `lru` at the position of the last
reference to its tag plus 1, as long as the clock has not wrapped. -/
theorem access_recency {s b mask : Nat} {st st1 : sim_state} {addr : Nat} {key : Nat × Nat}
    {keys : List (Nat × Nat)} (h : access s b mask st addr = some st1)
    (hkey : decode s b mask addr = some key) (hd : tags_distinct st)
    (hrec : recency_exact st keys) (htime : st.time = keys.length + 1) :
    recency_exact st1 (keys ++ [key]) := by
  have hd1 := (access_tags h hd).1
  obtain ⟨si, tag, set, i, x, hdec, hset, hx, hc, -, -⟩ := access_cases h
  rw [hdec] at hkey
  cases hkey
  intro sj set2 hset2 l hl hv
  have hset2' := hset2
  rw [hc] at hset2
  rcases getElem?_set_set hset2 with ⟨rfl, rfl⟩ | ⟨hne, hold⟩
  · by_cases hL : l = { valid := true, tag := tag, lru := st.time }
    · subst hL
      exact ⟨keys.length, last_ref_append_self _ _, htime⟩
    · have hlset : l ∈ set := by
        rcases List.mem_or_eq_of_mem_set hl with hm | hm
        · exact hm
        · exact absurd hm hL
      have hi : i < set.length := (List.getElem?_eq_some.1 hx).1
      have htag : l.tag ≠ tag := by
        intro ht
        exact hL (resident_inj (hd1 sj _ hset2') hl (List.mem_set _ _ hi _) hv rfl ht)
      obtain ⟨p, hp, hlru⟩ := hrec sj set hset l hlset hv
      refine ⟨p, ?_, hlru⟩
      rw [last_ref_append_ne (by
        intro e
        simp only [Prod.mk.injEq] at e
        exact htag e.2.symm)]
      exact hp
  · obtain ⟨p, hp, hlru⟩ := hrec sj set2 hold l hl hv
    refine ⟨p, ?_, hlru⟩
    rw [last_ref_append_ne (by
      intro e
      simp only [Prod.mk.injEq] at e
      exact hne e.1.symm)]
    exact hp

theorem access_time {s b mask : Nat} {st st1 : sim_state} {addr : Nat}
    (h : access s b mask st addr = some st1) : st1.time = incr64 st.time := by
  obtain ⟨si, tag, set, i, x, -, -, -, -, ht, -⟩ := access_cases h
  exact ht

/-- A run of fewer than `2 ^ 64` references in all keeps every valid line's
`lru` at the position of the last reference to its tag plus 1. -/
theorem run_refs_recency {s b mask : Nat} {addrs : List Nat} {st st1 : sim_state}
    {keys : List (Nat × Nat)} (h : run_refs s b mask st addrs = some st1)
    (hd : tags_distinct st) (hrec : recency_exact st keys)
    (htime : st.time = (keys.length + 1) % 2 ^ 64)
    (hlen : keys.length + addrs.length < 2 ^ 64) :
    recency_exact st1 (keys ++ ref_keys s b mask addrs) ∧
      st1.time = (keys.length + addrs.length + 1) % 2 ^ 64 := by
  induction addrs generalizing st keys with
  | nil =>
    simp only [run_refs, Option.some.injEq] at h
    subst h
    exact ⟨by simpa [ref_keys] using hrec, by simpa using htime⟩
  | cons a as ih =>
    simp only [run_refs] at h
    cases ha : access s b mask st a with
    | none => simp [ha] at h
    | some st2 =>
      simp only [ha] at h
      simp only [List.length_cons] at hlen
      obtain ⟨key, hkey⟩ := access_decode ha
      have ht : st.time = keys.length + 1 := by
        rw [htime, Nat.mod_eq_of_lt (by omega)]
      have hrec2 := access_recency ha hkey hd hrec ht
      have ht2 : st2.time = ((keys ++ [key]).length + 1) % 2 ^ 64 := by
        rw [access_time ha, ht, incr64]
        simp
      have := ih h (access_tags ha hd).1 hrec2 ht2 (by simp; omega)
      rw [ref_keys_cons as hkey]
      simp only [List.length_append, List.length_cons, List.length_nil, List.append_assoc,
        List.singleton_append] at this ⊢
      refine ⟨this.1, ?_⟩
      rw [this.2]
      congr 1
      omega

theorem recency_exact_init (S E : Nat) : recency_exact (init_state S E) [] := by
  intro si set h l hl hv
  have hmem : set ∈ init_cache S E := List.getElem?_mem h
  rw [List.eq_of_mem_replicate hmem] at hl
  rw [List.eq_of_mem_replicate hl] at hv
  cases hv

theorem length_ref_keys_le (s b mask : Nat) (addrs : List Nat) :
    (ref_keys s b mask addrs).length ≤ addrs.length := by
  unfold ref_keys
  exact List.length_filterMap_le _ _

/-- C2, as amended: let `st` be the state after a defined run over a trace
`pre` of fewer than `2 ^ 64` references (so that the 64-bit clock has not
wrapped), and let the next reference, to `addr`, increment `evictions`.  Then
it overwrites one line `x` of the target set, all of whose lines are valid,
and the last reference to the tag of `x` in that set lies before the last
reference to the tag of every other line of the set: the overwritten tag is
the least recently referenced one among the resident tags. -/
theorem C2_eviction_takes_least_recently_referenced (heap : Nat → Bool) (s E b : Nat) (pre : List record)
    (st : sim_state) (hpre : simulate heap s E b pre = some st)
    (hlen : reference_count pre < 2 ^ 64) (addr : Nat) (st1 : sim_state)
    (hacc : access s b (2 ^ s - 1) st addr = some st1)
    (hev : st1.evictions = incr32 st.evictions) :
    ∃ si tag set i x, decode s b (2 ^ s - 1) addr = some (si, tag) ∧
      st.cache[si]? = some set ∧ set[i]? = some x ∧ x.valid = true ∧
      st1.cache = st.cache.set si (set.set i { valid := true, tag := tag, lru := st.time }) ∧
      ∃ px, last_ref (si, x.tag) (ref_keys s b (2 ^ s - 1) (trace_refs pre)) = some px ∧
        ∀ j y, set[j]? = some y → j ≠ i →
          y.valid = true ∧
          ∃ py, last_ref (si, y.tag) (ref_keys s b (2 ^ s - 1) (trace_refs pre)) = some py ∧
            px < py := by
  obtain ⟨-, hdist, -⟩ := simulate_tags hpre
  obtain ⟨-, -, hrun⟩ := simulate_some hpre
  have hrec := (run_refs_recency hrun (tags_distinct_init _ _) (recency_exact_init _ _)
    (by simp [init_state]) (by simpa [length_trace_refs] using hlen)).1
  simp only [List.nil_append] at hrec
  obtain ⟨si, tag, set, x, hd, hset, hx, hc, hall, -⟩ := access_eviction hacc hev
  have hxmem : x ∈ set := List.getElem?_mem hx
  obtain ⟨px, hpx, hxlru⟩ := hrec si set hset x hxmem (hall x hxmem)
  have hbound : ∀ l ∈ set, l.lru ≤ ULLONG_MAX := by
    intro l hl
    obtain ⟨p, hp, hlru⟩ := hrec si set hset l hl (hall l hl)
    have h1 := last_ref_lt hp
    have h2 := length_ref_keys_le s b (2 ^ s - 1) (trace_refs pre)
    rw [length_trace_refs] at h2
    unfold ULLONG_MAX
    omega
  have hmin := lru_search_min hbound hx
  refine ⟨si, tag, set, _, x, hd, hset, hx, hall x hxmem, hc, px, hpx, ?_⟩
  intro j y hy hj
  have hymem : y ∈ set := List.getElem?_mem hy
  obtain ⟨py, hpy, hylru⟩ := hrec si set hset y hymem (hall y hymem)
  refine ⟨hall y hymem, py, hpy, ?_⟩
  have hle := hmin y hymem
  have hne : px ≠ py := by
    intro e
    have k1 := last_ref_some hpx
    have k2 := last_ref_some hpy
    rw [e, k2] at k1
    simp only [Option.some.injEq, Prod.mk.injEq, true_and] at k1
    exact tag_ne_of_index_ne hall (hdist si set hset) hx hy hj k1
  omega

/-- With `E = 2` and one set, the references to the tags 1, 2, 1, 3 give a
miss, a miss, a hit and a miss with an eviction; the eviction overwrites the
line of tag 2, whose last reference (position 1) lies before that of tag 1
(position 2), and the tags 1 and 3 are resident afterwards. -/
theorem C2_eviction_takes_least_recently_referenced_witness :
    (simulate malloc_ok 0 2 0 [⟨'L', 1, 1⟩]).map counters = some (0, 1, 0) ∧
    (simulate malloc_ok 0 2 0 [⟨'L', 1, 1⟩, ⟨'L', 2, 1⟩]).map counters = some (0, 2, 0) ∧
    (simulate malloc_ok 0 2 0 [⟨'L', 1, 1⟩, ⟨'L', 2, 1⟩, ⟨'L', 1, 1⟩]).map counters = some (1, 2, 0) ∧
    simulate malloc_ok 0 2 0 [⟨'L', 1, 1⟩, ⟨'L', 2, 1⟩, ⟨'L', 1, 1⟩, ⟨'L', 3, 1⟩] =
      some ⟨[[⟨true, 1, 3⟩, ⟨true, 3, 4⟩]], 1, 3, 1, 5⟩ ∧
    (∃ si tag set i x, decode 0 0 (2 ^ 0 - 1) 3 = some (si, tag) ∧
      (⟨[[⟨true, 1, 3⟩, ⟨true, 2, 2⟩]], 1, 2, 0, 4⟩ : sim_state).cache[si]? = some set ∧
      set[i]? = some x ∧ x.valid = true ∧
      (⟨[[⟨true, 1, 3⟩, ⟨true, 3, 4⟩]], 1, 3, 1, 5⟩ : sim_state).cache =
        (⟨[[⟨true, 1, 3⟩, ⟨true, 2, 2⟩]], 1, 2, 0, 4⟩ : sim_state).cache.set si
          (set.set i { valid := true, tag := tag,
                       lru := (⟨[[⟨true, 1, 3⟩, ⟨true, 2, 2⟩]], 1, 2, 0, 4⟩ : sim_state).time }) ∧
      ∃ px, last_ref (si, x.tag)
          (ref_keys 0 0 (2 ^ 0 - 1) (trace_refs [⟨'L', 1, 1⟩, ⟨'L', 2, 1⟩, ⟨'L', 1, 1⟩])) =
            some px ∧
        ∀ j y, set[j]? = some y → j ≠ i →
          y.valid = true ∧
          ∃ py, last_ref (si, y.tag)
              (ref_keys 0 0 (2 ^ 0 - 1) (trace_refs [⟨'L', 1, 1⟩, ⟨'L', 2, 1⟩, ⟨'L', 1, 1⟩])) =
                some py ∧
            px < py) :=
  ⟨by decide, by decide, by decide, by decide,
   C2_eviction_takes_least_recently_referenced malloc_ok 0 2 0
     [⟨'L', 1, 1⟩, ⟨'L', 2, 1⟩, ⟨'L', 1, 1⟩] ⟨[[⟨true, 1, 3⟩, ⟨true, 2, 2⟩]], 1, 2, 0, 4⟩
     (by decide) (by decide) 3 ⟨[[⟨true, 1, 3⟩, ⟨true, 3, 4⟩]], 1, 3, 1, 5⟩
     (by decide) (by decide)⟩

theorem trace_refs_replicate_load (n a : Nat) (z : Int) :
    trace_refs (List.replicate n ⟨'L', a, z⟩) = List.replicate n a := by
  induction n with
  | zero => rfl
  | succ n ih =>
    have h : record_refs ⟨'L', a, z⟩ = [a] := by simp [record_refs]
    simp only [List.replicate_succ, trace_refs, ih, h]
    rfl

theorem ref_keys_replicate {s b mask a : Nat} {k : Nat × Nat}
    (h : decode s b mask a = some k) (n : Nat) :
    ref_keys s b mask (List.replicate n a) = List.replicate n k := by
  induction n with
  | zero => rfl
  | succ n ih => rw [List.replicate_succ, ref_keys_cons _ h, ih, List.replicate_succ]

theorem last_ref_replicate_self (k : Nat × Nat) (n : Nat) :
    last_ref k (List.replicate (n + 1) k) = some n := by
  induction n with
  | zero => simp [last_ref]
  | succ n ih =>
    rw [List.replicate_succ, last_ref, ih]

theorem last_ref_replicate_ne {k x : Nat × Nat} (h : x ≠ k) (n : Nat) :
    last_ref k (List.replicate n x) = none := by
  induction n with
  | zero => rfl
  | succ n ih =>
    rw [List.replicate_succ, last_ref, ih]
    simp [h]

/-- At geometry (0, 2, 0), with the tags 1 and 2 resident, a reference to
address 2 is a hit on the second line. -/
theorem access_hit_second (u h m e t : Nat) :
    access 0 0 (2 ^ 0 - 1) ⟨[[⟨true, 1, 1⟩, ⟨true, 2, u⟩]], h, m, e, t⟩ 2 =
      some ⟨[[⟨true, 1, 1⟩, ⟨true, 2, t⟩]], incr32 h, m, e, incr64 t⟩ := by
  simp [access, decode, shr64, hit_search, store_line]

/-- At geometry (0, 2, 0), with the tags 1 and 2 resident, `n + 1` references
to address 2 in a row are hits, and leave the clock value of the last of them,
reduced modulo `2 ^ 64`, in the second line. -/
theorem run_refs_hit_second (n : Nat) :
    ∀ u h m e t : Nat, t < 2 ^ 64 →
      run_refs 0 0 (2 ^ 0 - 1) ⟨[[⟨true, 1, 1⟩, ⟨true, 2, u⟩]], h, m, e, t⟩
          (List.replicate (n + 1) 2) =
        some ⟨[[⟨true, 1, 1⟩, ⟨true, 2, (t + n) % 2 ^ 64⟩]], (h + n + 1) % 2 ^ 32, m, e,
          (t + n + 1) % 2 ^ 64⟩ := by
  induction n with
  | zero =>
    intro u h m e t ht
    simp only [List.replicate, run_refs, access_hit_second, incr32, incr64, Nat.add_zero,
      Nat.mod_eq_of_lt ht]
  | succ n ih =>
    intro u h m e t ht
    rw [List.replicate_succ, run_refs, access_hit_second]
    simp only
    rw [ih t (incr32 h) m e (incr64 t) (Nat.mod_lt _ (by norm_num))]
    simp only [incr32, incr64]
    have e1 : ((t + 1) % 2 ^ 64 + n) % 2 ^ 64 = (t + (n + 1)) % 2 ^ 64 := by omega
    have e2 : ((h + 1) % 2 ^ 32 + n + 1) % 2 ^ 32 = (h + (n + 1) + 1) % 2 ^ 32 := by omega
    have e3 : ((t + 1) % 2 ^ 64 + n + 1) % 2 ^ 64 = (t + (n + 1) + 1) % 2 ^ 64 := by omega
    rw [e1, e2, e3]

/-- C2 fails as stated: at geometry (0, 2, 0), after `L 1` and `2 ^ 64 - 1`
records `L 2` the 64-bit clock has wrapped: the line of tag 1 has `lru = 1`
and the line of tag 2, referenced last, has `lru = 0`.  The next reference,
to address 3, increments `evictions` and overwrites tag 2 (tag 1 stays),
although the last reference to tag 1 (position 0) lies before the last
reference to tag 2 (position `2 ^ 64 - 1`). -/
theorem C2_counterexample :
    ∃ st st1,
      simulate malloc_ok 0 2 0 (⟨'L', 1, 1⟩ :: List.replicate (2 ^ 64 - 1) ⟨'L', 2, 1⟩) = some st ∧
      st.cache = [[⟨true, 1, 1⟩, ⟨true, 2, 0⟩]] ∧
      access 0 0 (2 ^ 0 - 1) st 3 = some st1 ∧
      st1.evictions = incr32 st.evictions ∧
      st1.cache = [[⟨true, 1, 1⟩, ⟨true, 3, 1⟩]] ∧
      last_ref (0, 1) (ref_keys 0 0 (2 ^ 0 - 1)
        (trace_refs (⟨'L', 1, 1⟩ :: List.replicate (2 ^ 64 - 1) ⟨'L', 2, 1⟩))) = some 0 ∧
      last_ref (0, 2) (ref_keys 0 0 (2 ^ 0 - 1)
        (trace_refs (⟨'L', 1, 1⟩ :: List.replicate (2 ^ 64 - 1) ⟨'L', 2, 1⟩))) =
          some (2 ^ 64 - 1) ∧
      0 < 2 ^ 64 - 1 := by
  have hrefs : trace_refs (⟨'L', 1, 1⟩ :: List.replicate (2 ^ 64 - 1) ⟨'L', 2, 1⟩) =
      1 :: 2 :: List.replicate (2 ^ 64 - 3 + 1) 2 := by
    have e : (2 : Nat) ^ 64 - 1 = (2 ^ 64 - 3 + 1) + 1 := by norm_num
    have h1 : record_refs ⟨'L', 1, 1⟩ = [1] := by simp [record_refs]
    rw [trace_refs, trace_refs_replicate_load, h1, e, @List.replicate_succ _ 2 (2 ^ 64 - 3 + 1)]
    rfl
  have hkeys : ref_keys 0 0 (2 ^ 0 - 1) (1 :: 2 :: List.replicate (2 ^ 64 - 3 + 1) 2) =
      (0, 1) :: List.replicate (2 ^ 64 - 2 + 1) (0, 2) := by
    have d1 : decode 0 0 (2 ^ 0 - 1) 1 = some (0, 1) := by decide
    have d2 : decode 0 0 (2 ^ 0 - 1) 2 = some (0, 2) := by decide
    have e : (2 : Nat) ^ 64 - 2 + 1 = (2 ^ 64 - 3 + 1) + 1 := by norm_num
    rw [ref_keys_cons _ d1, ref_keys_cons _ d2, ref_keys_replicate d2, e,
      @List.replicate_succ _ (0, 2) (2 ^ 64 - 3 + 1)]
  have h2 : run_refs 0 0 (2 ^ 0 - 1) (init_state (2 ^ 0) 2)
      (1 :: 2 :: List.replicate (2 ^ 64 - 3 + 1) 2) =
      run_refs 0 0 (2 ^ 0 - 1) ⟨[[⟨true, 1, 1⟩, ⟨true, 2, 2⟩]], 0, 2, 0, 3⟩
        (List.replicate (2 ^ 64 - 3 + 1) 2) := by
    have a1 : access 0 0 (2 ^ 0 - 1) (init_state (2 ^ 0) 2) 1 =
        some ⟨[[⟨true, 1, 1⟩, ⟨false, 0, 0⟩]], 0, 1, 0, 2⟩ := by decide
    have a2 : access 0 0 (2 ^ 0 - 1) ⟨[[⟨true, 1, 1⟩, ⟨false, 0, 0⟩]], 0, 1, 0, 2⟩ 2 =
        some ⟨[[⟨true, 1, 1⟩, ⟨true, 2, 2⟩]], 0, 2, 0, 3⟩ := by decide
    rw [run_refs, a1]
    simp only
    rw [run_refs, a2]
  have hrun := run_refs_hit_second (2 ^ 64 - 3) 2 0 2 0 3 (by norm_num)
  have v1 : (3 + (2 ^ 64 - 3)) % 2 ^ 64 = 0 := by norm_num
  have v2 : (0 + (2 ^ 64 - 3) + 1) % 2 ^ 32 = 2 ^ 32 - 2 := by norm_num
  have v3 : (3 + (2 ^ 64 - 3) + 1) % 2 ^ 64 = 1 := by norm_num
  rw [v1, v2, v3] at hrun
  refine ⟨⟨[[⟨true, 1, 1⟩, ⟨true, 2, 0⟩]], 2 ^ 32 - 2, 2, 0, 1⟩,
    ⟨[[⟨true, 1, 1⟩, ⟨true, 3, 1⟩]], 2 ^ 32 - 2, 3, 1, 2⟩, ?_, rfl, by decide, by decide, rfl,
    ?_, ?_, by norm_num⟩
  · rw [simulate_eq (by norm_num) (allocate_malloc_ok (by norm_num) (by decide)), hrefs, h2, hrun]
  · rw [hrefs, hkeys, last_ref, last_ref_replicate_ne (by decide)]
    rfl
  · rw [hrefs, hkeys, last_ref, last_ref_replicate_self]
    norm_num

/-- The recency order carries over from a set to the set after a store of
the line `(tag, u)`, with `tag` put in front of a list that does not hold
it. -/
theorem pairwise_more_recent_cons {set set1 : List cache_line_t} {l0 : List Nat} {tag u : Nat}
    (hmem : ∀ y ∈ set1, y = { valid := true, tag := tag, lru := u } ∨ y ∈ set)
    (hL : ({ valid := true, tag := tag, lru := u } : cache_line_t) ∈ set1)
    (hnd : (resident_tags set1).Nodup)
    (hfresh : ∀ y ∈ set, y.valid = true → y.lru < u)
    (hpw : l0.Pairwise (more_recent set)) (htag : tag ∉ l0) :
    (tag :: l0).Pairwise (more_recent set1) := by
  refine List.pairwise_cons.2 ⟨?_, ?_⟩
  · intro v hv x hx y hy hxv hyv hxt hyt
    have hxL : x = { valid := true, tag := tag, lru := u } :=
      resident_inj hnd hx hL hxv rfl hxt
    rcases hmem y hy with hy1 | hy1
    · subst hy1
      exact absurd hv (by rw [← hyt]; exact htag)
    · rw [hxL]
      exact hfresh y hy1 hyv
  · refine hpw.imp_of_mem ?_
    intro a c ha hc hold x hx y hy hxv hyv hxt hyt
    rcases hmem x hx with hx1 | hx1
    · subst hx1
      exact absurd ha (by rw [← hxt]; exact htag)
    · rcases hmem y hy with hy1 | hy1
      · subst hy1
        exact absurd hc (by rw [← hyt]; exact htag)
      · exact hold x hx1 y hy1 hxv hyv hxt hyt

/-- The match of the states after a reference, from the match of the target
set and the counts. -/
theorem state_matches_step {st st1 : sim_state} {m m1 : lru_model} {si : Nat}
    {set1 : List cache_line_t} {l1 : List Nat}
    (hc : st1.cache = st.cache.set si set1) (hm : state_matches st m)
    (hsets : m1.sets = Function.update m.sets si l1) (hmatch : set_matches set1 l1)
    (hfresh : ∀ l ∈ set1, l.valid = true → l.lru < st1.time) (hlt : st.time ≤ st1.time)
    (hh : st1.hits = m1.hits % 2 ^ 32) (hmi : st1.misses = m1.misses % 2 ^ 32)
    (he : st1.evictions = m1.evictions % 2 ^ 32) : state_matches st1 m1 := by
  refine ⟨?_, hh, hmi, he⟩
  intro sj set2 hset2
  rw [hc] at hset2
  rcases getElem?_set_set hset2 with ⟨rfl, rfl⟩ | ⟨hne, hold⟩
  · rw [hsets, Function.update_same]
    exact ⟨hmatch, hfresh⟩
  · rw [hsets, Function.update_noteq hne]
    obtain ⟨h1, h2⟩ := hm.1 sj set2 hold
    exact ⟨h1, fun l hl hv => lt_of_lt_of_le (h2 l hl hv) hlt⟩

theorem length_resident_tags_lt {set : List cache_line_t} {x : cache_line_t} (hx : x ∈ set)
    (hv : x.valid = false) : (resident_tags set).length < set.length := by
  unfold resident_tags
  rw [List.length_map]
  exact List.length_filter_lt_length_iff_exists.2 ⟨x, hx, by simp [hv]⟩

/-- One reference of the simulator is one reference of the reference LRU
model, as long as the clock does not wrap. -/
theorem access_matches {s b mask E : Nat} {st st1 : sim_state} {addr si tag : Nat}
    {m : lru_model} (h : access s b mask st addr = some st1)
    (hdec : decode s b mask addr = some (si, tag))
    (hwf : ∀ set ∈ st.cache, set.length = E) (hd : tags_distinct st)
    (hm : state_matches st m) (ht : st.time + 1 < 2 ^ 64) :
    state_matches st1 (lru_model_ref E m si tag) := by
  have hd1 := (access_tags h hd).1
  obtain ⟨si1, tag1, set, i, x, hdec1, hset, hx, hc, htime, hcase⟩ := access_cases h
  rw [hdec] at hdec1
  cases hdec1
  have htime1 : st1.time = st.time + 1 := by
    rw [htime, incr64, Nat.mod_eq_of_lt ht]
  have hsi : si < st.cache.length := (List.getElem?_eq_some.1 hset).1
  have hi : i < set.length := (List.getElem?_eq_some.1 hx).1
  have hset1 : st1.cache[si]? =
      some (set.set i { valid := true, tag := tag, lru := st.time }) := by
    rw [hc, List.getElem?_set]
    simp [hsi]
  have hnd1 := hd1 si _ hset1
  obtain ⟨⟨hperm, hpw⟩, hfresh⟩ := hm.1 si set hset
  obtain ⟨hmh, hmm, hme⟩ := hm.2
  obtain ⟨rA, rB, hnew, hold1, hold0⟩ := step_resident tag st.time hx
  have hmem : ∀ y ∈ set.set i { valid := true, tag := tag, lru := st.time },
      y = { valid := true, tag := tag, lru := st.time } ∨ y ∈ set := by
    intro y hy
    rcases List.mem_or_eq_of_mem_set hy with hy1 | hy1
    · exact Or.inr hy1
    · exact Or.inl hy1
  have hL := List.mem_set set i hi { valid := true, tag := tag, lru := st.time }
  have hfresh1 : ∀ l ∈ set.set i { valid := true, tag := tag, lru := st.time },
      l.valid = true → l.lru < st1.time := by
    intro l hl hv
    rw [htime1]
    rcases hmem l hl with rfl | hl1
    · exact Nat.lt_succ_self _
    · exact Nat.lt_succ_of_lt (hfresh l hl1 hv)
  have hnd : (m.sets si).Nodup := hperm.nodup_iff.2 (hd si set hset)
  rcases hcase with ⟨-, hv, htag, h1, h2, h3⟩ | ⟨hh, -, hv, h1, h2, h3⟩ |
    ⟨hh, hempty, hidx, hv, h1, h2, h3⟩
  · -- hit
    have hin : tag ∈ m.sets si := by
      rw [hperm.mem_iff, hold1 hv, htag]
      simp
    have hmodel : lru_model_ref E m si tag = { m with
        sets := Function.update m.sets si (tag :: (m.sets si).erase tag)
        hits := m.hits + 1 } := by
      simp only [lru_model_ref, if_pos hin]
    rw [hmodel]
    refine state_matches_step hc hm rfl ⟨?_, ?_⟩ hfresh1 (by omega) ?_ ?_ ?_
    · rw [hnew, ← htag, ← hold1 hv, htag]
      exact (List.perm_cons_erase hin).symm.trans hperm
    · exact pairwise_more_recent_cons hmem hL hnd1 hfresh
        (hpw.sublist (List.erase_sublist _ _)) hnd.not_mem_erase
    · simp only [h1, hmh, incr32]; omega
    · simp only [h2, hmm]
    · simp only [h3, hme]
  · -- miss that fills an empty line
    have hnot := hit_search_none_iff.1 hh
    have hnin : tag ∉ m.sets si := by
      rw [hperm.mem_iff]; exact hnot
    have hlen : (m.sets si).length < E := by
      rw [hperm.length_eq, ← hwf set (List.getElem?_mem hset)]
      exact length_resident_tags_lt (List.getElem?_mem hx) hv
    have hmodel : lru_model_ref E m si tag = { m with
        sets := Function.update m.sets si (tag :: m.sets si)
        misses := m.misses + 1 } := by
      simp only [lru_model_ref, if_neg hnin, if_pos hlen]
    rw [hmodel]
    refine state_matches_step hc hm rfl ⟨?_, ?_⟩ hfresh1 (by omega) ?_ ?_ ?_
    · rw [hnew]
      rw [hold0 hv] at hperm
      exact (List.Perm.cons tag hperm).trans List.perm_middle.symm
    · exact pairwise_more_recent_cons hmem hL hnd1 hfresh hpw hnin
    · simp only [h1, hmh]
    · simp only [h2, hmm, incr32]; omega
    · simp only [h3, hme]
  · -- miss with an eviction
    have hall := empty_search_none.1 hempty
    have hnot := hit_search_none_iff.1 hh
    have hnin : tag ∉ m.sets si := by
      rw [hperm.mem_iff]; exact hnot
    have hlenE : (m.sets si).length = E := by
      rw [hperm.length_eq, resident_tags_all_valid hall, List.length_map]
      exact hwf set (List.getElem?_mem hset)
    have hlen : ¬ (m.sets si).length < E := by omega
    have hmodel : lru_model_ref E m si tag = { m with
        sets := Function.update m.sets si (tag :: (m.sets si).dropLast)
        misses := m.misses + 1
        evictions := m.evictions + 1 } := by
      simp only [lru_model_ref, if_neg hnin, if_neg hlen]
    have hne : m.sets si ≠ [] := by
      intro e
      rw [e] at hperm
      have := hperm.length_eq
      rw [hold1 hv] at this
      simp only [List.length_nil, List.length_append, List.length_cons] at this
      omega
    -- the last tag of the recency list is the tag of the victim
    have hbound : ∀ l ∈ set, l.lru ≤ ULLONG_MAX := by
      intro l hl
      have := hfresh l hl (hall l hl)
      unfold ULLONG_MAX
      omega
    have hmin := lru_search_min hbound (by rw [← hidx]; exact hx)
    have hsplit := List.dropLast_concat_getLast hne
    have hlast : (m.sets si).getLast hne = x.tag := by
      by_contra hcon
      have hxin : x.tag ∈ m.sets si := by
        rw [hperm.mem_iff, hold1 hv]; simp
      have hxdrop : x.tag ∈ (m.sets si).dropLast := by
        rw [← hsplit] at hxin
        rcases List.mem_append.1 hxin with hin | hin
        · exact hin
        · exact absurd (List.mem_singleton.1 hin).symm hcon
      have hvin : (m.sets si).getLast hne ∈ resident_tags set := by
        rw [← hperm.mem_iff]; exact List.getLast_mem hne
      obtain ⟨y, hy, hyv, hyt⟩ := mem_resident_tags.1 hvin
      rw [← hsplit] at hpw
      have hord := (List.pairwise_append.1 hpw).2.2 _ hxdrop _ (List.mem_singleton.2 rfl)
      have := hord x (List.getElem?_mem hx) y hy hv hyv rfl hyt
      have := hmin y hy
      omega
    rw [hmodel]
    refine state_matches_step hc hm rfl ⟨?_, ?_⟩ hfresh1 (by omega) ?_ ?_ ?_
    · rw [hnew]
      refine (List.Perm.cons tag ?_).trans List.perm_middle.symm
      rw [hold1 hv] at hperm
      have hp2 : List.Perm ((m.sets si).dropLast ++ [x.tag]) (x.tag :: (rA ++ rB)) := by
        rw [← hlast, hsplit]
        rw [hlast]
        exact hperm.trans List.perm_middle
      exact ((List.perm_append_singleton _ _).symm.trans hp2).cons_inv
    · exact pairwise_more_recent_cons hmem hL hnd1 hfresh
        (hpw.sublist (List.dropLast_sublist _))
        (fun hin => hnin ((List.dropLast_sublist _).subset hin))
    · simp only [h1, hmh]
    · simp only [h2, hmm, incr32]; omega
    · simp only [h3, hme, incr32]; omega

theorem state_matches_init (S E : Nat) : state_matches (init_state S E) lru_model_init := by
  refine ⟨?_, rfl, rfl, rfl⟩
  intro si set hset
  have hres := init_resident_tags S E si set hset
  refine ⟨⟨?_, List.Pairwise.nil⟩, ?_⟩
  · rw [hres]
    exact List.Perm.refl _
  · intro l hl hv
    have : l.tag ∈ resident_tags set := mem_resident_tags.2 ⟨l, hl, hv, rfl⟩
    rw [hres] at this
    cases this

/-- A run of the simulator is a run of the reference LRU model, as long as
the clock does not wrap. -/
theorem run_refs_matches {s b E : Nat} (hsb : s + b < 64) {addrs : List Nat}
    {st st1 : sim_state} {m : lru_model}
    (h : run_refs s b (2 ^ s - 1) st addrs = some st1)
    (hwf : ∀ set ∈ st.cache, set.length = E) (hd : tags_distinct st)
    (hm : state_matches st m) (ht : st.time + addrs.length < 2 ^ 64) :
    state_matches st1 (lru_model_run s E b m addrs) := by
  induction addrs generalizing st m with
  | nil =>
    simp only [run_refs, Option.some.injEq] at h
    subst h
    exact hm
  | cons a as ih =>
    simp only [run_refs] at h
    cases ha : access s b (2 ^ s - 1) st a with
    | none => simp [ha] at h
    | some st2 =>
      simp only [ha] at h
      simp only [List.length_cons] at ht
      have hdec : decode s b (2 ^ s - 1) a = some (a / 2 ^ b % 2 ^ s, a / 2 ^ (s + b)) := by
        rw [decode_lt hsb, Nat.shiftRight_eq_div_pow, Nat.shiftRight_eq_div_pow]
      have hm2 := access_matches (E := E) ha hdec hwf hd hm (by omega)
      have hwf2 : ∀ set ∈ st2.cache, set.length = E :=
        (wf_access ha (S := st.cache.length) ⟨rfl, hwf⟩).2
      have ht2 : st2.time + as.length < 2 ^ 64 := by
        rw [access_time ha, incr64, Nat.mod_eq_of_lt (by omega)]
        omega
      exact ih h hwf2 (access_tags ha hd).1 hm2 ht2

theorem lru_model_ref_counts (E : Nat) (m : lru_model) (si tag : Nat) :
    (lru_model_ref E m si tag).hits + (lru_model_ref E m si tag).misses =
        m.hits + m.misses + 1 ∧
      (m.evictions ≤ m.misses →
        (lru_model_ref E m si tag).evictions ≤ (lru_model_ref E m si tag).misses) := by
  unfold lru_model_ref
  by_cases h1 : tag ∈ m.sets si
  · simp only [if_pos h1]
    exact ⟨by omega, fun h => h⟩
  · by_cases h2 : (m.sets si).length < E
    · simp only [if_neg h1, if_pos h2]
      exact ⟨by omega, fun h => by omega⟩
    · simp only [if_neg h1, if_neg h2]
      exact ⟨by omega, fun h => by omega⟩

theorem lru_model_run_counts (s E b : Nat) (addrs : List Nat) (m : lru_model) :
    (lru_model_run s E b m addrs).hits + (lru_model_run s E b m addrs).misses =
        m.hits + m.misses + addrs.length ∧
      (m.evictions ≤ m.misses →
        (lru_model_run s E b m addrs).evictions ≤ (lru_model_run s E b m addrs).misses) := by
  induction addrs generalizing m with
  | nil => exact ⟨rfl, fun h => h⟩
  | cons a as ih =>
    simp only [lru_model_run, List.length_cons]
    obtain ⟨h1, h2⟩ := lru_model_ref_counts E m (a / 2 ^ b % 2 ^ s) (a / 2 ^ (s + b))
    obtain ⟨h3, h4⟩ := ih (lru_model_ref E m (a / 2 ^ b % 2 ^ s) (a / 2 ^ (s + b)))
    exact ⟨by rw [h3, h1]; omega, fun h => h4 (h2 h)⟩

/-- The recency lists of the reference LRU model hold distinct tags, at most
`E` of them. -/
theorem lru_model_ref_lists {E : Nat} (hE : 1 ≤ E) {m : lru_model}
    (h : ∀ si, (m.sets si).Nodup ∧ (m.sets si).length ≤ E) (si tag : Nat) :
    ∀ sj, ((lru_model_ref E m si tag).sets sj).Nodup ∧
      ((lru_model_ref E m si tag).sets sj).length ≤ E := by
  intro sj
  obtain ⟨hnd, hlen⟩ := h si
  have key : ∀ l1 : List Nat, l1.Nodup ∧ l1.length ≤ E →
      ((Function.update m.sets si l1) sj).Nodup ∧ ((Function.update m.sets si l1) sj).length ≤ E := by
    intro l1 hl1
    by_cases hj : sj = si
    · subst hj
      rw [Function.update_same]
      exact hl1
    · rw [Function.update_noteq hj]
      exact h sj
  unfold lru_model_ref
  by_cases h1 : tag ∈ m.sets si
  · simp only [if_pos h1]
    refine key _ ⟨List.nodup_cons.2 ⟨hnd.not_mem_erase, hnd.sublist (List.erase_sublist _ _)⟩, ?_⟩
    rw [List.length_cons, List.length_erase_of_mem h1]
    have : 0 < (m.sets si).length := List.length_pos_of_mem h1
    omega
  · by_cases h2 : (m.sets si).length < E
    · simp only [if_neg h1, if_pos h2]
      exact key _ ⟨List.nodup_cons.2 ⟨h1, hnd⟩, by rw [List.length_cons]; omega⟩
    · simp only [if_neg h1, if_neg h2]
      refine key _ ⟨List.nodup_cons.2 ⟨fun hin => h1 ((List.dropLast_sublist _).subset hin),
        hnd.sublist (List.dropLast_sublist _)⟩, ?_⟩
      rw [List.length_cons, List.length_dropLast]
      omega

theorem lru_model_run_lists {s E b : Nat} (hE : 1 ≤ E) (addrs : List Nat) {m : lru_model}
    (h : ∀ si, (m.sets si).Nodup ∧ (m.sets si).length ≤ E) :
    ∀ si, ((lru_model_run s E b m addrs).sets si).Nodup ∧
      ((lru_model_run s E b m addrs).sets si).length ≤ E := by
  induction addrs generalizing m with
  | nil => exact h
  | cons a as ih =>
    simp only [lru_model_run]
    exact ih (lru_model_ref_lists hE h _ _)

/-- C1, as amended: for every geometry with `1 ≤ E ≤ INT_MAX`, `s ≤ 60` and
`s + b < 64`, when every call of `malloc` returns a block, and for every trace
with fewer than `2 ^ 32` references (so that no 32-bit counter wraps), the run
is defined and its triple (hits, misses, evictions) is the triple of the
reference LRU model, each of whose recency lists holds at most `E` distinct
tags; and whenever a run on such a trace is defined, its triple is that of the
model. -/
theorem C1_counters_equal_reference_lru (heap : Nat → Bool) (s E b : Nat)
    (trace : List record) (hE : 1 ≤ E) (hsb : s + b < 64)
    (hlen : reference_count trace < 2 ^ 32) :
    (E ≤ INT_MAX → s ≤ 60 → (∀ k, k ≤ 2 ^ s → heap k = true) →
      ∃ st, simulate heap s E b trace = some st ∧
        counters st = lru_model_result s E b trace) ∧
    (∀ st, simulate heap s E b trace = some st →
      counters st = lru_model_result s E b trace) ∧
    (∀ si, ((lru_model_run s E b lru_model_init (trace_refs trace)).sets si).Nodup ∧
      ((lru_model_run s E b lru_model_init (trace_refs trace)).sets si).length ≤ E) := by
  have key : ∀ st, simulate heap s E b trace = some st →
      counters st = lru_model_result s E b trace := by
    intro st hst
    obtain ⟨-, -, hrun⟩ := simulate_some hst
    have hlen2 : (trace_refs trace).length < 2 ^ 32 := by
      rw [length_trace_refs]; exact hlen
    have hm := run_refs_matches (E := E) hsb hrun (wf_init _ _).2 (tags_distinct_init _ _)
      (state_matches_init _ _) (by simp only [init_state]; omega)
    obtain ⟨-, hh, hmi, he⟩ := hm
    obtain ⟨hsum, hle⟩ := lru_model_run_counts s E b (trace_refs trace) lru_model_init
    have hle2 := hle (Nat.le_refl 0)
    have h0 : lru_model_init.hits + lru_model_init.misses = 0 := rfl
    rw [h0, Nat.zero_add] at hsum
    simp only [counters, lru_model_result, hh, hmi, he, Prod.mk.injEq]
    refine ⟨?_, ?_, ?_⟩
    · exact Nat.mod_eq_of_lt (by omega)
    · exact Nat.mod_eq_of_lt (by omega)
    · exact Nat.mod_eq_of_lt (by omega)
  refine ⟨?_, key, lru_model_run_lists hE _ (fun si => ⟨List.nodup_nil, Nat.zero_le _⟩)⟩
  intro hEm hs hheap
  obtain ⟨st, hst⟩ := simulate_defined hE hEm hs hsb hheap trace
  exact ⟨st, hst, key st hst⟩

/-- At geometry (1, 2, 2) the simulator and the reference LRU model both give
(2, 6, 3) on a trace of eight references. -/
theorem C1_counters_equal_reference_lru_witness :
    lru_model_result 1 2 2
      [⟨'L', 0, 1⟩, ⟨'S', 16, 4⟩, ⟨'M', 32, 4⟩, ⟨'I', 4, 4⟩, ⟨'L', 0, 1⟩, ⟨'L', 4, 1⟩,
        ⟨'M', 16, 2⟩] = (2, 6, 3) ∧
    ∃ st, simulate malloc_ok 1 2 2
        [⟨'L', 0, 1⟩, ⟨'S', 16, 4⟩, ⟨'M', 32, 4⟩, ⟨'I', 4, 4⟩, ⟨'L', 0, 1⟩, ⟨'L', 4, 1⟩,
          ⟨'M', 16, 2⟩] = some st ∧
      counters st = lru_model_result 1 2 2
        [⟨'L', 0, 1⟩, ⟨'S', 16, 4⟩, ⟨'M', 32, 4⟩, ⟨'I', 4, 4⟩, ⟨'L', 0, 1⟩, ⟨'L', 4, 1⟩,
          ⟨'M', 16, 2⟩] :=
  ⟨by decide,
   (C1_counters_equal_reference_lru malloc_ok 1 2 2 _ (by decide) (by decide) (by decide)).1
     (by decide) (by decide) (fun _ _ => rfl)⟩

/-- C1 fails as stated: at geometry (0, 1, 0), on the trace of `2 ^ 32` loads
that alternate between the addresses 0 and 32, the simulator's 32-bit
counters end at (0, 0, 2 ^ 32 - 1), while the hits and misses of the
reference LRU model add up to the `2 ^ 32` references. -/
theorem C1_counterexample :
    reference_count (alternating 0 32 (2 ^ 32)) = 2 ^ 32 ∧
    ∃ st, simulate malloc_ok 0 1 0 (alternating 0 32 (2 ^ 32)) = some st ∧
      counters st = (0, 0, 2 ^ 32 - 1) ∧
      counters st ≠ lru_model_result 0 1 0 (alternating 0 32 (2 ^ 32)) := by
  have hlen : (alternating 0 32 (2 ^ 32)).length = 2 ^ 32 := length_alternating 0 32 (2 ^ 32)
  have hrc : (trace_refs (alternating 0 32 (2 ^ 32))).length = 2 ^ 32 := by
    rw [trace_refs_alternating, hlen]
  have hnil : alternating 0 32 (2 ^ 32) ≠ [] := by
    intro h
    rw [h] at hlen
    simp at hlen
  obtain ⟨st, hst, hh, hm, he⟩ :=
    simulate_thrash malloc_ok 0 0 0 0 32 0 32
      (by decide) (by decide) (by decide) (alternates_alternating 0 32 (2 ^ 32)) hnil
      (by decide) (fun _ _ => rfl)
  rw [hlen] at hm he
  have hm0 : st.misses = 0 := by rw [hm]; norm_num
  have he0 : st.evictions = 2 ^ 32 - 1 := by rw [he]; norm_num
  have hc : counters st = (0, 0, 2 ^ 32 - 1) := by
    simp only [counters, hh, hm0, he0]
  refine ⟨by rw [← length_trace_refs, hrc], st, hst, hc, ?_⟩
  intro heq
  obtain ⟨hsum, -⟩ := lru_model_run_counts 0 1 0 (trace_refs (alternating 0 32 (2 ^ 32)))
    lru_model_init
  rw [hc] at heq
  simp only [lru_model_result, Prod.mk.injEq] at heq
  have h0 : lru_model_init.hits + lru_model_init.misses = 0 := rfl
  rw [← heq.1, ← heq.2.1, hrc, h0] at hsum
  norm_num at hsum

theorem scan_loop_well_formed (s b mask : Nat) (pre : List record) (post : List (Option record))
    (st : sim_state) :
    scan_loop s b mask st (pre.map some ++ none :: post) = run_trace s b mask st pre := by
  induction pre generalizing st with
  | nil => rfl
  | cons r rs ih =>
    simp only [List.map_cons, List.cons_append, scan_loop, run_trace]
    cases process_record s b mask st r with
    | none => rfl
    | some st1 => exact ih st1

theorem scan_loop_all (s b mask : Nat) (trace : List record) (st : sim_state) :
    scan_loop s b mask st (trace.map some) = run_trace s b mask st trace := by
  induction trace generalizing st with
  | nil => rfl
  | cons r rs ih =>
    simp only [List.map_cons, scan_loop, run_trace]
    cases process_record s b mask st r with
    | none => rfl
    | some st1 => exact ih st1

/-- C11, as amended: a record that cannot be parsed ends the loop.  For every
file in which such a record stands after the well-formed records `pre` and
before the outcomes `post`, the run gives what the trace `pre` alone gives: the
malformed record changes no state, and no record after it is applied.  A file
without such a record gives what the trace of its records gives. -/
theorem C11_malformed_record_ends_loop (heap : Nat → Bool) (s E b : Nat)
    (pre : List record) (post : List (Option record)) :
    simulate_file heap s E b (pre.map some ++ none :: post) = simulate heap s E b pre ∧
    simulate_file heap s E b (pre.map some) = simulate heap s E b pre := by
  unfold simulate_file simulate
  cases shl64 1 s with
  | none => exact ⟨rfl, rfl⟩
  | some S =>
    simp only []
    cases allocate heap S E with
    | exit status => exact ⟨rfl, rfl⟩
    | undefined => exact ⟨rfl, rfl⟩
    | cache c =>
      simp only [run_cache]
      cases set_mask s with
      | none => exact ⟨rfl, rfl⟩
      | some mask => exact ⟨scan_loop_well_formed _ _ _ _ _ _, scan_loop_all _ _ _ _ _⟩

/-- At geometry (0, 1, 0) the file `L 0,1`, a malformed record, `L 16,1`
yields the counters of `L 0,1` alone, (0, 1, 0). -/
theorem C11_malformed_record_ends_loop_witness :
    simulate_file malloc_ok 0 1 0 ([⟨'L', 0, 1⟩].map some ++ none :: [some ⟨'L', 16, 1⟩]) =
      simulate malloc_ok 0 1 0 [⟨'L', 0, 1⟩] ∧
    (simulate malloc_ok 0 1 0 [⟨'L', 0, 1⟩]).map counters = some (0, 1, 0) :=
  ⟨(C11_malformed_record_ends_loop malloc_ok 0 1 0 [⟨'L', 0, 1⟩] [some ⟨'L', 16, 1⟩]).1,
   by decide⟩

/-- C11 fails as stated: at geometry (0, 1, 0) the file `L 0,1`, a malformed
record, `L 16,1` yields (0, 1, 0), while the same file without the malformed
record yields (0, 2, 1): the record after the malformed one is not applied. -/
theorem C11_counterexample :
    (simulate_file malloc_ok 0 1 0 [some ⟨'L', 0, 1⟩, none, some ⟨'L', 16, 1⟩]).map counters =
      some (0, 1, 0) ∧
    (simulate_file malloc_ok 0 1 0 [some ⟨'L', 0, 1⟩, some ⟨'L', 16, 1⟩]).map counters =
      some (0, 2, 1) := by
  decide

theorem is_transpose_cols_iff (A B : Nat → Nat → Int) (i k j : Nat) :
    is_transpose_cols A B i k j = false ↔ ∀ c, j ≤ c → c < j + k → A i c = B c i := by
  induction k generalizing j with
  | zero =>
    simp only [is_transpose_cols, true_iff]
    intro c h1 h2
    omega
  | succ k ih =>
    simp only [is_transpose_cols]
    by_cases h : A i j = B j i
    · simp only [h, ne_eq, not_true_eq_false, if_false, ih]
      constructor
      · intro hall c h1 h2
        by_cases hc : c = j
        · subst hc; exact h
        · exact hall c (by omega) (by omega)
      · intro hall c h1 h2
        exact hall c (by omega) (by omega)
    · simp only [ne_eq, h, not_false_eq_true, if_true, Bool.true_eq_false, false_iff]
      intro hall
      exact h (hall j (le_refl _) (by omega))

theorem is_transpose_rows_iff (M : Nat) (A B : Nat → Nat → Int) (k i : Nat) :
    (is_transpose_rows M A B k i = 1 ↔
      ∀ r, i ≤ r → r < i + k → ∀ c, c < M → A r c = B c r) ∧
    (is_transpose_rows M A B k i = 1 ∨ is_transpose_rows M A B k i = 0) := by
  induction k generalizing i with
  | zero =>
    simp only [is_transpose_rows, true_iff, true_or, and_true]
    intro r h1 h2
    omega
  | succ k ih =>
    simp only [is_transpose_rows]
    cases hrow : is_transpose_cols A B i M 0 with
    | true =>
      rw [if_pos rfl]
      refine ⟨⟨fun h => absurd h (by decide), fun hall => ?_⟩, Or.inr rfl⟩
      have : is_transpose_cols A B i M 0 = false :=
        (is_transpose_cols_iff A B i M 0).2 (fun c _ h2 => hall i (le_refl _) (by omega) c
          (by omega))
      rw [this] at hrow
      cases hrow
    | false =>
      rw [if_neg (by decide)]
      have hr := (is_transpose_cols_iff A B i M 0).1 hrow
      refine ⟨?_, (ih (i + 1)).2⟩
      rw [(ih (i + 1)).1]
      constructor
      · intro hall r h1 h2 c hc
        by_cases hri : r = i
        · subst hri; exact hr c (Nat.zero_le _) (by omega)
        · exact hall r (by omega) (by omega) c hc
      · intro hall r h1 h2 c hc
        exact hall r (by omega) (by omega) c hc

/-- C13: for all `M, N ≥ 0` and all arrays `A` and `B`, `is_transpose` returns
1 if and only if `A[i][j] = B[j][i]` for all `i < N` and `j < M`, and returns
0 otherwise.  The function only reads the arrays: its result is the `int`. -/
theorem C13_is_transpose_iff (M N : Nat) (A B : Nat → Nat → Int) :
    (is_transpose M N A B = 1 ↔ ∀ i, i < N → ∀ j, j < M → A i j = B j i) ∧
    (is_transpose M N A B = 1 ∨ is_transpose M N A B = 0) := by
  obtain ⟨h1, h2⟩ := is_transpose_rows_iff M A B N 0
  refine ⟨?_, h2⟩
  unfold is_transpose
  rw [h1]
  constructor
  · intro hall i hi j hj
    exact hall i (Nat.zero_le _) (by omega) j hj
  · intro hall r _ h2 c hc
    exact hall r (by omega) c hc

/-- On the 2 x 3 matrix `A[i][j] = 10 i + j`, `is_transpose` returns 1 for its
transpose and 0 for `A` itself read as a 3 x 2 array. -/
theorem C13_is_transpose_iff_witness :
    is_transpose 3 2 (fun i j => 10 * i + j) (fun j i => 10 * i + j) = 1 ∧
    is_transpose 3 2 (fun i j => 10 * i + j) (fun i j => 10 * i + j) = 0 ∧
    (is_transpose 3 2 (fun i j => 10 * i + j) (fun j i => 10 * i + j) = 1 ↔
      ∀ i, i < 2 → ∀ j, j < 3 →
        (fun i j => ((10 * i + j : Nat) : Int)) i j =
          (fun j i => ((10 * i + j : Nat) : Int)) j i) :=
  ⟨by decide, by decide,
   (C13_is_transpose_iff 3 2 (fun i j => 10 * i + j) (fun j i => 10 * i + j)).1⟩

theorem div_pow_add (a s b : Nat) : a / 2 ^ (s + b) = a / 2 ^ b / 2 ^ s := by
  rw [Nat.div_div_eq_div_mul, ← pow_add, Nat.add_comm]

/-- C15: for `s + b < 64` the mask is `2 ^ s - 1` and the decoder gives
`set_index = (addr div 2 ^ b) mod 2 ^ s` and `tag = addr div 2 ^ (s + b)`, for
every address.  Hence `s = 0` gives `set_index = 0`;
`tag * 2 ^ s + set_index = addr div 2 ^ b`; and two addresses decode to the
same pair if and only if they agree on `addr div 2 ^ b`. -/
theorem C15_decode_arithmetic (s b : Nat) (hsb : s + b < 64) :
    set_mask s = some (2 ^ s - 1) ∧
    (∀ addr, decode s b (2 ^ s - 1) addr = some (addr / 2 ^ b % 2 ^ s, addr / 2 ^ (s + b))) ∧
    (s = 0 → ∀ addr, decode s b (2 ^ s - 1) addr = some (0, addr / 2 ^ b)) ∧
    (∀ addr si tag, decode s b (2 ^ s - 1) addr = some (si, tag) →
      tag * 2 ^ s + si = addr / 2 ^ b) ∧
    (∀ a1 a2, decode s b (2 ^ s - 1) a1 = decode s b (2 ^ s - 1) a2 ↔
      a1 / 2 ^ b = a2 / 2 ^ b) := by
  have hdec : ∀ addr, decode s b (2 ^ s - 1) addr =
      some (addr / 2 ^ b % 2 ^ s, addr / 2 ^ (s + b)) := by
    intro addr
    rw [decode_lt hsb, Nat.shiftRight_eq_div_pow, Nat.shiftRight_eq_div_pow]
  have hsum : ∀ addr, addr / 2 ^ (s + b) * 2 ^ s + addr / 2 ^ b % 2 ^ s = addr / 2 ^ b := by
    intro addr
    rw [div_pow_add, Nat.mul_comm]
    exact Nat.div_add_mod _ _
  refine ⟨set_mask_lt (by omega), hdec, ?_, ?_, ?_⟩
  · intro hs addr
    rw [hdec, hs]
    simp [Nat.mod_one]
  · intro addr si tag h
    rw [hdec] at h
    simp only [Option.some.injEq, Prod.mk.injEq] at h
    rw [← h.1, ← h.2]
    exact hsum addr
  · intro a1 a2
    rw [hdec, hdec]
    simp only [Option.some.injEq, Prod.mk.injEq]
    constructor
    · rintro ⟨h1, h2⟩
      rw [← hsum a1, ← hsum a2, h1, h2]
    · intro h
      rw [div_pow_add, div_pow_add, h]
      exact ⟨rfl, rfl⟩

/-- At `s = 4`, `b = 4` the address `0x7ff1a8` decodes to set 10 and tag
`0x7ff1`, and `0x7ff1af`, in the same block, to the same pair. -/
theorem C15_decode_arithmetic_witness :
    decode 4 4 (2 ^ 4 - 1) 0x7ff1a8 = some (10, 0x7ff1) ∧
    decode 4 4 (2 ^ 4 - 1) 0x7ff1af = some (10, 0x7ff1) ∧
    (∀ a1 a2, decode 4 4 (2 ^ 4 - 1) a1 = decode 4 4 (2 ^ 4 - 1) a2 ↔
      a1 / 2 ^ 4 = a2 / 2 ^ 4) :=
  ⟨by decide, by decide, (C15_decode_arithmetic 4 4 (by decide)).2.2.2.2⟩

/-- The loop over `i` of the allocation has no defined result when its first
store, to `cache[i]`, lies outside the block of set pointers. -/
theorem alloc_sets_outside (heap : Nat → Bool) (E bytes k i : Nat)
    (acc : List (List cache_line_t)) (h : bytes < sizeof_ptr * (i + 1)) :
    alloc_sets heap E bytes (k + 1) i acc = alloc_result.undefined := by
  rw [alloc_sets, if_neg (by omega)]

/-- For `s = 61, 62, 63` the size `S * sizeof(cache_line_t*)` wraps to 0: when
`malloc(0)` returns a block, the store to `cache[0]` lies outside it; when it
returns `NULL`, `main` returns 1. -/
theorem allocate_wrap (heap : Nat → Bool) (E : Nat) {s : Nat} (h1 : 61 ≤ s) (h2 : s ≤ 63) :
    (2 ^ s * sizeof_ptr) % 2 ^ 64 = 0 ∧
    allocate heap (2 ^ s) E =
      if heap 0 = true then alloc_result.undefined else alloc_result.exit 1 := by
  have hp : sizeof_ptr = 8 := rfl
  have hz : (2 ^ s * sizeof_ptr) % 2 ^ 64 = 0 := by
    have hs3 : s = 61 ∨ s = 62 ∨ s = 63 := by omega
    rcases hs3 with rfl | rfl | rfl <;> rw [hp] <;> norm_num
  refine ⟨hz, ?_⟩
  have hk : 2 ^ s = (2 ^ s - 1) + 1 := by
    have : 1 ≤ 2 ^ s := Nat.one_le_two_pow
    omega
  unfold allocate
  by_cases h0 : heap 0 = true
  · rw [if_pos h0, if_pos h0, hz, hk]
    exact alloc_sets_outside heap E 0 _ 0 [] (by rw [hp]; omega)
  · rw [if_neg h0, if_neg h0]

/-- C16 at its failing inputs, and where it holds.
* With `s = 64` (and `E = 1`, `b = 0`) the startup check passes and
  `S = 1ULL << s` has no defined result, although `set_mask` provides for
  `s == 64`.
* With `s + b = 64` and `s < 64` (here `s = 0`, `b = 64`) the first reference
  shifts the address by 64, which has no defined result either.
* With `s = 61, 62, 63` the size of the array of set pointers wraps to 0, and
  the first store of the allocation, to `cache[0]`, lies outside the block
  that `malloc(0)` returns (when it returns `NULL`, `main` returns 1).
* For `1 ≤ E ≤ INT_MAX`, `s ≤ 60` and `s + b < 64`, when every call of
  `malloc` returns a block, every run is defined: no shift and no set or line
  lookup is out of range. -/
theorem C16_set_and_line_lookups (heap : Nat → Bool) (s E b : Nat) (trace : List record) :
    (startup_check 64 1 0 (some "t.trace") = none ∧
      set_mask 64 = some ULLONG_MAX ∧ shl64 1 64 = none ∧
      ∀ (h : Nat → Bool) (file : Option (List record)),
        csim_main h 64 1 0 (some "t.trace") file = run_result.undefined) ∧
    (startup_check 0 1 64 (some "t.trace") = none ∧
      decode 0 64 (2 ^ 0 - 1) 0 = none ∧
      csim_main malloc_ok 0 1 64 (some "t.trace") (some [⟨'L', 0, 1⟩]) =
        run_result.undefined) ∧
    (∀ (h : Nat → Bool) (s1 : Nat) (file : Option (List record)), 61 ≤ s1 → s1 ≤ 63 →
      startup_check s1 1 0 (some "t.trace") = none ∧
      (2 ^ s1 * sizeof_ptr) % 2 ^ 64 = 0 ∧
      csim_main h s1 1 0 (some "t.trace") file =
        if h 0 = true then run_result.undefined else run_result.exit 1) ∧
    (1 ≤ E → E ≤ INT_MAX → s ≤ 60 → s + b < 64 → (∀ k, k ≤ 2 ^ s → heap k = true) →
      ∃ st, simulate heap s E b trace = some st) := by
  refine ⟨⟨by decide, by decide, by decide, ?_⟩, by decide, ?_,
    fun hE hEm hs hsb hheap => simulate_defined hE hEm hs hsb hheap trace⟩
  · intro h file
    rfl
  · intro h s1 file h1 h2
    have hc : startup_check (s1 : Int) 1 0 (some "t.trace") = none := by
      unfold startup_check
      rw [if_neg]
      rintro (h | h | h | h)
      · omega
      · omega
      · omega
      · cases h
    obtain ⟨hz, ha⟩ := allocate_wrap h 1 h1 h2
    refine ⟨hc, hz, ?_⟩
    unfold csim_main
    rw [hc]
    simp only [Int.toNat_ofNat]
    rw [shl64_one (by omega)]
    simp only []
    have e1 : (1 : Int).toNat = 1 := rfl
    rw [e1, ha]
    by_cases h0 : h 0 = true
    · rw [if_pos h0, if_pos h0]
    · rw [if_neg h0, if_neg h0]

theorem empty_search_first {ls : List cache_line_t} {i r : Nat}
    (h : empty_search ls i = some r) :
    ∃ k l, r = i + k ∧ ls[k]? = some l ∧ l.valid = false ∧
      ∀ j l1, j < k → ls[j]? = some l1 → l1.valid = true := by
  induction ls generalizing i with
  | nil => simp [empty_search] at h
  | cons l ls ih =>
    simp only [empty_search] at h
    cases hv : l.valid
    · simp only [hv, if_true, Option.some.injEq] at h
      exact ⟨0, l, by omega, by simp, hv, by intro j l1 hj; omega⟩
    · simp only [hv, Bool.true_eq_false, if_false] at h
      obtain ⟨k, l2, hr, hk, hv2, hfirst⟩ := ih h
      refine ⟨k + 1, l2, by omega, by simpa using hk, hv2, ?_⟩
      intro j l1 hj hl1
      cases j with
      | zero => simp at hl1; subst hl1; exact hv
      | succ j => exact hfirst j l1 (by omega) (by simpa using hl1)

/-- The victim search returns the first line whose `lru` is the least of the
set, when one is below `min_lru`. -/
theorem lru_search_first (ls : List cache_line_t) (i m j : Nat) :
    (lru_search ls i m j = j ∧ ∀ l ∈ ls, m ≤ l.lru) ∨
    (∃ k l, lru_search ls i m j = i + k ∧ ls[k]? = some l ∧ l.lru < m ∧
      (∀ l1 ∈ ls, l.lru ≤ l1.lru) ∧
      ∀ k1 l1, k1 < k → ls[k1]? = some l1 → l.lru < l1.lru) := by
  induction ls generalizing i m j with
  | nil => left; simp [lru_search]
  | cons l ls ih =>
    simp only [lru_search]
    by_cases hc : l.lru < m
    · simp only [hc, if_true]
      rcases ih (i + 1) l.lru i with ⟨h1, h2⟩ | ⟨k, l2, h1, h2, h3, h4, h5⟩
      · right
        refine ⟨0, l, by simpa using h1, by simp, hc, ?_, by intro k1 l1 hk; omega⟩
        intro l1 hl1
        rcases List.mem_cons.1 hl1 with rfl | hl1
        · exact le_rfl
        · exact h2 l1 hl1
      · right
        refine ⟨k + 1, l2, by rw [h1]; omega, by simpa using h2, by omega, ?_, ?_⟩
        · intro l1 hl1
          rcases List.mem_cons.1 hl1 with rfl | hl1
          · omega
          · exact h4 l1 hl1
        · intro k1 l1 hk hl1
          cases k1 with
          | zero => simp at hl1; subst hl1; exact h3
          | succ k1 => exact h5 k1 l1 (by omega) (by simpa using hl1)
    · simp only [hc, if_false]
      rcases ih (i + 1) m j with ⟨h1, h2⟩ | ⟨k, l2, h1, h2, h3, h4, h5⟩
      · left
        refine ⟨h1, ?_⟩
        intro l1 hl1
        rcases List.mem_cons.1 hl1 with rfl | hl1
        · omega
        · exact h2 l1 hl1
      · right
        refine ⟨k + 1, l2, by rw [h1]; omega, by simpa using h2, h3, ?_, ?_⟩
        · intro l1 hl1
          rcases List.mem_cons.1 hl1 with rfl | hl1
          · omega
          · exact h4 l1 hl1
        · intro k1 l1 hk hl1
          cases k1 with
          | zero => simp at hl1; subst hl1; omega
          | succ k1 => exact h5 k1 l1 (by omega) (by simpa using hl1)

/-- The victim search started at `ULLONG_MAX` on a set that is not empty and
whose `lru` fields are 64 bits wide returns the first line of least `lru`. -/
theorem lru_search_first_min {set : List cache_line_t} (hne : set ≠ [])
    (hmax : ∀ l ∈ set, l.lru ≤ ULLONG_MAX) :
    ∃ l, set[lru_search set 0 ULLONG_MAX 0]? = some l ∧ (∀ l1 ∈ set, l.lru ≤ l1.lru) ∧
      ∀ k1 l1, k1 < lru_search set 0 ULLONG_MAX 0 → set[k1]? = some l1 → l.lru < l1.lru := by
  rcases lru_search_first set 0 ULLONG_MAX 0 with ⟨h1, h2⟩ | ⟨k, l, h1, h2, -, h4, h5⟩
  · cases set with
    | nil => exact absurd rfl hne
    | cons x xs =>
      rw [h1]
      refine ⟨x, by simp, ?_, by intro k1 l1 hk; omega⟩
      intro l1 hl1
      exact le_trans (hmax x (List.mem_cons_self _ _)) (h2 l1 hl1)
  · rw [h1, Nat.zero_add]
    exact ⟨l, h2, h4, h5⟩

/-- C14, as amended: in every state, for every reference that decodes to an
existing set `set` that is not empty (`E ≥ 1`) and whose `lru` fields are 64
bits wide, one step is defined and is exactly one of three outcomes:
* if a valid line of the set holds the tag, a hit: the first such line gets
  `lru = time` and `hits` is incremented;
* otherwise, if a line of the set is invalid, a fill: the first invalid line
  becomes valid with the tag and `lru = time`, and `misses` is incremented;
* otherwise an eviction: the first line of least `lru` gets the tag and
  `lru = time`, and `misses` and `evictions` are incremented.
Nothing else changes, and the clock advances by 1 modulo `2 ^ 64`: by exactly
1 unless it stood at `2 ^ 64 - 1`. -/
theorem C14_engine_step (s b mask : Nat) (st : sim_state) (addr si tag : Nat)
    (set : List cache_line_t) (hd : decode s b mask addr = some (si, tag))
    (hset : st.cache[si]? = some set) (hne : set ≠ [])
    (hmax : ∀ l ∈ set, l.lru ≤ ULLONG_MAX) :
    ∃ st1, access s b mask st addr = some st1 ∧ st1.time = incr64 st.time ∧
      (st.time < ULLONG_MAX → st1.time = st.time + 1) ∧
      ((∃ l ∈ set, l.valid = true ∧ l.tag = tag) →
        ∃ i l, set[i]? = some l ∧ l.valid = true ∧ l.tag = tag ∧
          (∀ j l1, j < i → set[j]? = some l1 → ¬ (l1.valid = true ∧ l1.tag = tag)) ∧
          st1 = { st with
            hits := incr32 st.hits
            time := incr64 st.time
            cache := st.cache.set si (set.set i { l with lru := st.time }) }) ∧
      ((∀ l ∈ set, ¬ (l.valid = true ∧ l.tag = tag)) → (∃ l ∈ set, l.valid = false) →
        ∃ i l, set[i]? = some l ∧ l.valid = false ∧
          (∀ j l1, j < i → set[j]? = some l1 → l1.valid = true) ∧
          st1 = { st with
            misses := incr32 st.misses
            time := incr64 st.time
            cache := st.cache.set si
              (set.set i { valid := true, tag := tag, lru := st.time }) }) ∧
      ((∀ l ∈ set, ¬ (l.valid = true ∧ l.tag = tag)) → (∀ l ∈ set, l.valid = true) →
        ∃ i l, set[i]? = some l ∧ (∀ l1 ∈ set, l.lru ≤ l1.lru) ∧
          (∀ j l1, j < i → set[j]? = some l1 → l.lru < l1.lru) ∧
          st1 = { st with
            misses := incr32 st.misses
            evictions := incr32 st.evictions
            time := incr64 st.time
            cache := st.cache.set si (set.set i { l with tag := tag, lru := st.time }) }) := by
  have htime : ∀ t : Nat, t < ULLONG_MAX → incr64 t = t + 1 := by
    intro t ht
    unfold ULLONG_MAX at ht
    unfold incr64
    exact Nat.mod_eq_of_lt (by omega)
  cases hh : hit_search tag set 0 with
  | some i =>
    obtain ⟨k, l, hk, hl, hv, ht, hfirst⟩ := hit_search_some hh
    have hik : i = k := by omega
    subst hik
    refine ⟨{ st with
        hits := incr32 st.hits
        time := incr64 st.time
        cache := st.cache.set si (set.set i { l with lru := st.time }) }, ?_, rfl,
      htime st.time, ?_, ?_, ?_⟩
    · unfold access
      simp only [hd, hset, hh, store_line_of_getElem? _ hl]
    · intro _
      exact ⟨i, l, hl, hv, ht, hfirst, rfl⟩
    · intro hno _
      exact absurd ⟨hv, ht⟩ (hno l (List.getElem?_mem hl))
    · intro hno _
      exact absurd ⟨hv, ht⟩ (hno l (List.getElem?_mem hl))
  | none =>
    have hno := hit_search_none.1 hh
    cases he : empty_search set 0 with
    | some i =>
      obtain ⟨k, l, hk, hl, hv, hfirst⟩ := empty_search_first he
      have hik : i = k := by omega
      subst hik
      refine ⟨{ st with
          misses := incr32 st.misses
          time := incr64 st.time
          cache := st.cache.set si
            (set.set i { valid := true, tag := tag, lru := st.time }) }, ?_, rfl,
        htime st.time, ?_, ?_, ?_⟩
      · unfold access
        simp only [hd, hset, hh, he, store_line_of_getElem? _ hl]
      · rintro ⟨l1, hl1, h1⟩
        exact absurd h1 (hno l1 hl1)
      · intro _ _
        exact ⟨i, l, hl, hv, hfirst, rfl⟩
      · intro _ hall
        rw [hall l (List.getElem?_mem hl)] at hv
        cases hv
    | none =>
      have hall := empty_search_none.1 he
      obtain ⟨l, hl, hmin, hfirst⟩ := lru_search_first_min hne hmax
      refine ⟨{ st with
          misses := incr32 st.misses
          evictions := incr32 st.evictions
          time := incr64 st.time
          cache := st.cache.set si
            (set.set (lru_search set 0 ULLONG_MAX 0) { l with tag := tag, lru := st.time }) },
        ?_, rfl, htime st.time, ?_, ?_, ?_⟩
      · unfold access
        simp only [hd, hset, hh, he, store_line_of_getElem? _ hl]
      · rintro ⟨l1, hl1, h1⟩
        exact absurd h1 (hno l1 hl1)
      · rintro _ ⟨l1, hl1, h1⟩
        rw [hall l1 hl1] at h1
        cases h1
      · intro _ _
        exact ⟨_, l, hl, hmin, hfirst, rfl⟩

/-- In the state with the lines (tag 1, lru 3) and (tag 2, lru 2) and clock 4
a reference to tag 3 is defined: it is the eviction of the second line. -/
theorem C14_engine_step_witness :
    ∃ st1, access 0 0 (2 ^ 0 - 1) ⟨[[⟨true, 1, 3⟩, ⟨true, 2, 2⟩]], 1, 2, 0, 4⟩ 3 = some st1 ∧
      st1 = ⟨[[⟨true, 1, 3⟩, ⟨true, 3, 4⟩]], 1, 3, 1, 5⟩ ∧ st1.time = 4 + 1 := by
  obtain ⟨st1, h, -, ht, -⟩ := C14_engine_step 0 0 (2 ^ 0 - 1)
    ⟨[[⟨true, 1, 3⟩, ⟨true, 2, 2⟩]], 1, 2, 0, 4⟩ 3 0 3 [⟨true, 1, 3⟩, ⟨true, 2, 2⟩]
    (by decide) (by decide) (by decide) (by decide)
  refine ⟨st1, h, ?_, ht (by decide)⟩
  have h2 : access 0 0 (2 ^ 0 - 1) ⟨[[⟨true, 1, 3⟩, ⟨true, 2, 2⟩]], 1, 2, 0, 4⟩ 3 =
      some ⟨[[⟨true, 1, 3⟩, ⟨true, 3, 4⟩]], 1, 3, 1, 5⟩ := by decide
  rw [h2] at h
  exact (Option.some.inj h).symm

/-- C14 fails as stated: in the state with one invalid line and the clock at
`2 ^ 64 - 1`, a reference is a fill that stamps the line with `2 ^ 64 - 1`,
and the clock then stands at 0: it has not advanced by 1. -/
theorem C14_counterexample :
    access 0 0 (2 ^ 0 - 1) ⟨[[⟨false, 0, 0⟩]], 0, 0, 0, 2 ^ 64 - 1⟩ 5 =
      some ⟨[[⟨true, 5, 2 ^ 64 - 1⟩]], 0, 1, 0, 0⟩ ∧
    (0 : Nat) ≠ (2 ^ 64 - 1) + 1 := by
  decide

/-- Two valid lines at different indices of a set with distinct resident tags
hold different tags. -/
theorem valid_tag_ne_of_index_ne {set : List cache_line_t} (hnd : (resident_tags set).Nodup)
    {i j : Nat} {x y : cache_line_t} (hx : set[i]? = some x) (hy : set[j]? = some y)
    (hij : i ≠ j) (hxv : x.valid = true) (hyv : y.valid = true) : x.tag ≠ y.tag := by
  unfold resident_tags at hnd
  have hf : List.filter (fun l : cache_line_t => l.valid) set =
      List.filter (fun l => decide (l.valid = true)) set := by
    congr 1
    funext l
    simp
  rw [List.Nodup, List.pairwise_map, hf, List.pairwise_filter] at hnd
  obtain ⟨hi, hxi⟩ := List.getElem?_eq_some.1 hx
  obtain ⟨hj, hyj⟩ := List.getElem?_eq_some.1 hy
  have hp := List.pairwise_iff_getElem.1 hnd
  rcases Nat.lt_or_gt_of_ne hij with hlt | hgt
  · have := hp i j hi hj hlt (by rw [hxi]; exact hxv) (by rw [hyj]; exact hyv)
    rw [hxi, hyj] at this
    exact this
  · have := hp j i hj hi hgt (by rw [hyj]; exact hyv) (by rw [hxi]; exact hxv)
    rw [hxi, hyj] at this
    exact fun e => this e.symm

/-- The state reached by a defined run of fewer than `2 ^ 64` references:
every valid line's `lru` is the position of the last reference to its tag
plus 1, and the clock is the number of references plus 1, modulo `2 ^ 64`. -/
theorem simulate_recency {heap : Nat → Bool} {s E b : Nat} {pre : List record} {st : sim_state}
    (hpre : simulate heap s E b pre = some st) (hlen : reference_count pre < 2 ^ 64) :
    recency_exact st (ref_keys s b (2 ^ s - 1) (trace_refs pre)) ∧
      st.time = (reference_count pre + 1) % 2 ^ 64 := by
  obtain ⟨-, -, hrun⟩ := simulate_some hpre
  have h := run_refs_recency hrun (tags_distinct_init _ _) (recency_exact_init _ _)
    (by simp [init_state]) (by simpa [length_trace_refs] using hlen)
  simp only [List.nil_append, List.length_nil, Nat.zero_add, length_trace_refs] at h
  exact h

/-- C17: in the state `st` after a defined run over a trace `pre` of fewer
than `2 ^ 64 - 1` references, started in the initial state:
* the clock equals 1 plus the number of references;
* every valid line has an `lru` in `[1, time)`;
* two valid lines at different places of the cache have different `lru`;
* a reference that increments `evictions` overwrites the one line whose `lru`
  is below that of every other line of its set. -/
theorem C17_clock_and_recency (heap : Nat → Bool) (s E b : Nat) (pre : List record) (st : sim_state)
    (hpre : simulate heap s E b pre = some st) (hlen : reference_count pre < 2 ^ 64 - 1) :
    st.time = 1 + reference_count pre ∧
    (∀ (si : Nat) (set : List cache_line_t) (l : cache_line_t),
      st.cache[si]? = some set → l ∈ set → l.valid = true →
      1 ≤ l.lru ∧ l.lru < st.time) ∧
    (∀ (si sj : Nat) (set1 set2 : List cache_line_t) (i j : Nat) (x y : cache_line_t),
      st.cache[si]? = some set1 → st.cache[sj]? = some set2 →
      set1[i]? = some x → set2[j]? = some y → x.valid = true → y.valid = true →
      (si, i) ≠ (sj, j) → x.lru ≠ y.lru) ∧
    (∀ addr st1, access s b (2 ^ s - 1) st addr = some st1 →
      st1.evictions = incr32 st.evictions →
      ∃ si tag set i x, decode s b (2 ^ s - 1) addr = some (si, tag) ∧
        st.cache[si]? = some set ∧ set[i]? = some x ∧
        st1.cache = st.cache.set si
          (set.set i { valid := true, tag := tag, lru := st.time }) ∧
        ∀ (j : Nat) (y : cache_line_t), set[j]? = some y → j ≠ i → x.lru < y.lru) := by
  obtain ⟨-, hdist, -⟩ := simulate_tags hpre
  obtain ⟨hrec, htime⟩ := simulate_recency hpre (by omega)
  have htime1 : st.time = 1 + reference_count pre := by
    rw [htime, Nat.mod_eq_of_lt (by omega)]; omega
  have hklen : (ref_keys s b (2 ^ s - 1) (trace_refs pre)).length ≤ reference_count pre := by
    rw [← length_trace_refs]; exact length_ref_keys_le _ _ _ _
  have hne : ∀ (si sj : Nat) (set1 set2 : List cache_line_t) (i j : Nat) (x y : cache_line_t),
      st.cache[si]? = some set1 →
      st.cache[sj]? = some set2 → set1[i]? = some x → set2[j]? = some y →
      x.valid = true → y.valid = true → (si, i) ≠ (sj, j) → x.lru ≠ y.lru := by
    intro si sj set1 set2 i j x y h1 h2 hx hy hxv hyv hpos heq
    obtain ⟨p, hp, hxl⟩ := hrec si set1 h1 x (List.getElem?_mem hx) hxv
    obtain ⟨q, hq, hyl⟩ := hrec sj set2 h2 y (List.getElem?_mem hy) hyv
    have hpq : p = q := by omega
    subst hpq
    have k1 := last_ref_some hp
    have k2 := last_ref_some hq
    rw [k2] at k1
    simp only [Option.some.injEq, Prod.mk.injEq] at k1
    obtain ⟨hs, ht⟩ := k1
    subst hs
    rw [h1] at h2
    cases h2
    have hij : i ≠ j := fun e => hpos (by rw [e])
    exact valid_tag_ne_of_index_ne (hdist sj set1 h1) hx hy hij hxv hyv ht.symm
  refine ⟨htime1, ?_, hne, ?_⟩
  · intro si set l hset hl hv
    obtain ⟨p, hp, hlru⟩ := hrec si set hset l hl hv
    have := last_ref_lt hp
    omega
  · intro addr st1 hacc hev
    obtain ⟨si, tag, set, x, hd, hset, hx, hc, hall, -⟩ := access_eviction hacc hev
    have hbound : ∀ l ∈ set, l.lru ≤ ULLONG_MAX := by
      intro l hl
      obtain ⟨p, hp, hlru⟩ := hrec si set hset l hl (hall l hl)
      have := last_ref_lt hp
      unfold ULLONG_MAX
      omega
    have hmin := lru_search_min hbound hx
    refine ⟨si, tag, set, _, x, hd, hset, hx, hc, ?_⟩
    intro j y hy hj
    have hxy := hne si si set set _ j x y hset hset hx hy (hall x (List.getElem?_mem hx))
      (hall y (List.getElem?_mem hy)) (fun e => hj (by
        simp only [Prod.mk.injEq, true_and] at e
        exact e.symm))
    have := hmin y (List.getElem?_mem hy)
    omega

/-- At geometry (0, 2, 0), after `L 1`, `L 2`, `L 1` the clock is 4, the
lines carry the `lru` values 3 and 2, and the eviction by a reference to
address 3 overwrites the line with `lru = 2`. -/
theorem C17_clock_and_recency_witness :
    simulate malloc_ok 0 2 0 [⟨'L', 1, 1⟩, ⟨'L', 2, 1⟩, ⟨'L', 1, 1⟩] =
      some ⟨[[⟨true, 1, 3⟩, ⟨true, 2, 2⟩]], 1, 2, 0, 4⟩ ∧
    (⟨[[⟨true, 1, 3⟩, ⟨true, 2, 2⟩]], 1, 2, 0, 4⟩ : sim_state).time =
      1 + reference_count [⟨'L', 1, 1⟩, ⟨'L', 2, 1⟩, ⟨'L', 1, 1⟩] :=
  ⟨by decide,
   (C17_clock_and_recency malloc_ok 0 2 0 [⟨'L', 1, 1⟩, ⟨'L', 2, 1⟩, ⟨'L', 1, 1⟩]
     ⟨[[⟨true, 1, 3⟩, ⟨true, 2, 2⟩]], 1, 2, 0, 4⟩ (by decide) (by decide)).1⟩

theorem line_at_of_set {st : sim_state} {si : Nat} {set : List cache_line_t}
    (h : st.cache[si]? = some set) (i : Nat) : line_at st si i = set[i]? := by
  simp [line_at, h]

/-- One reference writes one line of the decoded set and leaves every other
line of the cache as it is. -/
theorem access_frame {s b mask : Nat} {st st1 : sim_state} {addr : Nat}
    (h : access s b mask st addr = some st1) :
    ∃ si tag i x, decode s b mask addr = some (si, tag) ∧ line_at st si i = some x ∧
      line_at st1 si i = some { valid := true, tag := tag, lru := st.time } ∧
      (∀ sj j, (sj, j) ≠ (si, i) → line_at st1 sj j = line_at st sj j) ∧
      ((st1.hits = incr32 st.hits ∧ st1.evictions = st.evictions ∧ x.valid = true ∧
          x.tag = tag) ∨
       (st1.hits = st.hits ∧ st1.evictions = st.evictions ∧ x.valid = false) ∨
       (st1.hits = st.hits ∧ st1.evictions = incr32 st.evictions ∧ x.valid = true)) := by
  obtain ⟨si, tag, set, i, x, hd, hset, hx, hc, -, hcase⟩ := access_cases h
  have hsi : si < st.cache.length := (List.getElem?_eq_some.1 hset).1
  have hi : i < set.length := (List.getElem?_eq_some.1 hx).1
  have hset1 : st1.cache[si]? =
      some (set.set i { valid := true, tag := tag, lru := st.time }) := by
    rw [hc, List.getElem?_set]
    simp [hsi]
  refine ⟨si, tag, i, x, hd, by rw [line_at_of_set hset]; exact hx, ?_, ?_, ?_⟩
  · rw [line_at_of_set hset1, List.getElem?_set]
    simp [hi]
  · intro sj j hne
    by_cases hs : sj = si
    · subst hs
      have hj : i ≠ j := fun e => hne (by rw [e])
      rw [line_at_of_set hset1, line_at_of_set hset, List.getElem?_set]
      simp [hj]
    · have : st1.cache[sj]? = st.cache[sj]? := by
        rw [hc, List.getElem?_set]
        have hs1 : si ≠ sj := fun e => hs e.symm
        simp [hs1]
      simp only [line_at, this]
  · rcases hcase with ⟨-, hv, ht, h1, -, h3⟩ | ⟨-, -, hv, h1, -, h3⟩ | ⟨-, -, -, hv, h1, -, h3⟩
    · exact Or.inl ⟨h1, h3, hv, ht⟩
    · exact Or.inr (Or.inl ⟨h1, h3, hv⟩)
    · exact Or.inr (Or.inr ⟨h1, h3, hv⟩)

/-- C18, as amended: in the state after a defined run over any trace `pre`,
a reference writes exactly one cache line, `cache[si][i]` of the decoded set
`si`, which becomes the valid line with the tag and `lru = time`; every other
line of the cache keeps its `valid`, `tag` and `lru`.  On a hit the written
line keeps its `valid` and `tag`; on an eviction it was valid and stays so.
When fewer than `2 ^ 64` references precede, the written line changes. -/
theorem C18_one_line_written (heap : Nat → Bool) (s E b : Nat) (pre : List record) (st : sim_state)
    (hpre : simulate heap s E b pre = some st) (addr : Nat) (st1 : sim_state)
    (hacc : access s b (2 ^ s - 1) st addr = some st1) :
    ∃ si tag i x x1, decode s b (2 ^ s - 1) addr = some (si, tag) ∧
      line_at st si i = some x ∧ line_at st1 si i = some x1 ∧
      x1 = { valid := true, tag := tag, lru := st.time } ∧
      (∀ sj j, (sj, j) ≠ (si, i) → line_at st1 sj j = line_at st sj j) ∧
      (st1.hits = incr32 st.hits → x1.valid = x.valid ∧ x1.tag = x.tag) ∧
      (st1.evictions = incr32 st.evictions → x.valid = true ∧ x1.valid = true) ∧
      (reference_count pre < 2 ^ 64 → x1 ≠ x) := by
  obtain ⟨si, tag, i, x, hd, hx, hx1, hframe, hcase⟩ := access_frame hacc
  refine ⟨si, tag, i, x, _, hd, hx, hx1, rfl, hframe, ?_, ?_, ?_⟩
  · intro hh
    rcases hcase with ⟨-, -, hv, ht⟩ | ⟨h1, -, -⟩ | ⟨h1, -, -⟩
    · exact ⟨hv.symm, ht.symm⟩
    · exact absurd (h1.symm.trans hh).symm (incr32_ne _)
    · exact absurd (h1.symm.trans hh).symm (incr32_ne _)
  · intro he
    rcases hcase with ⟨-, h3, -, -⟩ | ⟨-, h3, -⟩ | ⟨-, -, hv⟩
    · exact absurd (h3.symm.trans he).symm (incr32_ne _)
    · exact absurd (h3.symm.trans he).symm (incr32_ne _)
    · exact ⟨hv, rfl⟩
  · intro hlen heq
    obtain ⟨hrec, htime⟩ := simulate_recency hpre hlen
    have hxv : x.valid = true := by rw [← heq]
    have hxl : x.lru = st.time := by rw [← heq]
    cases hset : st.cache[si]? with
    | none => simp [line_at, hset] at hx
    | some set =>
      rw [line_at_of_set hset] at hx
      obtain ⟨p, hp, hlru⟩ := hrec si set hset x (List.getElem?_mem hx) hxv
      have h1 := last_ref_lt hp
      have h2 := length_ref_keys_le s b (2 ^ s - 1) (trace_refs pre)
      rw [length_trace_refs] at h2
      rw [htime] at hxl
      by_cases hw : reference_count pre + 1 < 2 ^ 64
      · rw [Nat.mod_eq_of_lt hw] at hxl
        omega
      · have : reference_count pre + 1 = 2 ^ 64 := by omega
        rw [this, Nat.mod_self] at hxl
        omega

/-- At geometry (0, 2, 0), after `L 1`, `L 2`, `L 1` a reference to address 3
writes the second line only. -/
theorem C18_one_line_written_witness :
    simulate malloc_ok 0 2 0 [⟨'L', 1, 1⟩, ⟨'L', 2, 1⟩, ⟨'L', 1, 1⟩] =
      some ⟨[[⟨true, 1, 3⟩, ⟨true, 2, 2⟩]], 1, 2, 0, 4⟩ ∧
    access 0 0 (2 ^ 0 - 1) ⟨[[⟨true, 1, 3⟩, ⟨true, 2, 2⟩]], 1, 2, 0, 4⟩ 3 =
      some ⟨[[⟨true, 1, 3⟩, ⟨true, 3, 4⟩]], 1, 3, 1, 5⟩ ∧
    ∃ si tag i x x1, decode 0 0 (2 ^ 0 - 1) 3 = some (si, tag) ∧
      line_at ⟨[[⟨true, 1, 3⟩, ⟨true, 2, 2⟩]], 1, 2, 0, 4⟩ si i = some x ∧
      line_at ⟨[[⟨true, 1, 3⟩, ⟨true, 3, 4⟩]], 1, 3, 1, 5⟩ si i = some x1 ∧
      x1 = { valid := true, tag := tag,
             lru := (⟨[[⟨true, 1, 3⟩, ⟨true, 2, 2⟩]], 1, 2, 0, 4⟩ : sim_state).time } ∧
      (∀ sj j, (sj, j) ≠ (si, i) →
        line_at ⟨[[⟨true, 1, 3⟩, ⟨true, 3, 4⟩]], 1, 3, 1, 5⟩ sj j =
          line_at ⟨[[⟨true, 1, 3⟩, ⟨true, 2, 2⟩]], 1, 2, 0, 4⟩ sj j) ∧
      x1 ≠ x := by
  obtain ⟨si, tag, i, x, x1, h1, h2, h3, h4, h5, -, -, h8⟩ :=
    C18_one_line_written malloc_ok 0 2 0 [⟨'L', 1, 1⟩, ⟨'L', 2, 1⟩, ⟨'L', 1, 1⟩]
      ⟨[[⟨true, 1, 3⟩, ⟨true, 2, 2⟩]], 1, 2, 0, 4⟩ (by decide) 3
      ⟨[[⟨true, 1, 3⟩, ⟨true, 3, 4⟩]], 1, 3, 1, 5⟩ (by decide)
  exact ⟨by decide, by decide, si, tag, i, x, x1, h1, h2, h3, h4, h5, h8 (by decide)⟩

/-- At geometry (0, 2, 0), after `L 1` and `2 ^ 64 - 1` records `L 2` the
clock has wrapped to 1 and the line of tag 2 carries `lru = 0`. -/
theorem simulate_clock_wrapped :
    simulate malloc_ok 0 2 0 (⟨'L', 1, 1⟩ :: List.replicate (2 ^ 64 - 1) ⟨'L', 2, 1⟩) =
      some ⟨[[⟨true, 1, 1⟩, ⟨true, 2, 0⟩]], 2 ^ 32 - 2, 2, 0, 1⟩ := by
  have hrefs : trace_refs (⟨'L', 1, 1⟩ :: List.replicate (2 ^ 64 - 1) ⟨'L', 2, 1⟩) =
      1 :: 2 :: List.replicate (2 ^ 64 - 3 + 1) 2 := by
    have e : (2 : Nat) ^ 64 - 1 = (2 ^ 64 - 3 + 1) + 1 := by norm_num
    have h1 : record_refs ⟨'L', 1, 1⟩ = [1] := by simp [record_refs]
    rw [trace_refs, trace_refs_replicate_load, h1, e, @List.replicate_succ _ 2 (2 ^ 64 - 3 + 1)]
    rfl
  have h2 : run_refs 0 0 (2 ^ 0 - 1) (init_state (2 ^ 0) 2)
      (1 :: 2 :: List.replicate (2 ^ 64 - 3 + 1) 2) =
      run_refs 0 0 (2 ^ 0 - 1) ⟨[[⟨true, 1, 1⟩, ⟨true, 2, 2⟩]], 0, 2, 0, 3⟩
        (List.replicate (2 ^ 64 - 3 + 1) 2) := by
    have a1 : access 0 0 (2 ^ 0 - 1) (init_state (2 ^ 0) 2) 1 =
        some ⟨[[⟨true, 1, 1⟩, ⟨false, 0, 0⟩]], 0, 1, 0, 2⟩ := by decide
    have a2 : access 0 0 (2 ^ 0 - 1) ⟨[[⟨true, 1, 1⟩, ⟨false, 0, 0⟩]], 0, 1, 0, 2⟩ 2 =
        some ⟨[[⟨true, 1, 1⟩, ⟨true, 2, 2⟩]], 0, 2, 0, 3⟩ := by decide
    rw [run_refs, a1]
    simp only
    rw [run_refs, a2]
  have hrun := run_refs_hit_second (2 ^ 64 - 3) 2 0 2 0 3 (by norm_num)
  have v1 : (3 + (2 ^ 64 - 3)) % 2 ^ 64 = 0 := by norm_num
  have v2 : (0 + (2 ^ 64 - 3) + 1) % 2 ^ 32 = 2 ^ 32 - 2 := by norm_num
  have v3 : (3 + (2 ^ 64 - 3) + 1) % 2 ^ 64 = 1 := by norm_num
  rw [v1, v2, v3] at hrun
  rw [simulate_eq (by norm_num) (allocate_malloc_ok (by norm_num) (by decide)), hrefs, h2, hrun]

/-- C18 fails as stated: at geometry (0, 2, 0), after `L 1` and `2 ^ 64 - 1`
records `L 2` the clock has wrapped to 1, the `lru` that the line of tag 1
carries.  The next reference, to address 1, is a hit that stamps that line
with 1 again: no line of the cache changes. -/
theorem C18_counterexample :
    ∃ st st1,
      simulate malloc_ok 0 2 0 (⟨'L', 1, 1⟩ :: List.replicate (2 ^ 64 - 1) ⟨'L', 2, 1⟩) = some st ∧
      access 0 0 (2 ^ 0 - 1) st 1 = some st1 ∧ st1.hits = incr32 st.hits ∧
      st1.cache = st.cache :=
  ⟨⟨[[⟨true, 1, 1⟩, ⟨true, 2, 0⟩]], 2 ^ 32 - 2, 2, 0, 1⟩,
   ⟨[[⟨true, 1, 1⟩, ⟨true, 2, 0⟩]], 2 ^ 32 - 1, 2, 0, 2⟩,
   simulate_clock_wrapped, by decide, by decide, rfl⟩

theorem valid_lines_append (A B : List cache_line_t) :
    valid_lines (A ++ B) = valid_lines A + valid_lines B := by
  simp [valid_lines]

theorem valid_lines_cons (x : cache_line_t) (B : List cache_line_t) :
    valid_lines (x :: B) = (if x.valid = true then 1 else 0) + valid_lines B := by
  unfold valid_lines
  cases hv : x.valid
  · simp [List.filter, hv]
  · simp [List.filter, hv]; omega

theorem valid_lines_le (set : List cache_line_t) : valid_lines set ≤ set.length :=
  List.length_filter_le _ _

/-- The number of valid lines after a store of a valid line. -/
theorem valid_lines_set {set : List cache_line_t} {i : Nat} {x : cache_line_t}
    (hx : set[i]? = some x) (tag u : Nat) :
    valid_lines (set.set i { valid := true, tag := tag, lru := u }) =
      valid_lines set + (if x.valid = true then 0 else 1) := by
  obtain ⟨h1, h2⟩ := set_split hx { valid := true, tag := tag, lru := u }
  rw [h2]
  conv_rhs => rw [h1]
  simp only [valid_lines_append, valid_lines_cons]
  cases hv : x.valid
  · simp; omega
  · simp

theorem sum_map_set {α : Type} (f : α → Nat) {l : List α} {i : Nat} {x : α}
    (hx : l[i]? = some x) (y : α) :
    ((l.set i y).map f).sum + f x = (l.map f).sum + f y := by
  obtain ⟨h1, h2⟩ := set_split hx y
  rw [h2]
  conv_rhs => rw [h1]
  simp only [List.map_append, List.map_cons, List.sum_append, List.sum_cons]
  omega

/-- One reference adds one valid line exactly when it fills an invalid
line. -/
theorem access_valid_count {s b mask : Nat} {st st1 : sim_state} {addr : Nat}
    (h : access s b mask st addr = some st1) :
    (st1.hits = incr32 st.hits ∧ st1.misses = st.misses ∧ st1.evictions = st.evictions ∧
      valid_count st1 = valid_count st) ∨
    (st1.hits = st.hits ∧ st1.misses = incr32 st.misses ∧ st1.evictions = st.evictions ∧
      valid_count st1 = valid_count st + 1) ∨
    (st1.hits = st.hits ∧ st1.misses = incr32 st.misses ∧
      st1.evictions = incr32 st.evictions ∧ valid_count st1 = valid_count st) := by
  obtain ⟨si, tag, set, i, x, -, hset, hx, hc, -, hcase⟩ := access_cases h
  have hsum := sum_map_set valid_lines hset
    (set.set i { valid := true, tag := tag, lru := st.time })
  rw [valid_lines_set hx] at hsum
  have hvc : valid_count st1 + valid_lines set =
      valid_count st + (valid_lines set + if x.valid = true then 0 else 1) := by
    unfold valid_count
    rw [hc]
    exact hsum
  rcases hcase with ⟨-, hv, -, h1, h2, h3⟩ | ⟨-, -, hv, h1, h2, h3⟩ | ⟨-, -, -, hv, h1, h2, h3⟩
  · left
    rw [hv] at hvc
    simp only [if_true] at hvc
    exact ⟨h1, h2, h3, by omega⟩
  · right; left
    rw [hv] at hvc
    simp only [Bool.false_eq_true, if_false] at hvc
    exact ⟨h1, h2, h3, by omega⟩
  · right; right
    rw [hv] at hvc
    simp only [if_true] at hvc
    exact ⟨h1, h2, h3, by omega⟩

theorem run_refs_valid_count_mod {s b mask : Nat} {addrs : List Nat} {st st1 : sim_state}
    (h : run_refs s b mask st addrs = some st1)
    (hinv : (st.evictions + valid_count st) % 2 ^ 32 = st.misses % 2 ^ 32) :
    (st1.evictions + valid_count st1) % 2 ^ 32 = st1.misses % 2 ^ 32 := by
  induction addrs generalizing st with
  | nil =>
    simp only [run_refs, Option.some.injEq] at h
    subst h
    exact hinv
  | cons a as ih =>
    simp only [run_refs] at h
    cases ha : access s b mask st a with
    | none => simp [ha] at h
    | some st2 =>
      simp only [ha] at h
      refine ih h ?_
      rcases access_valid_count ha with ⟨-, h2, h3, h4⟩ | ⟨-, h2, h3, h4⟩ | ⟨-, h2, h3, h4⟩
      · rw [h2, h3, h4]; exact hinv
      · rw [h2, h3, h4, incr32]; omega
      · rw [h2, h3, h4, incr32, incr32]; omega

theorem run_refs_valid_count {s b mask : Nat} {addrs : List Nat} {st st1 : sim_state}
    (h : run_refs s b mask st addrs = some st1)
    (hinv : st.evictions + valid_count st = st.misses)
    (hlt : st.misses + addrs.length < 2 ^ 32) :
    st1.evictions + valid_count st1 = st1.misses ∧ st1.misses ≤ st.misses + addrs.length := by
  induction addrs generalizing st with
  | nil =>
    simp only [run_refs, Option.some.injEq] at h
    subst h
    exact ⟨hinv, by simp⟩
  | cons a as ih =>
    simp only [run_refs] at h
    cases ha : access s b mask st a with
    | none => simp [ha] at h
    | some st2 =>
      simp only [ha] at h
      simp only [List.length_cons] at hlt ⊢
      have hstep : st2.evictions + valid_count st2 = st2.misses ∧
          st2.misses ≤ st.misses + 1 := by
        rcases access_valid_count ha with ⟨-, h2, h3, h4⟩ | ⟨-, h2, h3, h4⟩ | ⟨-, h2, h3, h4⟩
        · rw [h2, h3, h4]; omega
        · rw [h2, h3, h4, incr32, Nat.mod_eq_of_lt (by omega)]; omega
        · rw [h2, h3, h4, incr32, incr32, Nat.mod_eq_of_lt (by omega : st.misses + 1 < 2 ^ 32),
            Nat.mod_eq_of_lt (by omega : st.evictions + 1 < 2 ^ 32)]
          omega
      have := ih h hstep.1 (by omega)
      exact ⟨this.1, by omega⟩

theorem valid_count_init (S E : Nat) : valid_count (init_state S E) = 0 := by
  simp [valid_count, init_state, init_cache, valid_lines, List.map_replicate, List.sum_replicate]

theorem sum_map_le {α : Type} (f : α → Nat) (l : List α) (c : Nat) (h : ∀ x ∈ l, f x ≤ c) :
    (l.map f).sum ≤ l.length * c := by
  induction l with
  | nil => simp
  | cons x xs ih =>
    simp only [List.map_cons, List.sum_cons, List.length_cons]
    have h1 := h x (List.mem_cons_self _ _)
    have h2 := ih (fun y hy => h y (List.mem_cons_of_mem _ hy))
    rw [Nat.add_mul, Nat.one_mul]
    omega

theorem valid_count_le {S E : Nat} {st : sim_state} (hw : wf S E st) :
    valid_count st ≤ S * E := by
  rw [← hw.1]
  exact sum_map_le valid_lines st.cache E
    (fun set hset => by rw [← hw.2 set hset]; exact valid_lines_le set)

/-- A run keeps valid lines valid and keeps `tag = 0`, `lru = 0` in the lines
that are still invalid. -/
theorem run_refs_lines {s b mask : Nat} {addrs : List Nat} {st st1 : sim_state}
    (h : run_refs s b mask st addrs = some st1) :
    (∀ si i x, line_at st si i = some x → x.valid = true →
      ∃ y, line_at st1 si i = some y ∧ y.valid = true) ∧
    ((∀ si i x, line_at st si i = some x → x.valid = false → x.tag = 0 ∧ x.lru = 0) →
      ∀ si i x, line_at st1 si i = some x → x.valid = false → x.tag = 0 ∧ x.lru = 0) := by
  induction addrs generalizing st with
  | nil =>
    simp only [run_refs, Option.some.injEq] at h
    subst h
    exact ⟨fun si i x hx hv => ⟨x, hx, hv⟩, fun hz => hz⟩
  | cons a as ih =>
    simp only [run_refs] at h
    cases ha : access s b mask st a with
    | none => simp [ha] at h
    | some st2 =>
      simp only [ha] at h
      obtain ⟨si0, tag0, i0, x0, -, hx0, hx1, hframe, -⟩ := access_frame ha
      obtain ⟨ih1, ih2⟩ := ih h
      constructor
      · intro si i x hx hv
        by_cases hpos : (si, i) = (si0, i0)
        · simp only [Prod.mk.injEq] at hpos
          obtain ⟨rfl, rfl⟩ := hpos
          exact ih1 si i _ hx1 rfl
        · rw [← hframe si i hpos] at hx
          exact ih1 si i x hx hv
      · intro hz
        refine ih2 ?_
        intro si i x hx hv
        by_cases hpos : (si, i) = (si0, i0)
        · simp only [Prod.mk.injEq] at hpos
          obtain ⟨rfl, rfl⟩ := hpos
          rw [hx1] at hx
          cases hx
          cases hv
        · rw [hframe si i hpos] at hx
          exact hz si i x hx hv

theorem init_state_lines (S E : Nat) (si i : Nat) (x : cache_line_t)
    (h : line_at (init_state S E) si i = some x) : x = { valid := false, tag := 0, lru := 0 } := by
  unfold line_at at h
  cases hset : (init_state S E).cache[si]? with
  | none => simp [hset] at h
  | some set =>
    simp only [hset] at h
    have hmem : set ∈ init_cache S E := List.getElem?_mem hset
    rw [List.eq_of_mem_replicate hmem] at h
    exact List.eq_of_mem_replicate (List.getElem?_mem h)

/-- C19: after every prefix of a trace the misses exceed the evictions by the
number of valid lines of the whole cache, modulo 2^32 in general and exactly
when fewer than 2^32 references were made; that number is at most `2^s * E`;
a valid line stays valid under every continuation of the trace; and every line
that is still invalid has tag 0 and recency 0. -/
theorem C19_misses_minus_evictions_valid_lines (heap : Nat → Bool) (s E b : Nat) (pre : List record)
    (st : sim_state) (hpre : simulate heap s E b pre = some st) :
    (st.evictions + valid_count st) % 2 ^ 32 = st.misses % 2 ^ 32 ∧
    (reference_count pre < 2 ^ 32 →
      st.evictions ≤ st.misses ∧ st.misses - st.evictions = valid_count st ∧
      st.misses - st.evictions ≤ 2 ^ s * E) ∧
    valid_count st ≤ 2 ^ s * E ∧
    (∀ (post : List record) (st2 : sim_state) (si i : Nat) (x : cache_line_t),
      simulate heap s E b (pre ++ post) = some st2 →
      line_at st si i = some x → x.valid = true →
      ∃ y, line_at st2 si i = some y ∧ y.valid = true) ∧
    (∀ (si i : Nat) (x : cache_line_t),
      line_at st si i = some x → x.valid = false → x.tag = 0 ∧ x.lru = 0) := by
  obtain ⟨hs, -, hrun⟩ := simulate_some hpre
  have hle := valid_count_le (wf_run_refs hrun (wf_init (2 ^ s) E))
  have h0 : (init_state (2 ^ s) E).evictions + valid_count (init_state (2 ^ s) E) =
      (init_state (2 ^ s) E).misses := by
    rw [valid_count_init]; rfl
  refine ⟨run_refs_valid_count_mod hrun (by rw [h0]), ?_, hle, ?_, ?_⟩
  · intro hlt
    have hm0 : (init_state (2 ^ s) E).misses = 0 := rfl
    have := run_refs_valid_count hrun h0 (by rw [hm0, length_trace_refs]; omega)
    omega
  · intro post st2 si i x hpost hx hv
    obtain ⟨-, -, hrun2⟩ := simulate_some hpost
    rw [trace_refs_append, run_refs_append, hrun] at hrun2
    exact (run_refs_lines hrun2).1 si i x hx hv
  · intro si i x hx hv
    refine (run_refs_lines hrun).2 ?_ si i x hx hv
    intro sj j y hy _
    rw [init_state_lines _ _ sj j y hy]
    exact ⟨rfl, rfl⟩

theorem C19_misses_minus_evictions_valid_lines_witness :
    simulate malloc_ok 1 1 0 [⟨'L', 0, 1⟩, ⟨'L', 2, 1⟩] =
        some ⟨[[⟨true, 1, 2⟩], [⟨false, 0, 0⟩]], 0, 2, 1, 3⟩ ∧
      ((1 + valid_count ⟨[[⟨true, 1, 2⟩], [⟨false, 0, 0⟩]], 0, 2, 1, 3⟩) % 2 ^ 32 =
          2 % 2 ^ 32 ∧
        (reference_count [⟨'L', 0, 1⟩, ⟨'L', 2, 1⟩] < 2 ^ 32 →
          1 ≤ 2 ∧ 2 - 1 = valid_count ⟨[[⟨true, 1, 2⟩], [⟨false, 0, 0⟩]], 0, 2, 1, 3⟩ ∧
          2 - 1 ≤ 2 ^ 1 * 1) ∧
        valid_count ⟨[[⟨true, 1, 2⟩], [⟨false, 0, 0⟩]], 0, 2, 1, 3⟩ ≤ 2 ^ 1 * 1 ∧
        (∀ (post : List record) (st2 : sim_state) (si i : Nat) (x : cache_line_t),
          simulate malloc_ok 1 1 0 ([⟨'L', 0, 1⟩, ⟨'L', 2, 1⟩] ++ post) = some st2 →
          line_at ⟨[[⟨true, 1, 2⟩], [⟨false, 0, 0⟩]], 0, 2, 1, 3⟩ si i = some x →
          x.valid = true → ∃ y, line_at st2 si i = some y ∧ y.valid = true) ∧
        (∀ (si i : Nat) (x : cache_line_t),
          line_at ⟨[[⟨true, 1, 2⟩], [⟨false, 0, 0⟩]], 0, 2, 1, 3⟩ si i = some x →
          x.valid = false → x.tag = 0 ∧ x.lru = 0)) :=
  ⟨by decide,
   C19_misses_minus_evictions_valid_lines malloc_ok 1 1 0 [⟨'L', 0, 1⟩, ⟨'L', 2, 1⟩]
     ⟨[[⟨true, 1, 2⟩], [⟨false, 0, 0⟩]], 0, 2, 1, 3⟩ (by decide)⟩

theorem erase_take_of_mem {t : Nat} {l : List Nat} {n : Nat} (h : t ∈ l.take (n + 1)) :
    (l.take (n + 1)).erase t = (l.erase t).take n := by
  induction l generalizing n with
  | nil => simp at h
  | cons x xs ih =>
    rw [List.take_succ_cons] at h ⊢
    by_cases hx : x = t
    · subst hx
      simp
    · have hx1 : (x == t) = false := by simpa using hx
      rw [List.erase_cons_tail (by simp [hx]), List.erase_cons_tail (by simp [hx])]
      have hin : t ∈ xs.take n := by
        rcases List.mem_cons.1 h with h1 | h1
        · exact absurd h1.symm hx
        · exact h1
      cases n with
      | zero => simp at hin
      | succ n => rw [List.take_succ_cons, ih hin]

theorem take_erase_of_not_mem {t : Nat} {l : List Nat} {n : Nat} (h : t ∉ l.take n) :
    (l.erase t).take n = l.take n := by
  induction l generalizing n with
  | nil => simp
  | cons x xs ih =>
    cases n with
    | zero => simp
    | succ n =>
      rw [List.take_succ_cons] at h ⊢
      have hx : ¬ x = t := fun e => h (by rw [e]; exact List.mem_cons_self _ _)
      have hin : t ∉ xs.take n := fun e => h (List.mem_cons_of_mem _ e)
      rw [List.erase_cons_tail (by simp [hx]), List.take_succ_cons, ih hin]

theorem dropLast_eq_take_pred {l : List Nat} {E : Nat} (h1 : l.length ≤ E) (h2 : ¬ l.length < E) :
    l.dropLast = l.take (E - 1) := by
  have : l.length = E := by omega
  rw [List.dropLast_eq_take, this]

/-- One reference of the reference model at `E` and at `E + 1` lines per set:
the list at `E` stays the first `E` tags of the list at `E + 1`, a hit at `E`
is a hit at `E + 1`, and the hits and misses stay ordered. -/
theorem lru_model_ref_inclusion {E : Nat} (hE : 1 ≤ E) {m1 m2 : lru_model}
    (hi : ∀ si, m1.sets si = (m2.sets si).take E ∧ (m2.sets si).length ≤ E + 1)
    (hh : m1.hits ≤ m2.hits) (hm : m2.misses ≤ m1.misses)
    (hs : m1.hits + m1.misses = m2.hits + m2.misses) (si tag : Nat) :
    (∀ sj, (lru_model_ref E m1 si tag).sets sj = ((lru_model_ref (E + 1) m2 si tag).sets sj).take E ∧
        ((lru_model_ref (E + 1) m2 si tag).sets sj).length ≤ E + 1) ∧
      (lru_model_ref E m1 si tag).hits ≤ (lru_model_ref (E + 1) m2 si tag).hits ∧
      (lru_model_ref (E + 1) m2 si tag).misses ≤ (lru_model_ref E m1 si tag).misses ∧
      (lru_model_ref E m1 si tag).hits + (lru_model_ref E m1 si tag).misses =
        (lru_model_ref (E + 1) m2 si tag).hits + (lru_model_ref (E + 1) m2 si tag).misses := by
  obtain ⟨h1, h2⟩ := hi si
  obtain ⟨E0, rfl⟩ : ∃ E0, E = E0 + 1 := ⟨E - 1, by omega⟩
  have key : ∀ l1 l2 : List Nat, l1 = l2.take (E0 + 1) → l2.length ≤ E0 + 1 + 1 →
      ∀ sj, (Function.update m1.sets si l1) sj = ((Function.update m2.sets si l2) sj).take (E0 + 1) ∧
        ((Function.update m2.sets si l2) sj).length ≤ E0 + 1 + 1 := by
    intro l1 l2 e1 e2 sj
    by_cases hj : sj = si
    · subst hj
      rw [Function.update_same, Function.update_same]
      exact ⟨e1, e2⟩
    · rw [Function.update_noteq hj, Function.update_noteq hj]
      exact hi sj
  have hlen1 : (m1.sets si).length ≤ E0 + 1 := by
    rw [h1, List.length_take]; omega
  have htt : (m1.sets si).take E0 = (m2.sets si).take E0 := by
    rw [h1, List.take_take]
    congr 1
    omega
  unfold lru_model_ref
  by_cases hin1 : tag ∈ m1.sets si
  · have hin2 : tag ∈ m2.sets si := by
      rw [h1] at hin1
      exact List.mem_of_mem_take hin1
    simp only [if_pos hin1, if_pos hin2]
    refine ⟨key _ _ ?_ ?_, by omega, hm, by omega⟩
    · rw [List.take_succ_cons, h1, erase_take_of_mem (by rw [← h1]; exact hin1)]
    · rw [List.length_cons, List.length_erase_of_mem hin2]
      have : 0 < (m2.sets si).length := List.length_pos_of_mem hin2
      omega
  · by_cases hin2 : tag ∈ m2.sets si
    · simp only [if_neg hin1, if_pos hin2]
      have hfull : ¬ (m1.sets si).length < E0 + 1 := by
        intro hlt
        rw [h1, List.length_take] at hlt
        have hl2 : (m2.sets si).length ≤ E0 + 1 := by omega
        rw [h1, List.take_of_length_le hl2] at hin1
        exact hin1 hin2
      simp only [if_neg hfull]
      refine ⟨key _ _ ?_ ?_, by omega, by omega, by omega⟩
      · rw [List.take_succ_cons, dropLast_eq_take_pred hlen1 hfull]
        have hnot : tag ∉ (m2.sets si).take E0 := by
          intro e
          apply hin1
          rw [h1]
          exact (List.take_subset_take_left _ (by omega : E0 ≤ E0 + 1)) e
        rw [take_erase_of_not_mem hnot]
        exact congrArg _ htt
      · rw [List.length_cons, List.length_erase_of_mem hin2]
        have : 0 < (m2.sets si).length := List.length_pos_of_mem hin2
        omega
    · simp only [if_neg hin1, if_neg hin2]
      by_cases c1 : (m1.sets si).length < E0 + 1
      · by_cases c2 : (m2.sets si).length < E0 + 1 + 1
        · simp only [if_pos c1, if_pos c2]
          refine ⟨key _ _ ?_ ?_, hh, by omega, by omega⟩
          · rw [List.take_succ_cons, ← htt, List.take_of_length_le (by omega)]
          · rw [List.length_cons]; omega
        · exfalso
          rw [h1, List.length_take] at c1
          omega
      · by_cases c2 : (m2.sets si).length < E0 + 1 + 1
        · simp only [if_neg c1, if_pos c2]
          refine ⟨key _ _ ?_ ?_, hh, by omega, by omega⟩
          · rw [List.take_succ_cons, dropLast_eq_take_pred hlen1 c1]
            exact congrArg _ htt
          · rw [List.length_cons]; omega
        · simp only [if_neg c1, if_neg c2]
          refine ⟨key _ _ ?_ ?_, hh, by omega, by omega⟩
          · rw [List.take_succ_cons, dropLast_eq_take_pred hlen1 c1,
              dropLast_eq_take_pred h2 c2, List.take_take]
            simp only [Nat.add_sub_cancel, Nat.min_self]
            rw [htt]
            congr 2
            omega
          · rw [List.length_cons, List.length_dropLast]; omega

theorem lru_model_run_inclusion {s E b : Nat} (hE : 1 ≤ E) (addrs : List Nat) {m1 m2 : lru_model}
    (hi : ∀ si, m1.sets si = (m2.sets si).take E ∧ (m2.sets si).length ≤ E + 1)
    (hh : m1.hits ≤ m2.hits) (hm : m2.misses ≤ m1.misses)
    (hs : m1.hits + m1.misses = m2.hits + m2.misses) :
    (∀ si, (lru_model_run s E b m1 addrs).sets si =
          ((lru_model_run s (E + 1) b m2 addrs).sets si).take E) ∧
      (lru_model_run s E b m1 addrs).hits ≤ (lru_model_run s (E + 1) b m2 addrs).hits ∧
      (lru_model_run s (E + 1) b m2 addrs).misses ≤ (lru_model_run s E b m1 addrs).misses := by
  induction addrs generalizing m1 m2 with
  | nil => exact ⟨fun si => (hi si).1, hh, hm⟩
  | cons a as ih =>
    simp only [lru_model_run]
    obtain ⟨g1, g2, g3, g4⟩ := lru_model_ref_inclusion hE hi hh hm hs
      (a / 2 ^ b % 2 ^ s) (a / 2 ^ (s + b))
    exact ih g1 g2 g3 g4

/-- A reference is counted as a hit exactly when its tag is held by a valid
line of its set. -/
theorem access_hit_iff {s b mask : Nat} {st st1 : sim_state} {addr si tag : Nat}
    {set : List cache_line_t} (h : access s b mask st addr = some st1)
    (hd : decode s b mask addr = some (si, tag)) (hset : st.cache[si]? = some set) :
    st1.hits = incr32 st.hits ↔ tag ∈ resident_tags set := by
  obtain ⟨si1, tag1, set1, i, l, hd1, hset1, -, -, -, hcase⟩ := access_cases h
  rw [hd] at hd1
  cases hd1
  rw [hset] at hset1
  cases hset1
  rcases hcase with ⟨hh, -, -, h1, -, -⟩ | ⟨hh, -, -, h1, -, -⟩ | ⟨hh, -, -, -, h1, -, -⟩
  · refine ⟨fun _ => ?_, fun _ => h1⟩
    by_contra hc
    rw [hit_search_none_iff.2 hc] at hh
    cases hh
  · refine ⟨fun e => ?_, fun hin => absurd hh (fun e => hit_search_none_iff.1 e hin)⟩
    rw [h1] at e
    exact absurd e.symm (incr32_ne _)
  · refine ⟨fun e => ?_, fun hin => absurd hh (fun e => hit_search_none_iff.1 e hin)⟩
    rw [h1] at e
    exact absurd e.symm (incr32_ne _)

/-- C20, as amended: for `E ≥ 1`, `s + b < 64` and every trace with fewer than
`2 ^ 64 - 1` references (so that the clock does not wrap), whenever the runs
with `E` and with `E + 1` lines per set are both defined: in every set the
tags held with `E` lines are held with `E + 1` lines, and a further reference
that is a hit with `E` lines is a hit with `E + 1` lines; if the trace has
fewer than `2 ^ 32` references (so that no counter wraps), the hit count with
`E + 1` is at least the one with `E`, and the miss count with `E + 1` is at
most the one with `E`.  Both runs are defined when `E + 1 ≤ INT_MAX`,
`s ≤ 60` and every call of `malloc` returns a block. -/
theorem C20_lru_inclusion (heap1 heap2 : Nat → Bool) (s E b : Nat) (trace : List record)
    (hE : 1 ≤ E) (hsb : s + b < 64) (hlen : reference_count trace + 1 < 2 ^ 64) :
    (E + 1 ≤ INT_MAX → s ≤ 60 → (∀ k, k ≤ 2 ^ s → heap1 k = true) →
      (∀ k, k ≤ 2 ^ s → heap2 k = true) →
      ∃ st1 st2, simulate heap1 s E b trace = some st1 ∧
        simulate heap2 s (E + 1) b trace = some st2) ∧
    (∀ st1 st2, simulate heap1 s E b trace = some st1 →
      simulate heap2 s (E + 1) b trace = some st2 →
      (∀ (si : Nat) (set1 set2 : List cache_line_t), st1.cache[si]? = some set1 →
        st2.cache[si]? = some set2 → resident_tags set1 ⊆ resident_tags set2) ∧
      (∀ (addr : Nat) (n1 n2 : sim_state), access s b (2 ^ s - 1) st1 addr = some n1 →
        access s b (2 ^ s - 1) st2 addr = some n2 →
        n1.hits = incr32 st1.hits → n2.hits = incr32 st2.hits) ∧
      (reference_count trace < 2 ^ 32 → st1.hits ≤ st2.hits ∧ st2.misses ≤ st1.misses)) := by
  constructor
  · intro hEm hs hh1 hh2
    obtain ⟨st1, hst1⟩ := simulate_defined hE (by omega) hs hsb hh1 trace
    obtain ⟨st2, hst2⟩ := simulate_defined (by omega : 1 ≤ E + 1) hEm hs hsb hh2 trace
    exact ⟨st1, st2, hst1, hst2⟩
  intro st1 st2 hst1 hst2
  obtain ⟨-, -, hrun1⟩ := simulate_some hst1
  obtain ⟨-, -, hrun2⟩ := simulate_some hst2
  have hlen2 : (trace_refs trace).length + 1 < 2 ^ 64 := by
    rw [length_trace_refs]; exact hlen
  obtain ⟨hs1, hh1, hm1, -⟩ := run_refs_matches (E := E) hsb hrun1 (wf_init _ _).2
    (tags_distinct_init _ _) (state_matches_init _ _) (by simp only [init_state]; omega)
  obtain ⟨hs2, hh2, hm2, -⟩ := run_refs_matches (E := E + 1) hsb hrun2 (wf_init _ _).2
    (tags_distinct_init _ _) (state_matches_init _ _) (by simp only [init_state]; omega)
  obtain ⟨hsum1, -⟩ := lru_model_run_counts s E b (trace_refs trace) lru_model_init
  obtain ⟨hsum2, -⟩ := lru_model_run_counts s (E + 1) b (trace_refs trace) lru_model_init
  have h0 : lru_model_init.hits + lru_model_init.misses = 0 := rfl
  rw [h0, Nat.zero_add] at hsum1 hsum2
  obtain ⟨hincl, hhits, hmiss⟩ := @lru_model_run_inclusion s E b hE (trace_refs trace)
    lru_model_init lru_model_init
    (fun si => ⟨by simp [lru_model_init], Nat.zero_le _⟩) (Nat.le_refl _) (Nat.le_refl _) rfl
  have hsub : ∀ (si : Nat) (set1 set2 : List cache_line_t), st1.cache[si]? = some set1 →
      st2.cache[si]? = some set2 → resident_tags set1 ⊆ resident_tags set2 := by
    intro si set1 set2 e1 e2 t ht
    have p1 := (hs1 si set1 e1).1.1
    have p2 := (hs2 si set2 e2).1.1
    have : t ∈ (lru_model_run s E b lru_model_init (trace_refs trace)).sets si := p1.mem_iff.2 ht
    rw [hincl si] at this
    exact p2.mem_iff.1 (List.mem_of_mem_take this)
  refine ⟨hsub, ?_, ?_⟩
  · intro addr n1 n2 a1 a2 hhit
    obtain ⟨si, tag, set1, -, -, hd, hset1, -⟩ := access_cases a1
    obtain ⟨si2, tag2, set2, -, -, hd2, hset2, -⟩ := access_cases a2
    rw [hd] at hd2
    cases hd2
    exact (access_hit_iff a2 hd hset2).2 (hsub si set1 set2 hset1 hset2
      ((access_hit_iff a1 hd hset1).1 hhit))
  · intro hlt
    have hlt2 : (trace_refs trace).length < 2 ^ 32 := by
      rw [length_trace_refs]; exact hlt
    constructor
    · rw [hh1, hh2, Nat.mod_eq_of_lt (by omega), Nat.mod_eq_of_lt (by omega)]
      exact hhits
    · rw [hm1, hm2, Nat.mod_eq_of_lt (by omega), Nat.mod_eq_of_lt (by omega)]
      exact hmiss

/-- At geometry s = 0, b = 0, on the trace `L 1`, `L 2`, `L 1`, the run with
one line ends with the tag 1 resident and counters (0, 3, 2), the run with two
lines with the tags 1 and 2 resident and counters (1, 2, 0). -/
theorem C20_lru_inclusion_witness :
    simulate malloc_ok 0 1 0 [⟨'L', 1, 1⟩, ⟨'L', 2, 1⟩, ⟨'L', 1, 1⟩] =
      some ⟨[[⟨true, 1, 3⟩]], 0, 3, 2, 4⟩ ∧
    simulate malloc_ok 0 (1 + 1) 0 [⟨'L', 1, 1⟩, ⟨'L', 2, 1⟩, ⟨'L', 1, 1⟩] =
      some ⟨[[⟨true, 1, 3⟩, ⟨true, 2, 2⟩]], 1, 2, 0, 4⟩ ∧
    (∀ (si : Nat) (set1 set2 : List cache_line_t),
      (⟨[[⟨true, 1, 3⟩]], 0, 3, 2, 4⟩ : sim_state).cache[si]? = some set1 →
      (⟨[[⟨true, 1, 3⟩, ⟨true, 2, 2⟩]], 1, 2, 0, 4⟩ : sim_state).cache[si]? = some set2 →
      resident_tags set1 ⊆ resident_tags set2) ∧
    (∀ (addr : Nat) (n1 n2 : sim_state),
      access 0 0 (2 ^ 0 - 1) ⟨[[⟨true, 1, 3⟩]], 0, 3, 2, 4⟩ addr = some n1 →
      access 0 0 (2 ^ 0 - 1) ⟨[[⟨true, 1, 3⟩, ⟨true, 2, 2⟩]], 1, 2, 0, 4⟩ addr = some n2 →
      n1.hits = incr32 0 → n2.hits = incr32 1) ∧
    (reference_count [⟨'L', 1, 1⟩, ⟨'L', 2, 1⟩, ⟨'L', 1, 1⟩] < 2 ^ 32 →
      (0 : Nat) ≤ 1 ∧ (2 : Nat) ≤ 3) :=
  ⟨by decide, by decide,
   (C20_lru_inclusion malloc_ok malloc_ok 0 1 0 [⟨'L', 1, 1⟩, ⟨'L', 2, 1⟩, ⟨'L', 1, 1⟩]
      (by decide) (by decide) (by decide)).2
      ⟨[[⟨true, 1, 3⟩]], 0, 3, 2, 4⟩ ⟨[[⟨true, 1, 3⟩, ⟨true, 2, 2⟩]], 1, 2, 0, 4⟩
      (by decide) (by decide)⟩

theorem trace_refs_alternating_succ (a1 a2 n : Nat) :
    trace_refs (alternating a1 a2 (n + 1)) = a1 :: trace_refs (alternating a2 a1 n) := by
  have h : record_refs ⟨'L', a1, 1⟩ = [a1] := by simp [record_refs]
  simp only [alternating, trace_refs, h]
  rfl

/-- At geometry (0, 2, 0), with the tags 1 and 2 resident, a reference to
address 1 is a hit on the first line. -/
theorem access_hit_first (u v h m e t : Nat) :
    access 0 0 (2 ^ 0 - 1) ⟨[[⟨true, 1, u⟩, ⟨true, 2, v⟩]], h, m, e, t⟩ 1 =
      some ⟨[[⟨true, 1, t⟩, ⟨true, 2, v⟩]], incr32 h, m, e, incr64 t⟩ := by
  simp [access, decode, shr64, hit_search, store_line]

/-- At geometry (0, 2, 0), with the tags 1 and 2 resident, a reference to
address 2 is a hit on the second line. -/
theorem access_hit_second_any (u v h m e t : Nat) :
    access 0 0 (2 ^ 0 - 1) ⟨[[⟨true, 1, u⟩, ⟨true, 2, v⟩]], h, m, e, t⟩ 2 =
      some ⟨[[⟨true, 1, u⟩, ⟨true, 2, t⟩]], incr32 h, m, e, incr64 t⟩ := by
  simp [access, decode, shr64, hit_search, store_line]

/-- At geometry (0, 2, 0), with the tags 1 and 2 resident, every reference of
a run that alternates between the addresses 1 and 2 is a hit. -/
theorem run_refs_alternate_two (n : Nat) :
    ∀ u v h m e t : Nat, h < 2 ^ 32 →
      (∃ u1 v1 t1, run_refs 0 0 (2 ^ 0 - 1) ⟨[[⟨true, 1, u⟩, ⟨true, 2, v⟩]], h, m, e, t⟩
          (trace_refs (alternating 1 2 n)) =
        some ⟨[[⟨true, 1, u1⟩, ⟨true, 2, v1⟩]], (h + n) % 2 ^ 32, m, e, t1⟩) ∧
      (∃ u1 v1 t1, run_refs 0 0 (2 ^ 0 - 1) ⟨[[⟨true, 1, u⟩, ⟨true, 2, v⟩]], h, m, e, t⟩
          (trace_refs (alternating 2 1 n)) =
        some ⟨[[⟨true, 1, u1⟩, ⟨true, 2, v1⟩]], (h + n) % 2 ^ 32, m, e, t1⟩) := by
  induction n with
  | zero =>
    intro u v h m e t hh
    have h0 : (h + 0) % 2 ^ 32 = h := Nat.mod_eq_of_lt hh
    rw [h0]
    exact ⟨⟨u, v, t, rfl⟩, ⟨u, v, t, rfl⟩⟩
  | succ n ih =>
    intro u v h m e t _
    have hmod : (incr32 h + n) % 2 ^ 32 = (h + (n + 1)) % 2 ^ 32 := by
      unfold incr32; omega
    have hlt : incr32 h < 2 ^ 32 := Nat.mod_lt _ (by norm_num)
    constructor
    · rw [trace_refs_alternating_succ, run_refs, access_hit_first]
      simp only
      obtain ⟨u1, v1, t1, hr⟩ := (ih t v (incr32 h) m e (incr64 t) hlt).2
      exact ⟨u1, v1, t1, by rw [hr, hmod]⟩
    · rw [trace_refs_alternating_succ, run_refs, access_hit_second_any]
      simp only
      obtain ⟨u1, v1, t1, hr⟩ := (ih u t (incr32 h) m e (incr64 t) hlt).1
      exact ⟨u1, v1, t1, by rw [hr, hmod]⟩

/-- With two lines per set, at geometry (0, 2, 0), a run that alternates
between the addresses 1 and 2 has two misses, no eviction, and hits on all
other references. -/
theorem simulate_alternate_two (n : Nat) :
    ∃ st, simulate malloc_ok 0 2 0 (alternating 1 2 (n + 1 + 1)) = some st ∧
      st.hits = n % 2 ^ 32 ∧ st.misses = 2 ∧ st.evictions = 0 := by
  rw [simulate_eq (by norm_num) (allocate_malloc_ok (by norm_num) (by decide)), trace_refs_alternating_succ, trace_refs_alternating_succ]
  have h2 : run_refs 0 0 (2 ^ 0 - 1) (init_state (2 ^ 0) 2) [1, 2] =
      some ⟨[[⟨true, 1, 1⟩, ⟨true, 2, 2⟩]], 0, 2, 0, 3⟩ := by decide
  have happ := run_refs_append 0 0 (2 ^ 0 - 1) (init_state (2 ^ 0) 2) [1, 2]
    (trace_refs (alternating 1 2 n))
  rw [h2] at happ
  simp only [List.cons_append, List.nil_append, Option.bind] at happ
  rw [happ]
  obtain ⟨u1, v1, t1, hr⟩ := (run_refs_alternate_two n 1 2 0 2 0 3 (by norm_num)).1
  exact ⟨_, hr, by simp only [Nat.zero_add], rfl, rfl⟩

/-- C20 fails as stated: at geometry s = 0, b = 0, on the trace of `2 ^ 32`
loads that alternate between the addresses 1 and 2, the run with one line per
set ends with the miss counter wrapped to 0, and the run with two lines per
set ends with 2 misses: the final miss count is greater with the greater
associativity. -/
theorem C20_counterexample :
    ∃ st1 st2, simulate malloc_ok 0 1 0 (alternating 1 2 (2 ^ 32)) = some st1 ∧
      simulate malloc_ok 0 (1 + 1) 0 (alternating 1 2 (2 ^ 32)) = some st2 ∧
      st1.misses = 0 ∧ st2.misses = 2 ∧ ¬ st2.misses ≤ st1.misses := by
  have hlen : (alternating 1 2 (2 ^ 32)).length = 2 ^ 32 := length_alternating 1 2 (2 ^ 32)
  have hnil : alternating 1 2 (2 ^ 32) ≠ [] := by
    intro h
    rw [h] at hlen
    simp at hlen
  obtain ⟨st1, hst1, -, hm1, -⟩ :=
    simulate_thrash malloc_ok 0 0 0 1 2 1 2
      (by decide) (by decide) (by decide) (alternates_alternating 1 2 (2 ^ 32)) hnil
      (by decide) (fun _ _ => rfl)
  rw [hlen] at hm1
  have hm0 : st1.misses = 0 := by rw [hm1]; norm_num
  obtain ⟨st2, hst2, -, hm2, -⟩ := simulate_alternate_two (2 ^ 32 - 2)
  have e : 2 ^ 32 - 2 + 1 + 1 = 2 ^ 32 := by norm_num
  rw [e] at hst2
  exact ⟨st1, st2, hst1, hst2, hm0, hm2, by rw [hm0, hm2]; decide⟩

theorem bind_ok {α β : Type} (v : α) (f : α → Except fault β) :
    (Except.ok v >>= f) = f v := rfl

theorem bind_error {α β : Type} (e : fault) (f : α → Except fault β) :
    ((Except.error e : Except fault α) >>= f) = Except.error e := rfl

theorem read_A_ok {M N : Nat} (m : matrices) {i j : Nat} (hi : i < N) (hj : j < M) :
    read_A M N m i j = Except.ok (m.A i j) := by
  simp [read_A, hi, hj]

theorem read_B_ok {M N : Nat} (m : matrices) {j i : Nat} (hj : j < M) (hi : i < N) :
    read_B M N m j i = Except.ok (m.B j i) := by
  simp [read_B, hi, hj]

theorem write_B_ok {M N : Nat} (m : matrices) {j i : Nat} (hj : j < M) (hi : i < N) (v : Int) :
    write_B M N m j i v =
      Except.ok { m with B := fun r c => if r = j ∧ c = i then v else m.B r c } := by
  simp [write_B, hi, hj]

theorem add_int_ok {a b : Nat} (h : a + b ≤ INT_MAX) : add_int a b = Except.ok (a + b) := by
  simp [add_int, h]

/-- The loop over `jj`: the entries `A[ii][r]` of the scanned columns `r` go to
`B[r][ii]`, except for `r = ii`, which is saved in `tmp` with `diag = ii`. -/
theorem scan_cols_spec {M N ii : Nat} (hii : ii < N) (k : Nat) :
    ∀ (jj : Nat) (m : matrices) (diag tmp : Int), jj + k ≤ M →
      ∃ m1 diag1 tmp1, scan_cols M N ii k jj m diag tmp = Except.ok (m1, diag1, tmp1) ∧
        m1.A = m.A ∧
        (∀ r c, m1.B r c =
          if c = ii ∧ jj ≤ r ∧ r < jj + k ∧ r ≠ ii then m.A ii r else m.B r c) ∧
        ((jj ≤ ii ∧ ii < jj + k) → diag1 = (ii : Int) ∧ tmp1 = m.A ii ii) ∧
        (¬ (jj ≤ ii ∧ ii < jj + k) → diag1 = diag ∧ tmp1 = tmp) := by
  induction k with
  | zero =>
    intro jj m diag tmp _
    refine ⟨m, diag, tmp, rfl, rfl, ?_, ?_, ?_⟩
    · intro r c
      rw [if_neg (by omega)]
    · intro h; omega
    · intro _; exact ⟨rfl, rfl⟩
  | succ k ih =>
    intro jj m diag tmp hk
    have hjj : jj < M := by omega
    by_cases he : ii = jj
    · obtain ⟨m1, diag1, tmp1, h1, hA, hB, hd1, hd2⟩ :=
        ih (jj + 1) m (ii : Int) (m.A ii jj) (by omega)
      refine ⟨m1, diag1, tmp1, ?_, hA, ?_, ?_, ?_⟩
      · rw [scan_cols, if_pos he, read_A_ok m hii hjj, bind_ok]
        exact h1
      · intro r c
        rw [hB r c]
        by_cases hc : c = ii ∧ jj + 1 ≤ r ∧ r < jj + 1 + k ∧ r ≠ ii
        · rw [if_pos hc, if_pos ⟨hc.1, by omega, by omega, hc.2.2.2⟩]
        · rw [if_neg hc, if_neg (by intro h; exact hc ⟨h.1, by omega, by omega, h.2.2.2⟩)]
      · intro _
        have := hd2 (by omega)
        rw [this.1, this.2, he]
        exact ⟨rfl, rfl⟩
      · intro h
        omega
    · have hw := write_B_ok (N := N) m hjj hii (m.A ii jj)
      obtain ⟨m1, diag1, tmp1, h1, hA, hB, hd1, hd2⟩ :=
        ih (jj + 1) { m with B := fun r c => if r = jj ∧ c = ii then m.A ii jj else m.B r c }
          diag tmp (by omega)
      refine ⟨m1, diag1, tmp1, ?_, hA, ?_, ?_, ?_⟩
      · rw [scan_cols, if_neg he, read_A_ok m hii hjj, bind_ok, hw, bind_ok]
        exact h1
      · intro r c
        rw [hB r c]
        by_cases hc : c = ii ∧ jj + 1 ≤ r ∧ r < jj + 1 + k ∧ r ≠ ii
        · rw [if_pos hc, if_pos ⟨hc.1, by omega, by omega, hc.2.2.2⟩]
        · rw [if_neg hc]
          by_cases hr : r = jj ∧ c = ii
          · simp only [hr, and_self, if_true]
            rw [if_pos ⟨trivial, Nat.le_refl _, by omega, fun e => he e.symm⟩]
          · simp only [hr, if_false]
            rw [if_neg]
            intro h
            by_cases hrj : r = jj
            · exact hr ⟨hrj, h.1⟩
            · exact hc ⟨h.1, by omega, by omega, h.2.2.2⟩
      · intro h
        exact hd1 ⟨by omega, by omega⟩
      · intro h
        exact hd2 (by omega)

/-- One iteration of the loop over `ii`, started with `diag = -1`: row `ii`
of `A`, columns `j, ..., j_max - 1`, goes to column `ii` of `B`, and `diag`
is `-1` again. -/
theorem scan_row_spec {M N j j_max ii : Nat} (hii : ii < N) (hj : j ≤ j_max) (hM : j_max ≤ M)
    (m : matrices) (tmp : Int) :
    ∃ m1 tmp1,
      (do
        let r ← scan_cols M N ii (j_max - j) j m (-1) tmp
        if r.2.1 ≠ -1 then do
          let m2 ← write_B M N r.1 r.2.1.toNat r.2.1.toNat r.2.2
          pure (m2, (-1 : Int), r.2.2)
        else
          pure (r.1, r.2.1, r.2.2) : Except fault (matrices × Int × Int)) =
        Except.ok (m1, -1, tmp1) ∧
      m1.A = m.A ∧
      ∀ r c, m1.B r c = if c = ii ∧ j ≤ r ∧ r < j_max then m.A ii r else m.B r c := by
  obtain ⟨m1, diag1, tmp1, h1, hA, hB, hd1, hd2⟩ :=
    scan_cols_spec (M := M) hii (j_max - j) j m (-1) tmp (by omega)
  rw [h1, bind_ok]
  by_cases hin : j ≤ ii ∧ ii < j + (j_max - j)
  · obtain ⟨e1, e2⟩ := hd1 hin
    have hne : diag1 ≠ -1 := by rw [e1]; omega
    have htn : diag1.toNat = ii := by rw [e1]; exact Int.toNat_natCast ii
    simp only [hne, ne_eq, not_false_eq_true, if_true]
    rw [htn, write_B_ok m1 (by omega) hii, bind_ok]
    refine ⟨_, tmp1, rfl, hA, ?_⟩
    intro r c
    show (if r = ii ∧ c = ii then tmp1 else m1.B r c) = _
    by_cases hrc : r = ii ∧ c = ii
    · rw [if_pos hrc, if_pos ⟨hrc.2, by omega, by omega⟩, e2, hrc.1]
    · rw [if_neg hrc, hB r c]
      by_cases hc : c = ii ∧ j ≤ r ∧ r < j_max
      · rw [if_pos hc, if_pos ⟨hc.1, hc.2.1, by omega, fun e => hrc ⟨e, hc.1⟩⟩]
      · rw [if_neg hc, if_neg (fun h => hc ⟨h.1, h.2.1, by omega⟩)]
  · obtain ⟨e1, e2⟩ := hd2 hin
    subst e1
    simp only [ne_eq, not_true_eq_false, if_false]
    refine ⟨m1, tmp1, rfl, hA, ?_⟩
    intro r c
    rw [hB r c]
    by_cases hc : c = ii ∧ j ≤ r ∧ r < j_max
    · rw [if_pos hc, if_pos ⟨hc.1, hc.2.1, by omega, fun e => hin ⟨by omega, by omega⟩⟩]
    · rw [if_neg hc, if_neg (fun h => hc ⟨h.1, h.2.1, by omega⟩)]

theorem scan_rows_succ (M N j j_max k ii : Nat) (m : matrices) (diag tmp : Int) :
    scan_rows M N j j_max (k + 1) ii m diag tmp =
      (do
        let r ← scan_cols M N ii (j_max - j) j m diag tmp
        if r.2.1 ≠ -1 then do
          let m2 ← write_B M N r.1 r.2.1.toNat r.2.1.toNat r.2.2
          pure (m2, (-1 : Int), r.2.2)
        else
          pure (r.1, r.2.1, r.2.2) : Except fault (matrices × Int × Int)) >>=
        fun r => scan_rows M N j j_max k (ii + 1) r.1 r.2.1 r.2.2 := by
  rw [scan_rows]
  cases scan_cols M N ii (j_max - j) j m diag tmp with
  | error e => rfl
  | ok r =>
    rw [bind_ok, bind_ok]
    by_cases hd : r.2.1 ≠ -1
    · rw [if_pos hd, if_pos hd]
      cases write_B M N r.1 r.2.1.toNat r.2.1.toNat r.2.2 with
      | error e => rfl
      | ok mw => rfl
    · rw [if_neg hd, if_neg hd]
      rfl

/-- The loop over `ii`, started with `diag = -1`: the block of the rows
`ii, ..., ii + k - 1` and the columns `j, ..., j_max - 1` of `A` goes to `B`
transposed, everything else in `B` is left as it was, and `A` is not
written. -/
theorem scan_rows_spec {M N j j_max : Nat} (hj : j ≤ j_max) (hM : j_max ≤ M) (k : Nat) :
    ∀ (ii : Nat) (m : matrices) (tmp : Int), ii + k ≤ N →
      ∃ m1 tmp1, scan_rows M N j j_max k ii m (-1) tmp = Except.ok (m1, -1, tmp1) ∧
        m1.A = m.A ∧
        ∀ r c, m1.B r c =
          if ii ≤ c ∧ c < ii + k ∧ j ≤ r ∧ r < j_max then m.A c r else m.B r c := by
  induction k with
  | zero =>
    intro ii m tmp _
    refine ⟨m, tmp, rfl, rfl, ?_⟩
    intro r c
    rw [if_neg (by omega)]
  | succ k ih =>
    intro ii m tmp hk
    obtain ⟨m1, tmp1, h1, hA1, hB1⟩ := scan_row_spec (by omega : ii < N) hj hM m tmp
    obtain ⟨m2, tmp2, h2, hA2, hB2⟩ := ih (ii + 1) m1 tmp1 (by omega)
    refine ⟨m2, tmp2, ?_, by rw [hA2, hA1], ?_⟩
    · rw [scan_rows_succ, h1, bind_ok]
      exact h2
    · intro r c
      rw [hB2 r c, hA1, hB1 r c]
      by_cases hc : ii + 1 ≤ c ∧ c < ii + 1 + k ∧ j ≤ r ∧ r < j_max
      · rw [if_pos hc, if_pos ⟨by omega, by omega, hc.2.2⟩]
      · rw [if_neg hc]
        by_cases hc2 : c = ii ∧ j ≤ r ∧ r < j_max
        · rw [if_pos hc2, if_pos ⟨by omega, by omega, hc2.2⟩, hc2.1]
        · rw [if_neg hc2, if_neg]
          intro h
          by_cases hci : c = ii
          · exact hc2 ⟨hci, h.2.2⟩
          · exact hc ⟨by omega, by omega, h.2.2⟩

/-- A loop `for (x = ...; x < bound; x += step)` whose body keeps an invariant
returns, with the invariant at a value of the loop variable that fails the
loop condition, when `x + step` never exceeds `INT_MAX` and `fuel` is at least
`bound - x`. -/
theorem block_loop_spec {bound step : Nat} (hstep : 1 ≤ step)
    (hb : bound + step ≤ INT_MAX + 1) (body : Nat → matrices → Except fault matrices)
    (I : Nat → matrices → Prop)
    (hbody : ∀ x m, x < bound → I x m → ∃ m1, body x m = Except.ok m1 ∧ I (x + step) m1)
    (fuel : Nat) :
    ∀ (x : Nat) (m : matrices), bound ≤ x + fuel → I x m →
      ∃ m1 x1, block_loop bound step body fuel x m = Except.ok m1 ∧ bound ≤ x1 ∧ I x1 m1 := by
  induction fuel with
  | zero =>
    intro x m hx hI
    refine ⟨m, x, ?_, by omega, hI⟩
    rw [block_loop, if_neg (by omega)]
  | succ fuel ih =>
    intro x m hx hI
    by_cases hlt : x < bound
    · obtain ⟨m1, h1, hI1⟩ := hbody x m hlt hI
      obtain ⟨m2, x2, h2, hx2, hI2⟩ := ih (x + step) m1 (by omega) hI1
      refine ⟨m2, x2, ?_, hx2, hI2⟩
      rw [block_loop, if_pos hlt, h1, bind_ok, add_int_ok (by omega), bind_ok]
      exact h2
    · refine ⟨m, x, ?_, by omega, hI⟩
      rw [block_loop, if_neg hlt]

/-- The loop over the blocks of `bs` columns of `A`, for the rows
`i, ..., i + bs - 1` of `A`: when the body transposes one block, the loop
transposes these rows. -/
theorem blocked_cols {M N bs : Nat} (hbs : 1 ≤ bs) (hM : M + bs ≤ INT_MAX + 1)
    (body : Nat → matrices → Except fault matrices) (i : Nat)
    (hblock : ∀ j m, j < M → j % bs = 0 →
      ∃ m1, body j m = Except.ok m1 ∧ m1.A = m.A ∧
        ∀ r c, m1.B r c =
          if i ≤ c ∧ c < i + bs ∧ c < N ∧ j ≤ r ∧ r < j + bs ∧ r < M then m.A c r
          else m.B r c)
    (mi : matrices) :
    ∃ m1, block_loop M bs body M 0 mi = Except.ok m1 ∧ m1.A = mi.A ∧
      ∀ r c, m1.B r c =
        if i ≤ c ∧ c < i + bs ∧ c < N ∧ r < M then mi.A c r else mi.B r c := by
  obtain ⟨m1, x1, h1, hx1, -, hA, hB⟩ := block_loop_spec hbs hM body
    (fun j mj => j % bs = 0 ∧ mj.A = mi.A ∧ ∀ r c, mj.B r c =
      if i ≤ c ∧ c < i + bs ∧ c < N ∧ r < j ∧ r < M then mi.A c r else mi.B r c)
    (by
      intro j mj hj ⟨hj0, hA, hB⟩
      obtain ⟨m1, h1, hA1, hB1⟩ := hblock j mj hj hj0
      refine ⟨m1, h1, by rw [Nat.add_mod_right]; exact hj0, by rw [hA1, hA], ?_⟩
      intro r c
      rw [hB1 r c, hA, hB r c]
      by_cases hc : i ≤ c ∧ c < i + bs ∧ c < N ∧ j ≤ r ∧ r < j + bs ∧ r < M
      · rw [if_pos hc, if_pos ⟨hc.1, hc.2.1, hc.2.2.1, by omega, by omega⟩]
      · rw [if_neg hc]
        by_cases hc2 : i ≤ c ∧ c < i + bs ∧ c < N ∧ r < j ∧ r < M
        · rw [if_pos hc2, if_pos ⟨hc2.1, hc2.2.1, hc2.2.2.1, by omega, by omega⟩]
        · rw [if_neg hc2, if_neg]
          intro h
          by_cases hrj : r < j
          · exact hc2 ⟨h.1, h.2.1, h.2.2.1, hrj, h.2.2.2.2⟩
          · exact hc ⟨h.1, h.2.1, h.2.2.1, by omega, by omega, h.2.2.2.2⟩)
    M 0 mi (by omega)
    ⟨Nat.zero_mod _, rfl, fun r c => by rw [if_neg (by omega)]⟩
  refine ⟨m1, h1, hA, ?_⟩
  intro r c
  rw [hB r c]
  by_cases hc : i ≤ c ∧ c < i + bs ∧ c < N ∧ r < M
  · rw [if_pos hc, if_pos ⟨hc.1, hc.2.1, hc.2.2.1, by omega, hc.2.2.2⟩]
  · rw [if_neg hc, if_neg (fun h => hc ⟨h.1, h.2.1, h.2.2.1, h.2.2.2.2⟩)]

/-- Two nested loops over blocks of `bs` rows and `bs` columns, whose body
transposes one block of `A` into `B`, transpose `A` into `B`. -/
theorem blocked_transpose {M N bs : Nat} (hbs : 1 ≤ bs) (hN : N + bs ≤ INT_MAX + 1)
    (hM : M + bs ≤ INT_MAX + 1) (body : Nat → Nat → matrices → Except fault matrices)
    (hblock : ∀ i j m, i < N → j < M → i % bs = 0 → j % bs = 0 →
      ∃ m1, body i j m = Except.ok m1 ∧ m1.A = m.A ∧
        ∀ r c, m1.B r c =
          if i ≤ c ∧ c < i + bs ∧ c < N ∧ j ≤ r ∧ r < j + bs ∧ r < M then m.A c r
          else m.B r c)
    (m : matrices) :
    ∃ m1, block_loop N bs (fun i mi => block_loop M bs (fun j mj => body i j mj) M 0 mi)
        N 0 m = Except.ok m1 ∧ m1.A = m.A ∧
      ∀ r c, m1.B r c = if r < M ∧ c < N then m.A c r else m.B r c := by
  have inner : ∀ i mi, i < N → i % bs = 0 →
      ∃ m1, block_loop M bs (fun j mj => body i j mj) M 0 mi = Except.ok m1 ∧ m1.A = mi.A ∧
        ∀ r c, m1.B r c =
          if i ≤ c ∧ c < i + bs ∧ c < N ∧ r < M then mi.A c r else mi.B r c :=
    fun i mi hi hi0 => blocked_cols hbs hM (fun j mj => body i j mj) i
      (fun j mj hj hj0 => hblock i j mj hi hj hi0 hj0) mi
  obtain ⟨m1, x1, h1, hx1, -, hA, hB⟩ := block_loop_spec hbs hN
    (fun i mi => block_loop M bs (fun j mj => body i j mj) M 0 mi)
    (fun i mi => i % bs = 0 ∧ mi.A = m.A ∧ ∀ r c, mi.B r c =
      if c < i ∧ c < N ∧ r < M then m.A c r else m.B r c)
    (by
      intro i mi hi ⟨hi0, hA, hB⟩
      obtain ⟨m1, h1, hA1, hB1⟩ := inner i mi hi hi0
      refine ⟨m1, h1, by rw [Nat.add_mod_right]; exact hi0, by rw [hA1, hA], ?_⟩
      intro r c
      rw [hB1 r c, hA, hB r c]
      by_cases hc : i ≤ c ∧ c < i + bs ∧ c < N ∧ r < M
      · rw [if_pos hc, if_pos ⟨by omega, hc.2.2.1, hc.2.2.2⟩]
      · rw [if_neg hc]
        by_cases hc2 : c < i ∧ c < N ∧ r < M
        · rw [if_pos hc2, if_pos ⟨by omega, hc2.2.1, hc2.2.2⟩]
        · rw [if_neg hc2, if_neg]
          intro h
          by_cases hci : c < i
          · exact hc2 ⟨hci, h.2.1, h.2.2⟩
          · exact hc ⟨by omega, by omega, h.2.1, h.2.2⟩)
    N 0 m (by omega)
    ⟨Nat.zero_mod _, rfl, fun r c => by rw [if_neg (by omega)]⟩
  refine ⟨m1, h1, hA, ?_⟩
  intro r c
  rw [hB r c]
  by_cases hc : r < M ∧ c < N
  · rw [if_pos hc, if_pos ⟨by omega, hc.2, hc.1⟩]
  · rw [if_neg hc, if_neg (fun h => hc ⟨h.2.2, h.2.1⟩)]

theorem INT_MAX_eq : INT_MAX = 2147483647 := by decide

/-- One block of the fallback of `transpose_submit`. -/
theorem fallback_block {M N i j : Nat} (hi : i < N) (hj : j < M) (hi1 : i + 16 ≤ INT_MAX)
    (hj1 : j + 16 ≤ INT_MAX) (mj : matrices) :
    ∃ m1, (do
        let ib ← add_int i 16
        let i_max := if ib > N then N else ib
        let jb ← add_int j 16
        let j_max := if jb > M then M else jb
        let r ← scan_rows M N j j_max (i_max - i) i mj (-1) 0
        pure r.1 : Except fault matrices) = Except.ok m1 ∧ m1.A = mj.A ∧
      ∀ r c, m1.B r c =
        if i ≤ c ∧ c < i + 16 ∧ c < N ∧ j ≤ r ∧ r < j + 16 ∧ r < M then mj.A c r
        else mj.B r c := by
  rw [add_int_ok hi1, bind_ok, add_int_ok hj1, bind_ok]
  simp only []
  obtain ⟨m1, tmp1, h1, hA, hB⟩ :=
    @scan_rows_spec M N j (if j + 16 > M then M else j + 16)
      (by split <;> omega) (by split <;> omega)
      ((if i + 16 > N then N else i + 16) - i) i mj 0 (by split <;> omega)
  rw [h1, bind_ok]
  refine ⟨m1, rfl, hA, ?_⟩
  intro r c
  rw [hB r c]
  by_cases hc : i ≤ c ∧ c < i + 16 ∧ c < N ∧ j ≤ r ∧ r < j + 16 ∧ r < M
  · rw [if_pos hc, if_pos]
    refine ⟨hc.1, ?_, hc.2.2.2.1, ?_⟩
    · split <;> omega
    · split <;> omega
  · rw [if_neg hc, if_neg]
    intro h
    apply hc
    obtain ⟨h1, h2, h3, h4⟩ := h
    refine ⟨h1, ?_, ?_, h3, ?_, ?_⟩
    · split at h2 <;> omega
    · split at h2 <;> omega
    · split at h4 <;> omega
    · split at h4 <;> omega

/-- The fallback of `transpose_submit` on dimensions up to `2 ^ 31 - 16`. -/
theorem submit_fallback_spec {M N : Nat} (hM : M ≤ 2 ^ 31 - 16) (hN : N ≤ 2 ^ 31 - 16)
    (m : matrices) :
    ∃ m1, submit_fallback M N m = Except.ok m1 ∧ m1.A = m.A ∧
      ∀ r c, m1.B r c = if r < M ∧ c < N then m.A c r else m.B r c := by
  have hI := INT_MAX_eq
  unfold submit_fallback
  exact @blocked_transpose M N 16 (by norm_num) (by omega) (by omega)
    (fun i j mj => do
      let ib ← add_int i 16
      let i_max := if ib > N then N else ib
      let jb ← add_int j 16
      let j_max := if jb > M then M else jb
      let r ← scan_rows M N j j_max (i_max - i) i mj (-1) 0
      pure r.1)
    (fun i j mj hi hj _ _ => fallback_block hi hj (by omega) (by omega) mj) m

/-- The fallback of `transpose_submit` on one column and `2 ^ 31 - 15` rows:
the loop over `i` reaches `i = 2 ^ 31 - 16`, where `i + block` does not fit
the type `int`. -/
theorem fallback_rows_overflow (fuel : Nat) :
    ∀ (x : Nat) (m : matrices), x % 16 = 0 → x ≤ 2 ^ 31 - 16 → (2 ^ 31 - 16 - x) / 16 < fuel →
      block_loop (2 ^ 31 - 15) 16 (fun i mi =>
        block_loop 1 16 (fun j mj => do
          let ib ← add_int i 16
          let i_max := if ib > 2 ^ 31 - 15 then 2 ^ 31 - 15 else ib
          let jb ← add_int j 16
          let j_max := if jb > 1 then 1 else jb
          let r ← scan_rows 1 (2 ^ 31 - 15) j j_max (i_max - i) i mj (-1) 0
          pure r.1) 1 0 mi) fuel x m = Except.error fault.overflow := by
  have hI := INT_MAX_eq
  induction fuel with
  | zero =>
    intro x m _ _ hf
    omega
  | succ fuel ih =>
    intro x m hx0 hx hf
    rw [block_loop, if_pos (by omega)]
    by_cases hlast : x = 2 ^ 31 - 16
    · have hov : add_int x 16 = Except.error fault.overflow := by
        rw [add_int, if_neg (by omega)]
      rw [block_loop, if_pos (by omega), hov]
      rfl
    · obtain ⟨m1, h1, -⟩ := @blocked_cols 1 (2 ^ 31 - 15) 16 (by norm_num) (by omega)
        (fun j mj => do
          let ib ← add_int x 16
          let i_max := if ib > 2 ^ 31 - 15 then 2 ^ 31 - 15 else ib
          let jb ← add_int j 16
          let j_max := if jb > 1 then 1 else jb
          let r ← scan_rows 1 (2 ^ 31 - 15) j j_max (i_max - x) x mj (-1) 0
          pure r.1) x
        (fun j mj hj _ => fallback_block (by omega) hj (by omega) (by omega) mj) m
      rw [h1, bind_ok, add_int_ok (by omega), bind_ok]
      exact ih (x + 16) m1 (by omega) (by omega) (by omega)

/-- The branch for 32 x 32 of `transpose_submit`. -/
theorem submit_32_spec (m : matrices) :
    ∃ m1, submit_32 32 32 m = Except.ok m1 ∧ m1.A = m.A ∧
      ∀ r c, m1.B r c = if r < 32 ∧ c < 32 then m.A c r else m.B r c := by
  have hI := INT_MAX_eq
  unfold submit_32
  refine @blocked_transpose 32 32 8 (by norm_num) (by omega) (by omega)
    (fun i j mj => do
      let ib ← add_int i 8
      let jb ← add_int j 8
      let r ← scan_rows 32 32 j jb (ib - i) i mj (-1) 0
      pure r.1) ?_ m
  intro i j mj hi hj hi0 hj0
  simp only []
  rw [add_int_ok (by omega), bind_ok, add_int_ok (by omega), bind_ok]
  obtain ⟨m1, tmp1, h1, hA, hB⟩ :=
    @scan_rows_spec 32 32 j (j + 8) (by omega) (by omega) (i + 8 - i) i mj 0 (by omega)
  rw [h1, bind_ok]
  refine ⟨m1, rfl, hA, ?_⟩
  intro r c
  rw [hB r c]
  by_cases hc : i ≤ c ∧ c < i + 8 ∧ c < 32 ∧ j ≤ r ∧ r < j + 8 ∧ r < 32
  · rw [if_pos hc, if_pos ⟨hc.1, by omega, hc.2.2.2.1, hc.2.2.2.2.1⟩]
  · rw [if_neg hc, if_neg]
    intro h
    exact hc ⟨h.1, by omega, by omega, h.2.2.1, h.2.2.2, by omega⟩

/-- One iteration of step 1: row `ii` of `A`, columns `j, ..., j + 7`, goes
to the columns `ii` and `ii + 4` of the rows `j, ..., j + 3` of `B`. -/
theorem step1_iter {M N j ii : Nat} (hj : j + 8 ≤ M) (hii : ii + 4 < N) (k : Nat)
    (m : matrices) :
    step1 M N j (k + 1) ii m = step1 M N j k (ii + 1)
      { m with B := fun r c =>
        if c = ii ∧ j ≤ r ∧ r < j + 4 then m.A ii r
        else if c = ii + 4 ∧ j ≤ r ∧ r < j + 4 then m.A ii (r + 4)
        else m.B r c } := by
  rw [step1,
    @read_A_ok M N m ii (j + 0) (by omega) (by omega), bind_ok,
    @read_A_ok M N m ii (j + 1) (by omega) (by omega), bind_ok,
    @read_A_ok M N m ii (j + 2) (by omega) (by omega), bind_ok,
    @read_A_ok M N m ii (j + 3) (by omega) (by omega), bind_ok,
    @read_A_ok M N m ii (j + 4) (by omega) (by omega), bind_ok,
    @read_A_ok M N m ii (j + 5) (by omega) (by omega), bind_ok,
    @read_A_ok M N m ii (j + 6) (by omega) (by omega), bind_ok,
    @read_A_ok M N m ii (j + 7) (by omega) (by omega), bind_ok,
    @write_B_ok M N _ (j + 0) ii (by omega) (by omega), bind_ok,
    @write_B_ok M N _ (j + 1) ii (by omega) (by omega), bind_ok,
    @write_B_ok M N _ (j + 2) ii (by omega) (by omega), bind_ok,
    @write_B_ok M N _ (j + 3) ii (by omega) (by omega), bind_ok,
    @write_B_ok M N _ (j + 0) (ii + 4) (by omega) (by omega), bind_ok,
    @write_B_ok M N _ (j + 1) (ii + 4) (by omega) (by omega), bind_ok,
    @write_B_ok M N _ (j + 2) (ii + 4) (by omega) (by omega), bind_ok,
    @write_B_ok M N _ (j + 3) (ii + 4) (by omega) (by omega), bind_ok]
  refine congrArg _ (congrArg (matrices.mk m.A) ?_)
  funext r c
  simp only [Nat.add_zero]
  by_cases h1 : c = ii ∧ j ≤ r ∧ r < j + 4
  · rw [if_pos h1]
    obtain ⟨rfl, h2, h3⟩ := h1
    obtain rfl | rfl | rfl | rfl : r = j ∨ r = j + 1 ∨ r = j + 2 ∨ r = j + 3 := by omega
    all_goals simp
  · rw [if_neg h1]
    by_cases h2 : c = ii + 4 ∧ j ≤ r ∧ r < j + 4
    · rw [if_pos h2]
      obtain ⟨rfl, h2, h3⟩ := h2
      obtain rfl | rfl | rfl | rfl : r = j ∨ r = j + 1 ∨ r = j + 2 ∨ r = j + 3 := by omega
      all_goals simp
    · rw [if_neg h2]
      iterate 8 rw [if_neg (by omega)]

/-- Step 1 over `k` rows of `A`. -/
theorem step1_spec {M N j : Nat} (hj : j + 8 ≤ M) (k : Nat) :
    ∀ (ii : Nat) (m : matrices), ii + 4 + k ≤ N →
      ∃ m1, step1 M N j k ii m = Except.ok m1 ∧ m1.A = m.A ∧
        ∀ r c, m1.B r c =
          if ii ≤ c ∧ c < ii + k ∧ j ≤ r ∧ r < j + 4 then m.A c r
          else if ii + 4 ≤ c ∧ c < ii + 4 + k ∧ j ≤ r ∧ r < j + 4 then m.A (c - 4) (r + 4)
          else m.B r c := by
  induction k with
  | zero =>
    intro ii m _
    refine ⟨m, rfl, rfl, ?_⟩
    intro r c
    rw [if_neg (by omega), if_neg (by omega)]
  | succ k ih =>
    intro ii m hk
    rw [step1_iter hj (by omega)]
    obtain ⟨m1, h1, hA, hB⟩ := ih (ii + 1) _ (by omega)
    refine ⟨m1, h1, hA, ?_⟩
    intro r c
    rw [hB r c]
    simp only []
    by_cases a : ii + 1 ≤ c ∧ c < ii + 1 + k ∧ j ≤ r ∧ r < j + 4
    · rw [if_pos a, if_pos (by omega)]
    · rw [if_neg a]
      by_cases b : ii + 1 + 4 ≤ c ∧ c < ii + 1 + 4 + k ∧ j ≤ r ∧ r < j + 4
      · rw [if_pos b, if_neg (by omega), if_pos (by omega)]
      · rw [if_neg b]
        by_cases c1 : c = ii ∧ j ≤ r ∧ r < j + 4
        · rw [if_pos c1, if_pos (by omega), c1.1]
        · rw [if_neg c1]
          by_cases c2 : c = ii + 4 ∧ j ≤ r ∧ r < j + 4
          · have e : c - 4 = ii := by omega
            rw [if_pos c2, if_neg (by omega), if_pos (by omega), e]
          · rw [if_neg c2, if_neg (by omega), if_neg (by omega)]

/-- One iteration of step 2: the four entries stashed in row `jj` of `B`
move to row `jj + 4`, and their places take column `jj` of the rows
`i + 4, ..., i + 7` of `A`. -/
theorem step2_iter {M N i jj : Nat} (hi : i + 8 ≤ N) (hjj : jj + 4 < M) (k : Nat)
    (m : matrices) :
    step2 M N i (k + 1) jj m = step2 M N i k (jj + 1)
      { m with B := fun r c =>
        if r = jj ∧ i + 4 ≤ c ∧ c < i + 8 then m.A c jj
        else if r = jj + 4 ∧ i ≤ c ∧ c < i + 4 then m.B jj (c + 4)
        else m.B r c } := by
  rw [step2,
    @read_B_ok M N m jj (i + 4) (by omega) (by omega), bind_ok,
    @read_B_ok M N m jj (i + 5) (by omega) (by omega), bind_ok,
    @read_B_ok M N m jj (i + 6) (by omega) (by omega), bind_ok,
    @read_B_ok M N m jj (i + 7) (by omega) (by omega), bind_ok,
    @read_A_ok M N m (i + 4) jj (by omega) (by omega), bind_ok,
    @read_A_ok M N m (i + 5) jj (by omega) (by omega), bind_ok,
    @read_A_ok M N m (i + 6) jj (by omega) (by omega), bind_ok,
    @read_A_ok M N m (i + 7) jj (by omega) (by omega), bind_ok,
    @write_B_ok M N _ jj (i + 4) (by omega) (by omega), bind_ok,
    @write_B_ok M N _ jj (i + 5) (by omega) (by omega), bind_ok,
    @write_B_ok M N _ jj (i + 6) (by omega) (by omega), bind_ok,
    @write_B_ok M N _ jj (i + 7) (by omega) (by omega), bind_ok,
    @write_B_ok M N _ (jj + 4) (i + 0) (by omega) (by omega), bind_ok,
    @write_B_ok M N _ (jj + 4) (i + 1) (by omega) (by omega), bind_ok,
    @write_B_ok M N _ (jj + 4) (i + 2) (by omega) (by omega), bind_ok,
    @write_B_ok M N _ (jj + 4) (i + 3) (by omega) (by omega), bind_ok]
  refine congrArg _ (congrArg (matrices.mk m.A) ?_)
  funext r c
  simp only [Nat.add_zero]
  by_cases h1 : r = jj ∧ i + 4 ≤ c ∧ c < i + 8
  · rw [if_pos h1]
    obtain ⟨rfl, h2, h3⟩ := h1
    obtain rfl | rfl | rfl | rfl : c = i + 4 ∨ c = i + 5 ∨ c = i + 6 ∨ c = i + 7 := by omega
    all_goals simp
  · rw [if_neg h1]
    by_cases h2 : r = jj + 4 ∧ i ≤ c ∧ c < i + 4
    · rw [if_pos h2]
      obtain ⟨rfl, h2, h3⟩ := h2
      obtain rfl | rfl | rfl | rfl : c = i ∨ c = i + 1 ∨ c = i + 2 ∨ c = i + 3 := by omega
      all_goals simp
    · rw [if_neg h2]
      iterate 8 rw [if_neg (by omega)]

/-- Step 2 over `k` rows of `B`. -/
theorem step2_spec {M N i : Nat} (hi : i + 8 ≤ N) (k : Nat) :
    ∀ (jj : Nat) (m : matrices), jj + 4 + k ≤ M →
      ∃ m1, step2 M N i k jj m = Except.ok m1 ∧ m1.A = m.A ∧
        ∀ r c, m1.B r c =
          if jj ≤ r ∧ r < jj + k ∧ i + 4 ≤ c ∧ c < i + 8 then m.A c r
          else if jj + 4 ≤ r ∧ r < jj + 4 + k ∧ i ≤ c ∧ c < i + 4 then m.B (r - 4) (c + 4)
          else m.B r c := by
  induction k with
  | zero =>
    intro jj m _
    refine ⟨m, rfl, rfl, ?_⟩
    intro r c
    rw [if_neg (by omega), if_neg (by omega)]
  | succ k ih =>
    intro jj m hk
    rw [step2_iter hi (by omega)]
    obtain ⟨m1, h1, hA, hB⟩ := ih (jj + 1) _ (by omega)
    refine ⟨m1, h1, hA, ?_⟩
    intro r c
    rw [hB r c]
    simp only []
    by_cases a : jj + 1 ≤ r ∧ r < jj + 1 + k ∧ i + 4 ≤ c ∧ c < i + 8
    · rw [if_pos a, if_pos (by omega)]
    · rw [if_neg a]
      by_cases b : jj + 1 + 4 ≤ r ∧ r < jj + 1 + 4 + k ∧ i ≤ c ∧ c < i + 4
      · rw [if_pos b, if_neg (by omega), if_neg (by omega), if_neg (by omega),
          if_pos (by omega)]
      · rw [if_neg b]
        by_cases c1 : r = jj ∧ i + 4 ≤ c ∧ c < i + 8
        · rw [if_pos c1, if_pos (by omega), c1.1]
        · rw [if_neg c1]
          by_cases c2 : r = jj + 4 ∧ i ≤ c ∧ c < i + 4
          · have e : r - 4 = jj := by omega
            rw [if_pos c2, if_neg (by omega), if_pos (by omega), e]
          · rw [if_neg c2, if_neg (by omega), if_neg (by omega)]

/-- One iteration of step 3: row `ii` of `A`, columns `j + 4, ..., j + 7`,
goes to column `ii` of the rows `j + 4, ..., j + 7` of `B`. -/
theorem step3_iter {M N j ii : Nat} (hj : j + 8 ≤ M) (hii : ii < N) (k : Nat)
    (m : matrices) :
    step3 M N j (k + 1) ii m = step3 M N j k (ii + 1)
      { m with B := fun r c =>
        if c = ii ∧ j + 4 ≤ r ∧ r < j + 8 then m.A ii r else m.B r c } := by
  rw [step3,
    @read_A_ok M N m ii (j + 4) (by omega) (by omega), bind_ok,
    @read_A_ok M N m ii (j + 5) (by omega) (by omega), bind_ok,
    @read_A_ok M N m ii (j + 6) (by omega) (by omega), bind_ok,
    @read_A_ok M N m ii (j + 7) (by omega) (by omega), bind_ok,
    @write_B_ok M N _ (j + 4) ii (by omega) (by omega), bind_ok,
    @write_B_ok M N _ (j + 5) ii (by omega) (by omega), bind_ok,
    @write_B_ok M N _ (j + 6) ii (by omega) (by omega), bind_ok,
    @write_B_ok M N _ (j + 7) ii (by omega) (by omega), bind_ok]
  refine congrArg _ (congrArg (matrices.mk m.A) ?_)
  funext r c
  simp only []
  by_cases h1 : c = ii ∧ j + 4 ≤ r ∧ r < j + 8
  · rw [if_pos h1]
    obtain ⟨rfl, h2, h3⟩ := h1
    obtain rfl | rfl | rfl | rfl : r = j + 4 ∨ r = j + 5 ∨ r = j + 6 ∨ r = j + 7 := by omega
    all_goals simp
  · rw [if_neg h1]
    iterate 4 rw [if_neg (by omega)]

/-- Step 3 over `k` rows of `A`. -/
theorem step3_spec {M N j : Nat} (hj : j + 8 ≤ M) (k : Nat) :
    ∀ (ii : Nat) (m : matrices), ii + k ≤ N →
      ∃ m1, step3 M N j k ii m = Except.ok m1 ∧ m1.A = m.A ∧
        ∀ r c, m1.B r c =
          if ii ≤ c ∧ c < ii + k ∧ j + 4 ≤ r ∧ r < j + 8 then m.A c r else m.B r c := by
  induction k with
  | zero =>
    intro ii m _
    refine ⟨m, rfl, rfl, ?_⟩
    intro r c
    rw [if_neg (by omega)]
  | succ k ih =>
    intro ii m hk
    rw [step3_iter hj (by omega)]
    obtain ⟨m1, h1, hA, hB⟩ := ih (ii + 1) _ (by omega)
    refine ⟨m1, h1, hA, ?_⟩
    intro r c
    rw [hB r c]
    simp only []
    by_cases a : ii + 1 ≤ c ∧ c < ii + 1 + k ∧ j + 4 ≤ r ∧ r < j + 8
    · rw [if_pos a, if_pos (by omega)]
    · rw [if_neg a]
      by_cases c1 : c = ii ∧ j + 4 ≤ r ∧ r < j + 8
      · rw [if_pos c1, if_pos (by omega), c1.1]
      · rw [if_neg c1, if_neg (by omega)]

/-- One 8 x 8 block of the 64 x 64 branch: after the three steps the block of
`A` is in `B` transposed, and nothing else in `B` has changed. -/
theorem block_64 {M N i j : Nat} (hi : i + 8 ≤ N) (hj : j + 8 ≤ M) (mj : matrices) :
    ∃ m1, (do
        let m1 ← step1 M N j (i + 4 - i) i mj
        let m2 ← step2 M N i (j + 4 - j) j m1
        step3 M N j (i + 8 - (i + 4)) (i + 4) m2 : Except fault matrices) = Except.ok m1 ∧
      m1.A = mj.A ∧
      ∀ r c, m1.B r c =
        if i ≤ c ∧ c < i + 8 ∧ j ≤ r ∧ r < j + 8 then mj.A c r else mj.B r c := by
  have e1 : i + 4 - i = 4 := by omega
  have e2 : j + 4 - j = 4 := by omega
  have e3 : i + 8 - (i + 4) = 4 := by omega
  rw [e1, e2, e3]
  obtain ⟨m1, h1, hA1, hB1⟩ := @step1_spec M N j hj 4 i mj (by omega)
  obtain ⟨m2, h2, hA2, hB2⟩ := @step2_spec M N i hi 4 j m1 (by omega)
  obtain ⟨m3, h3, hA3, hB3⟩ := @step3_spec M N j hj 4 (i + 4) m2 (by omega)
  rw [h1, bind_ok, h2, bind_ok, h3]
  refine ⟨m3, rfl, by rw [hA3, hA2, hA1], ?_⟩
  intro r c
  rw [hB3 r c, hA2, hA1]
  by_cases q4 : i + 4 ≤ c ∧ c < i + 4 + 4 ∧ j + 4 ≤ r ∧ r < j + 8
  · rw [if_pos q4, if_pos (by omega)]
  · rw [if_neg q4, hB2 r c, hA1]
    by_cases q2 : j ≤ r ∧ r < j + 4 ∧ i + 4 ≤ c ∧ c < i + 8
    · rw [if_pos q2, if_pos (by omega)]
    · rw [if_neg q2]
      by_cases q3 : j + 4 ≤ r ∧ r < j + 4 + 4 ∧ i ≤ c ∧ c < i + 4
      · have ec : c + 4 - 4 = c := by omega
        have er : r - 4 + 4 = r := by omega
        rw [if_pos q3, hB1 (r - 4) (c + 4), if_neg (by omega), if_pos (by omega), ec, er,
          if_pos (by omega)]
      · rw [if_neg q3, hB1 r c]
        by_cases q1 : i ≤ c ∧ c < i + 4 ∧ j ≤ r ∧ r < j + 4
        · rw [if_pos q1, if_pos (by omega)]
        · rw [if_neg q1, if_neg (by omega), if_neg (by omega)]

/-- The branch for 64 x 64 of `transpose_submit`. -/
theorem submit_64_spec (m : matrices) :
    ∃ m1, submit_64 64 64 m = Except.ok m1 ∧ m1.A = m.A ∧
      ∀ r c, m1.B r c = if r < 64 ∧ c < 64 then m.A c r else m.B r c := by
  have hI := INT_MAX_eq
  unfold submit_64
  refine @blocked_transpose 64 64 8 (by norm_num) (by omega) (by omega)
    (fun i j mj => do
      let m1 ← step1 64 64 j (i + 4 - i) i mj
      let m2 ← step2 64 64 i (j + 4 - j) j m1
      step3 64 64 j (i + 8 - (i + 4)) (i + 4) m2) ?_ m
  intro i j mj hi hj hi0 hj0
  obtain ⟨m1, h1, hA, hB⟩ := @block_64 64 64 i j (by omega) (by omega) mj
  refine ⟨m1, h1, hA, ?_⟩
  intro r c
  rw [hB r c]
  by_cases hc : i ≤ c ∧ c < i + 8 ∧ j ≤ r ∧ r < j + 8
  · rw [if_pos hc, if_pos (by omega)]
  · rw [if_neg hc, if_neg (by omega)]

/-- The function `transpose_submit` on dimensions up to `2 ^ 31 - 16`: it
returns, `A` is as before, and `B` holds the transpose of `A`. -/
theorem transpose_submit_spec {M N : Nat} (hM : M ≤ 2 ^ 31 - 16) (hN : N ≤ 2 ^ 31 - 16)
    (m : matrices) :
    ∃ m1, transpose_submit M N m = Except.ok m1 ∧ m1.A = m.A ∧
      ∀ r c, m1.B r c = if r < M ∧ c < N then m.A c r else m.B r c := by
  unfold transpose_submit
  by_cases h32 : M = 32 ∧ N = 32
  · rw [if_pos h32]
    obtain ⟨rfl, rfl⟩ := h32
    exact submit_32_spec m
  · rw [if_neg h32]
    by_cases h64 : M = 64 ∧ N = 64
    · rw [if_pos h64]
      obtain ⟨rfl, rfl⟩ := h64
      exact submit_64_spec m
    · rw [if_neg h64]
      exact submit_fallback_spec hM hN m

theorem trans_cols_spec {M N i : Nat} (hi : i < N) (k : Nat) :
    ∀ (j : Nat) (m : matrices), j + k ≤ M →
      ∃ m1, trans_cols M N i k j m = Except.ok m1 ∧ m1.A = m.A ∧
        ∀ r c, m1.B r c = if c = i ∧ j ≤ r ∧ r < j + k then m.A i r else m.B r c := by
  induction k with
  | zero =>
    intro j m _
    refine ⟨m, rfl, rfl, ?_⟩
    intro r c
    rw [if_neg (by omega)]
  | succ k ih =>
    intro j m hk
    rw [trans_cols, @read_A_ok M N m i j hi (by omega), bind_ok,
      @write_B_ok M N m j i (by omega) hi, bind_ok]
    obtain ⟨m1, h1, hA, hB⟩ := ih (j + 1) _ (by omega)
    refine ⟨m1, h1, hA, ?_⟩
    intro r c
    rw [hB r c]
    simp only []
    by_cases a : c = i ∧ j + 1 ≤ r ∧ r < j + 1 + k
    · rw [if_pos a, if_pos (by omega)]
    · rw [if_neg a]
      by_cases c1 : r = j ∧ c = i
      · rw [if_pos c1, if_pos (by omega), c1.1]
      · rw [if_neg c1, if_neg (by omega)]

theorem trans_rows_spec {M N : Nat} (k : Nat) :
    ∀ (i : Nat) (m : matrices), i + k ≤ N →
      ∃ m1, trans_rows M N k i m = Except.ok m1 ∧ m1.A = m.A ∧
        ∀ r c, m1.B r c = if i ≤ c ∧ c < i + k ∧ r < M then m.A c r else m.B r c := by
  induction k with
  | zero =>
    intro i m _
    refine ⟨m, rfl, rfl, ?_⟩
    intro r c
    rw [if_neg (by omega)]
  | succ k ih =>
    intro i m hk
    obtain ⟨m1, h1, hA1, hB1⟩ := @trans_cols_spec M N i (by omega) (M - 0) 0 m (by omega)
    obtain ⟨m2, h2, hA2, hB2⟩ := ih (i + 1) m1 (by omega)
    refine ⟨m2, ?_, by rw [hA2, hA1], ?_⟩
    · rw [trans_rows, h1, bind_ok]
      exact h2
    · intro r c
      rw [hB2 r c, hA1, hB1 r c]
      by_cases a : i + 1 ≤ c ∧ c < i + 1 + k ∧ r < M
      · rw [if_pos a, if_pos (by omega)]
      · rw [if_neg a]
        by_cases c1 : c = i ∧ 0 ≤ r ∧ r < 0 + (M - 0)
        · rw [if_pos c1, if_pos (by omega), c1.1]
        · rw [if_neg c1, if_neg (by omega)]

/-- The baseline `trans` on all dimensions: it returns, `A` is as before, and
`B` holds the transpose of `A`. -/
theorem trans_spec (M N : Nat) (m : matrices) :
    ∃ m1, trans M N m = Except.ok m1 ∧ m1.A = m.A ∧
      ∀ r c, m1.B r c = if r < M ∧ c < N then m.A c r else m.B r c := by
  obtain ⟨m1, h1, hA, hB⟩ := @trans_rows_spec M N (N - 0) 0 m (by omega)
  refine ⟨m1, h1, hA, ?_⟩
  intro r c
  rw [hB r c]
  by_cases a : r < M ∧ c < N
  · rw [if_pos a, if_pos (by omega)]
  · rw [if_neg a, if_neg (by omega)]

theorem transpose_submit_overflow (m : matrices) :
    transpose_submit 1 (2 ^ 31 - 15) m = Except.error fault.overflow := by
  unfold transpose_submit
  rw [if_neg (by omega), if_neg (by omega)]
  unfold submit_fallback
  exact fallback_rows_overflow (2 ^ 31 - 15) 0 m rfl (by omega) (by omega)

theorem matrices_ext {m1 m2 : matrices} (hA : m1.A = m2.A) (hB : ∀ r c, m1.B r c = m2.B r c) :
    m1 = m2 := by
  cases m1
  cases m2
  simp only [matrices.mk.injEq]
  exact ⟨hA, funext fun r => funext fun c => hB r c⟩

/-- At 3 columns and 2 rows `transpose_submit` takes the fallback and fills
`B` with the transpose of `A`. -/
theorem transpose_submit_example :
    (transpose_submit 3 2 ⟨fun i j => 10 * i + j, fun _ _ => 0⟩).toOption.map
        (fun m => [[m.B 0 0, m.B 0 1], [m.B 1 0, m.B 1 1], [m.B 2 0, m.B 2 1]]) =
      some [[0, 10], [1, 11], [2, 12]] := by
  decide

/-- C12: for all dimensions `M, N ≤ 2 ^ 31 - 16` and all arrays,
`transpose_submit(M, N, A, B)` returns, leaves `A` as it was, ends with
`B[j][i] = A[i][j]` for all `i < N` and `j < M`, and ends in the same arrays as
the baseline `trans`; this covers the branch for 32 x 32, the branch for
64 x 64 with its stash in `B`, and the fallback.  It fails for greater
dimensions: with `M = 1` and `N = 2 ^ 31 - 15`, which is a value of type
`int`, the fallback reaches `i = 2 ^ 31 - 16`, where `i + block` overflows the
type `int`, while the baseline `trans` returns the transpose. -/
theorem C12_transpose_submit_transposes (M N : Nat) (m : matrices) :
    (2 ^ 31 - 15 ≤ INT_MAX ∧
      transpose_submit 1 (2 ^ 31 - 15) m = Except.error fault.overflow ∧
      add_int (2 ^ 31 - 16) 16 = Except.error fault.overflow ∧
      ∃ m2, trans 1 (2 ^ 31 - 15) m = Except.ok m2 ∧ m2.A = m.A ∧
        ∀ i j, i < 2 ^ 31 - 15 → j < 1 → m2.B j i = m.A i j) ∧
    (M ≤ 2 ^ 31 - 16 → N ≤ 2 ^ 31 - 16 →
      ∃ m1, transpose_submit M N m = Except.ok m1 ∧ m1.A = m.A ∧
        (∀ i j, i < N → j < M → m1.B j i = m.A i j) ∧
        trans M N m = Except.ok m1) := by
  have hI := INT_MAX_eq
  refine ⟨⟨by omega, transpose_submit_overflow m, ?_, ?_⟩, ?_⟩
  · rw [add_int, if_neg (by omega)]
  · obtain ⟨m2, h2, hA2, hB2⟩ := trans_spec 1 (2 ^ 31 - 15) m
    refine ⟨m2, h2, hA2, ?_⟩
    intro i j hi hj
    rw [hB2 j i, if_pos ⟨hj, hi⟩]
  · intro hM hN
    obtain ⟨m1, h1, hA1, hB1⟩ := transpose_submit_spec hM hN m
    obtain ⟨m2, h2, hA2, hB2⟩ := trans_spec M N m
    refine ⟨m1, h1, hA1, ?_, ?_⟩
    · intro i j hi hj
      rw [hB1 j i, if_pos ⟨hj, hi⟩]
    · rw [h2]
      exact congrArg _ (matrices_ext (by rw [hA2, hA1]) (fun r c => by rw [hB2 r c, hB1 r c]))

/-- On a 64 x 64 array with the entries `64 * i + j`, `transpose_submit`
returns with `B[j][i] = 64 * i + j`, in the same arrays as `trans`. -/
theorem C12_transpose_submit_transposes_witness :
    (64 ≤ 2 ^ 31 - 16) ∧
    ∃ m1, transpose_submit 64 64 ⟨fun i j => 64 * i + j, fun _ _ => 0⟩ = Except.ok m1 ∧
      (∀ i j, i < 64 → j < 64 → m1.B j i = 64 * i + j) ∧
      trans 64 64 ⟨fun i j => 64 * i + j, fun _ _ => 0⟩ = Except.ok m1 := by
  refine ⟨by norm_num, ?_⟩
  obtain ⟨m1, h1, -, h2, h3⟩ :=
    (C12_transpose_submit_transposes 64 64 ⟨fun i j => 64 * i + j, fun _ _ => 0⟩).2
      (by norm_num) (by norm_num)
  exact ⟨m1, h1, h2, h3⟩

end Csim
